import Mathlib

/-!
# blockhash: perceptual hash kernels and the video frame sampler

A shallow embedding of the numeric kernels of `src/src/phs_dct_image_hash.c`
and of the frame sampling and aggregation of `src/src/process_video.c`.

Conventions of the embedding.

* A C buffer is a `List`; a pointer into it is a `Nat` (or `Int`) offset.
* A read or write outside the buffer is undefined behaviour in C; the
  embedding returns `none` there, so a function that returns `some r`
  performed only in-bounds accesses.
* `while (1)` loops carry a fuel argument; the entry points choose the fuel
  from the input, and the theorems show that it is enough.
* The `float` samples of `rgb_to_y`, `convolve`, `nni_resize` and
  `mul_matrix` are taken in an exact ordered field (or ring).  The two places
  where rounding decides a result are modelled bit-exactly: the `float`
  expression `(r1 + r2) / 2` of `median`, whose value decides hash bits, and
  the `double` product in `floor(frame_count * 0.35)`.
* `size_t` and `uint64_t` arithmetic wraps modulo `2 ^ 64` where a wrap can
  occur (subtraction, left shift).
-/

namespace Blockhash

/-! ## Machine arithmetic -/

/-- Subtraction of two `size_t` / `uint64_t` values (wraps modulo `2 ^ 64`). -/
def usub (a b : Nat) : Nat := (a + 2 ^ 64 - b % 2 ^ 64) % 2 ^ 64

/-- Left shift by one of a `uint64_t` value. -/
def shl1_u64 (a : Nat) : Nat := (a <<< 1) % 2 ^ 64

/-! ## `phs_swap.h` -/

/-- `phs_swap_floats(arr + a, arr + b)` (also `phs_swap_ints`):
`tmp = *a; *a = *b; *b = tmp;`. -/
def phs_swap_floats {α : Type} (arr : List α) (a b : Nat) : Option (List α) :=
  match arr[a]?, arr[b]? with
  | some x, some y => some ((arr.set a y).set b x)
  | _, _ => none

/-! ## `phs_dct_image_hash`: crop and threshold -/

/-- `memcpy(buf + dst, buf + src, n * sizeof(float))` inside one buffer.
Both ranges have to lie in the buffer and must not overlap. -/
def memcpy_within {α : Type} (buf : List α) (dst src n : Nat) : Option (List α) :=
  if src + n ≤ buf.length ∧ dst + n ≤ buf.length ∧ (dst + n ≤ src ∨ src + n ≤ dst) then
    some (buf.take dst ++ ((buf.drop src).take n ++ buf.drop (dst + n)))
  else none

/-- The loop `for(y = 1; y < 9; ++y, p += 8, s += DCT_MATRIX_SIDE_SIZE)
memcpy(p, s, sizeof(float)*8);` with `p`, `s` offsets into `img1`. -/
def crop_loop {α : Type} : Nat → Nat → Nat → Nat → List α → Option (List α)
  | 0, _, _, _, _ => none
  | fuel + 1, y, p, s, img1 =>
    if y < 9 then
      match memcpy_within img1 p s 8 with
      | none => none
      | some img1' => crop_loop fuel (y + 1) (p + 8) (s + 32) img1'
    else some img1

/-- The block `crop(1,1,8,8)` of `phs_dct_image_hash`:
`p = img1`, `s = img1 + DCT_MATRIX_SIDE_SIZE + 1`. -/
def crop {α : Type} (img1 : List α) : Option (List α) :=
  crop_loop 9 1 0 (32 + 1) img1

/-- The loop `for (i = 0; i < 64; i++) { if (img1[i] > median_value)
hash_value |= one; one = one << 1; }`. -/
def threshold_loop {α : Type} [LT α] [DecidableRel (fun (a b : α) => a < b)]
    (img1 : List α) (median_value : α) : Nat → Nat → Nat → Nat → Option Nat
  | 0, _, _, _ => none
  | fuel + 1, i, one, hash_value =>
    if i < 64 then
      match img1[i]? with
      | none => none
      | some v =>
        threshold_loop img1 median_value fuel (i + 1) (shl1_u64 one)
          (if median_value < v then hash_value ||| one else hash_value)
    else some hash_value

/-- The threshold step of `phs_dct_image_hash` once the median is known:
`one = 1`, `hash_value = 0`, then the loop. -/
def threshold_hash {α : Type} [LT α] [DecidableRel (fun (a b : α) => a < b)]
    (img1 : List α) (median_value : α) : Option Nat :=
  threshold_loop img1 median_value 65 0 1 0

/-! ## `convolve` -/

/-- The read `*(buf + i)`. -/
def read_at {α : Type} (buf : List α) (i : Int) : Option α :=
  if 0 ≤ i then buf[i.toNat]? else none

/-- The write `buf[i] = v` into a freshly allocated buffer, whose cells are
`none` until they are written. -/
def write_at {α : Type} (buf : List (Option α)) (i : Int) (v : α) :
    Option (List (Option α)) :=
  if 0 ≤ i ∧ i.toNat < buf.length then some (buf.set i.toNat (some v)) else none

/-- The innermost loop of the "classical correlation" block:
`for (xm = -mx1; xm<=mx2; ++xm, ++pimgx, ++pmaskx) val+= (*pimgx) * (*pmaskx);`. -/
def corr_xm_loop {α : Type} [Add α] [Mul α] (image mask : List α) (mx2 : Int) :
    Nat → Int → Int → Int → α → Option α
  | 0, _, _, _, _ => none
  | fuel + 1, xm, pimgx, pmaskx, val =>
    if xm ≤ mx2 then
      match read_at image pimgx, read_at mask pmaskx with
      | some a, some b =>
        corr_xm_loop image mask mx2 fuel (xm + 1) (pimgx + 1) (pmaskx + 1) (val + a * b)
      | _, _ => none
    else some val

/-- The loop `for (ym = -my1; ym<=my2; ++ym, pimgy += image_width,
pmasky += mask_width) { pmaskx = pmasky; pimgx = pimgy - mx1 + x; ... }`. -/
def corr_ym_loop {α : Type} [Add α] [Mul α] (image mask : List α)
    (image_width mask_width mx1 mx2 my2 x : Int) :
    Nat → Int → Int → Int → α → Option α
  | 0, _, _, _, _ => none
  | fuel + 1, ym, pimgy, pmasky, val =>
    if ym ≤ my2 then
      match corr_xm_loop image mask mx2 ((mx1 + mx2 + 1).toNat + 1) (-mx1) (pimgy - mx1 + x)
          pmasky val with
      | none => none
      | some val' =>
        corr_ym_loop image mask image_width mask_width mx1 mx2 my2 x fuel (ym + 1)
          (pimgy + image_width) (pmasky + mask_width) val'
    else some val

/-- The body of the `x` loop of the "classical correlation" block up to the
store: `pmasky = mask; pimgy = pimg - mx1 + x; val = 0;` and the `ym` loop. -/
def corr_cell {α : Type} [Zero α] [Add α] [Mul α] (image mask : List α)
    (image_width mask_width mx1 mx2 my1 my2 pimg x : Int) : Option α :=
  corr_ym_loop image mask image_width mask_width mx1 mx2 my2 x ((my1 + my2 + 1).toNat + 1)
    (-my1) (pimg - mx1 + x) 0 0

/-- The loop `for (x = mx1; x<mxe; ++x) { ...; p[x] = val; }`. -/
def corr_x_loop {α : Type} [Zero α] [Add α] [Mul α] (image mask : List α)
    (image_width mask_width mx1 mx2 my1 my2 mxe p pimg : Int) :
    Nat → Int → List (Option α) → Option (List (Option α))
  | 0, _, _ => none
  | fuel + 1, x, result =>
    if x < mxe then
      match corr_cell image mask image_width mask_width mx1 mx2 my1 my2 pimg x with
      | none => none
      | some val =>
        match write_at result (p + x) val with
        | none => none
        | some result' =>
          corr_x_loop image mask image_width mask_width mx1 mx2 my1 my2 mxe p pimg fuel
            (x + 1) result'
    else some result

/-- The loop `for (y = my1; y<mye; ++y, p += image_width, pimg += image_width)`. -/
def corr_y_loop {α : Type} [Zero α] [Add α] [Mul α] (image mask : List α)
    (image_width mask_width mx1 mx2 my1 my2 mxe mye : Int) :
    Nat → Int → Int → Int → List (Option α) → Option (List (Option α))
  | 0, _, _, _, _ => none
  | fuel + 1, y, p, pimg, result =>
    if y < mye then
      match corr_x_loop image mask image_width mask_width mx1 mx2 my1 my2 mxe p pimg
          ((mxe - mx1).toNat + 1) mx1 result with
      | none => none
      | some result' =>
        corr_y_loop image mask image_width mask_width mx1 mx2 my1 my2 mxe mye fuel (y + 1)
          (p + image_width) (pimg + image_width) result'
    else some result

/-- The innermost loop of the `boundary_conditions` branch: `xx`, `yy` are
`x + xm`, `y + ym` replaced by `0` or the last coordinate when out of range. -/
def clamp_xm_loop {α : Type} [Add α] [Mul α] (image mask : List α)
    (image_width image_height mx2 x y ym : Int) :
    Nat → Int → Int → α → Option α
  | 0, _, _, _ => none
  | fuel + 1, xm, pmaskx, val =>
    if xm ≤ mx2 then
      let xx := x + xm
      let xx := if xx ≤ 0 then 0 else (if xx ≥ image_width then image_width - 1 else xx)
      let yy := y + ym
      let yy := if yy ≤ 0 then 0 else (if yy ≥ image_height then image_height - 1 else yy)
      match read_at image (yy * image_width + xx), read_at mask pmaskx with
      | some a, some b =>
        clamp_xm_loop image mask image_width image_height mx2 x y ym fuel (xm + 1)
          (pmaskx + 1) (val + a * b)
      | _, _ => none
    else some val

/-- The loop `for (ym = -my1; ym<=my2; ++ym, pmasky += mask_width)` of the
`boundary_conditions` branch. -/
def clamp_ym_loop {α : Type} [Add α] [Mul α] (image mask : List α)
    (image_width image_height mask_width mx1 mx2 my2 x y : Int) :
    Nat → Int → Int → α → Option α
  | 0, _, _, _ => none
  | fuel + 1, ym, pmasky, val =>
    if ym ≤ my2 then
      match clamp_xm_loop image mask image_width image_height mx2 x y ym ((mx1 + mx2 + 1).toNat + 1)
          (-mx1) pmasky val with
      | none => none
      | some val' =>
        clamp_ym_loop image mask image_width image_height mask_width mx1 mx2 my2 x y fuel
          (ym + 1) (pmasky + mask_width) val'
    else some val

/-- The innermost loop of the branch without boundary conditions: samples
out of range contribute nothing. -/
def zero_xm_loop {α : Type} [Add α] [Mul α] (image mask : List α)
    (image_width image_height mx2 x y ym : Int) :
    Nat → Int → Int → α → Option α
  | 0, _, _, _ => none
  | fuel + 1, xm, pmaskx, val =>
    if xm ≤ mx2 then
      let xx := x + xm
      let yy := y + ym
      if xx ≥ 0 ∧ xx < image_width ∧ yy ≥ 0 ∧ yy < image_height then
        match read_at image (yy * image_width + xx), read_at mask pmaskx with
        | some a, some b =>
          zero_xm_loop image mask image_width image_height mx2 x y ym fuel (xm + 1)
            (pmaskx + 1) (val + a * b)
        | _, _ => none
      else
        zero_xm_loop image mask image_width image_height mx2 x y ym fuel (xm + 1)
          (pmaskx + 1) val
    else some val

/-- The loop `for (ym = -my1; ym<=my2; ++ym)` of the branch without boundary
conditions (`pmasky` is not advanced there). -/
def zero_ym_loop {α : Type} [Add α] [Mul α] (image mask : List α)
    (image_width image_height mx1 mx2 my2 x y pmasky : Int) :
    Nat → Int → α → Option α
  | 0, _, _ => none
  | fuel + 1, ym, val =>
    if ym ≤ my2 then
      match zero_xm_loop image mask image_width image_height mx2 x y ym ((mx1 + mx2 + 1).toNat + 1)
          (-mx1) pmasky val with
      | none => none
      | some val' =>
        zero_ym_loop image mask image_width image_height mx1 mx2 my2 x y pmasky fuel
          (ym + 1) val'
    else some val

/-- The border loop over `x` of both boundary branches, with its step
`(y<my1 || y>=mye) ? ++x : ((x<mx1 - 1 || x>=mxe) ? ++x : (x=mxe))`. -/
def border_x_loop {α : Type} [Zero α] [Add α] [Mul α] (image mask : List α)
    (image_width image_height mask_width mx1 mx2 my1 my2 mxe mye boundary_conditions : Int)
    (y p : Int) : Nat → Int → List (Option α) → Option (List (Option α))
  | 0, _, _ => none
  | fuel + 1, x, result =>
    if x < image_width then
      let cell :=
        if boundary_conditions ≠ 0 then
          clamp_ym_loop image mask image_width image_height mask_width mx1 mx2 my2 x y
            ((my1 + my2 + 1).toNat + 1) (-my1) 0 0
        else
          zero_ym_loop image mask image_width image_height mx1 mx2 my2 x y 0
            ((my1 + my2 + 1).toNat + 1) (-my1) 0
      match cell with
      | none => none
      | some val =>
        match write_at result (p + x) val with
        | none => none
        | some result' =>
          border_x_loop image mask image_width image_height mask_width mx1 mx2 my1 my2 mxe mye
            boundary_conditions y p fuel
            (if y < my1 ∨ y ≥ mye then x + 1
             else if x < mx1 - 1 ∨ x ≥ mxe then x + 1 else mxe)
            result'
    else some result

/-- The border loop `for(y = 0; y < image_height; ++y, p += image_width)`. -/
def border_y_loop {α : Type} [Zero α] [Add α] [Mul α] (image mask : List α)
    (image_width image_height mask_width mx1 mx2 my1 my2 mxe mye boundary_conditions : Int) :
    Nat → Int → Int → List (Option α) → Option (List (Option α))
  | 0, _, _, _ => none
  | fuel + 1, y, p, result =>
    if y < image_height then
      match border_x_loop image mask image_width image_height mask_width mx1 mx2 my1 my2 mxe
          mye boundary_conditions y p (image_width.toNat + 1) 0 result with
      | none => none
      | some result' =>
        border_y_loop image mask image_width image_height mask_width mx1 mx2 my1 my2 mxe mye
          boundary_conditions fuel (y + 1) (p + image_width) result'
    else some result

/-- The function `convolve`.  The allocation is taken to succeed; the result
is the allocated buffer, with `none` in a cell that was never written. -/
def convolve {α : Type} [Zero α] [Add α] [Mul α] (image : List α)
    (image_width image_height : Int) (mask : List α) (mask_width mask_height : Int)
    (boundary_conditions : Int) : Option (List (Option α)) :=
  let result : List (Option α) := List.replicate (image_width * image_height).toNat none
  let mx2 := Int.tdiv mask_width 2
  let my2 := Int.tdiv mask_height 2
  let mx1 := mx2 - 1 + Int.tmod mask_width 2
  let my1 := my2 - 1 + Int.tmod mask_height 2
  let mxe := image_width - mx2
  let mye := image_height - my2
  match corr_y_loop image mask image_width mask_width mx1 mx2 my1 my2 mxe mye
      ((mye - my1).toNat + 1) my1 (my1 * image_width) 0 result with
  | none => none
  | some result' =>
    border_y_loop image mask image_width image_height mask_width mx1 mx2 my1 my2 mxe mye
      boundary_conditions (image_height.toNat + 1) 0 0 result'

/-- The static array `mean_filter` of `phs_dct_image_hash`: 49 ones. -/
def mean_filter {α : Type} [One α] : List α := List.replicate (7 * 7) 1

/-- What the specification asks of a smoothed cell: the sum of the 49 input
samples at `(clamp(x+dx, 0, width-1), clamp(y+dy, 0, height-1))` for `dx`,
`dy` in `-3..3` (samples outside the buffer count as zero). -/
def spec_window_sum {α : Type} [AddCommMonoid α] (image : List α) (width height : Int)
    (x y : Int) : α :=
  ((List.range 7).map (fun dy =>
    ((List.range 7).map (fun dx =>
      let xx := max 0 (min (x + (Int.ofNat dx - 3)) (width - 1))
      let yy := max 0 (min (y + (Int.ofNat dy - 3)) (height - 1))
      ((read_at image (yy * width + xx)).getD 0))).sum)).sum

/-! ## `mul_matrix` -/

/-- The loop `for(k = 0; k < w1; ++k, ++p1, p2c += w2) v += (*p1) * (*p2c);`,
returning `v` and the advanced pointers `p1`, `p2c`. -/
def mul_k_loop {α : Type} [Add α] [Mul α] (m1 m2 : List α) (w1 w2 : Nat) :
    Nat → Nat → Nat → Nat → α → Option (α × Nat × Nat)
  | 0, _, _, _, _ => none
  | fuel + 1, k, p1, p2c, v =>
    if k < w1 then
      match m1[p1]?, m2[p2c]? with
      | some a, some b => mul_k_loop m1 m2 w1 w2 fuel (k + 1) (p1 + 1) (p2c + w2) (v + a * b)
      | _, _ => none
    else some (v, p1, p2c)

/-- The loop `for(j = 0; j < h1; ++j, ++pr) { v = 0.0; ...; *pr = v; }`.  The
stores through `pr` fill the result from its start in order, so the result
is kept as the list of values stored so far.  Returns the result and `p1`. -/
def mul_j_loop {α : Type} [Zero α] [Add α] [Mul α] (m1 m2 : List α) (w1 h1 w2 : Nat) :
    Nat → Nat → Nat → Nat → List α → Option (List α × Nat)
  | 0, _, _, _, _ => none
  | fuel + 1, j, p1, p2c, r =>
    if j < h1 then
      match mul_k_loop m1 m2 w1 w2 (w1 + 1) 0 p1 p2c 0 with
      | none => none
      | some (v, p1', p2c') => mul_j_loop m1 m2 w1 h1 w2 fuel (j + 1) p1' p2c' (r ++ [v])
    else some (r, p1)

/-- The loop `for(i = 0; i < w2; ++i, ++p2) { p2c = p2; ... }`. -/
def mul_i_loop {α : Type} [Zero α] [Add α] [Mul α] (m1 m2 : List α) (w1 h1 w2 : Nat) :
    Nat → Nat → Nat → Nat → List α → Option (List α)
  | 0, _, _, _, _ => none
  | fuel + 1, i, p1, p2, r =>
    if i < w2 then
      match mul_j_loop m1 m2 w1 h1 w2 (h1 + 1) 0 p1 p2 r with
      | none => none
      | some (r', p1') => mul_i_loop m1 m2 w1 h1 w2 fuel (i + 1) p1' (p2 + 1) r'
    else some r

/-- The function `mul_matrix` for non-negative dimensions; the allocation is
taken to succeed.  `none` is the `NULL` return for `w1 != h2` and, for
`w1 = h2`, a read outside `m1` or `m2`. -/
def mul_matrix {α : Type} [Zero α] [Add α] [Mul α] (m1 : List α) (w1 h1 : Nat)
    (m2 : List α) (w2 h2 : Nat) : Option (List α) :=
  if w1 = h2 then mul_i_loop m1 m2 w1 h1 w2 (w2 + 1) 0 0 0 []
  else none

/-! ## The cached DCT matrices -/

/-- The functions of `math.h` that `get_dct_matrix` uses, and `M_PI`. -/
structure libm (α : Type) where
  sqrt : α → α
  cos : α → α
  pi : α

/-- The function-local statics of `get_dct_matrix` and
`get_transposed_dct_matrix`. -/
structure dct_statics (α : Type) where
  dct_matrix_prepared : Nat
  dct_matrix : List α
  transposed_dct_matrix_prepared : Nat
  transposed_dct_matrix : List α

/-- The statics at program start: zero initialised. -/
def dct_statics_start {α : Type} [Zero α] : dct_statics α :=
  ⟨0, List.replicate (32 * 32) 0, 0, List.replicate (32 * 32) 0⟩

/-- The values that `get_dct_matrix` stores through `p1`, in order: 32 times
`c1 = 1.0/sqrt(32)`, then for `y = 1..31`, `x = 0..31` the value
`c1 * cos((M_PI/2/32) * y * (2*x + 1))` with `c1 = 1.0/sqrt(2.0/32)`. -/
def dct_matrix_values {α : Type} [Field α] (m : libm α) : List α :=
  (List.range 32).map (fun _ => 1 / m.sqrt 32) ++
  (List.range' 1 31).flatMap (fun y =>
    (List.range 32).map (fun x =>
      1 / m.sqrt (2 / 32) * m.cos (m.pi / 2 / 32 * (y : α) * ((2 * x + 1 : Nat) : α))))

/-- The function `get_dct_matrix`: the statics after the call and the
contents of the returned array. -/
def get_dct_matrix {α : Type} [Field α] (m : libm α) (st : dct_statics α) :
    dct_statics α × List α :=
  if st.dct_matrix_prepared = 0 then
    ({ st with dct_matrix := dct_matrix_values m, dct_matrix_prepared := 1 },
      dct_matrix_values m)
  else (st, st.dct_matrix)

/-- The loop `for (y = 0; y < 32; ++y, ++p1, p += 32) phs_swap_floats(p1, p);`
of `get_transposed_dct_matrix`, returning the array and `p1`. -/
def transpose_y_loop {α : Type} : Nat → Nat → Nat → Nat → List α → Option (List α × Nat)
  | 0, _, _, _, _ => none
  | fuel + 1, y, p1, p, t =>
    if y < 32 then
      match phs_swap_floats t p1 p with
      | none => none
      | some t' => transpose_y_loop fuel (y + 1) (p1 + 1) (p + 32) t'
    else some (t, p1)

/-- The loop `for (x = 0; x < 32; ++x, ++p2) { p = p2; ... }` of
`get_transposed_dct_matrix`. -/
def transpose_x_loop {α : Type} : Nat → Nat → Nat → Nat → List α → Option (List α)
  | 0, _, _, _, _ => none
  | fuel + 1, x, p1, p2, t =>
    if x < 32 then
      match transpose_y_loop 33 0 p1 p2 t with
      | none => none
      | some (t', p1') => transpose_x_loop fuel (x + 1) p1' (p2 + 1) t'
    else some t

/-- The function `get_transposed_dct_matrix`: on the first call it copies
the result of `get_dct_matrix` into its static array and runs the swap
loops. -/
def get_transposed_dct_matrix {α : Type} [Field α] (m : libm α) (st : dct_statics α) :
    Option (dct_statics α × List α) :=
  if st.transposed_dct_matrix_prepared = 0 then
    match transpose_x_loop 33 0 0 0 (get_dct_matrix m st).2 with
    | none => none
    | some t =>
      some ({ (get_dct_matrix m st).1 with
                transposed_dct_matrix := t, transposed_dct_matrix_prepared := 1 }, t)
  else some (st, st.transposed_dct_matrix)

/-- A 9x7 plane whose sample in column `x` is `20 + x`. -/
def plane_9x7 : List Int := (List.range (9 * 7)).map (fun i => 20 + Int.ofNat (i % 9))

/-- The index of the cell mirrored at the diagonal of a 32x32 row-major
matrix. -/
def mirror32 (idx : Nat) : Nat := idx / 32 + 32 * (idx % 32)

/-- The array after `n` of the 1024 swaps: cell `idx` holds the mirrored
entry exactly when one of `idx`, `mirror32 idx` has had its turn as `p1`. -/
def swapped_upto {α : Type} (d cur : List α) (n : Nat) : Prop :=
  cur.length = 1024 ∧
    ∀ idx, idx < 1024 →
      cur[idx]? = if (idx < n ↔ mirror32 idx < n) then d[idx]? else d[mirror32 idx]?

/-! ## `kth_smallest` -/

/-- The statement `if (arr[a] > arr[b]) phs_swap_floats(arr + a, arr + b);`
(also written `arr[b] < arr[a]` in the source). -/
def swap_if_greater {α : Type} [LT α] [DecidableRel (fun (a b : α) => a < b)]
    (arr : List α) (a b : Nat) : Option (List α) :=
  match arr[a]?, arr[b]? with
  | some x, some y => if y < x then phs_swap_floats arr a b else some arr
  | _, _ => none

/-- The loop `do ++i; while (arr[i]<pivot);`, returning the final `i`. -/
def scan_up {α : Type} [LT α] [DecidableRel (fun (a b : α) => a < b)]
    (arr : List α) (pivot : α) : Nat → Nat → Option Nat
  | 0, _ => none
  | fuel + 1, i =>
    match arr[i + 1]? with
    | none => none
    | some v => if v < pivot then scan_up arr pivot fuel (i + 1) else some (i + 1)

/-- The loop `do --j; while (arr[j]>pivot);`, returning the final `j`. -/
def scan_down {α : Type} [LT α] [DecidableRel (fun (a b : α) => a < b)]
    (arr : List α) (pivot : α) : Nat → Nat → Option Nat
  | 0, _ => none
  | fuel + 1, j =>
    match arr[usub j 1]? with
    | none => none
    | some v => if pivot < v then scan_down arr pivot fuel (usub j 1) else some (usub j 1)

/-- The inner `while (1)` of `kth_smallest`: the two scans, `if (j<i) break;`
and the swap.  Returns the array and the final `i`, `j`. -/
def partition_loop {α : Type} [LT α] [DecidableRel (fun (a b : α) => a < b)] (pivot : α) :
    Nat → List α → Nat → Nat → Option (List α × Nat × Nat)
  | 0, _, _, _ => none
  | fuel + 1, arr, i, j =>
    match scan_up arr pivot (arr.length + 1) i with
    | none => none
    | some i' =>
      match scan_down arr pivot (arr.length + 1) j with
      | none => none
      | some j' =>
        if j' < i' then some (arr, i', j')
        else
          match phs_swap_floats arr i' j' with
          | none => none
          | some arr' => partition_loop pivot fuel arr' i' j'

/-- The assignments `arr[l + 1] = arr[j]; arr[j] = pivot;`. -/
def place_pivot {α : Type} (arr : List α) (l j : Nat) (pivot : α) : Option (List α) :=
  match arr[j]? with
  | none => none
  | some aj =>
    if l + 1 < arr.length then some ((arr.set (l + 1) aj).set j pivot) else none

/-- One pass through the `else` branch of the outer loop of `kth_smallest`:
the pivot is chosen as the median of `arr[l]`, `arr[mid]`, `arr[ir]` and put
at `l + 1`, the segment is partitioned, the pivot is placed at `j`, and the
bounds are updated by `if (j>=k) ir = j - 1; if (j<=k) l = i;`.  Returns the
array and the new `l`, `ir`. -/
def select_step {α : Type} [LT α] [DecidableRel (fun (a b : α) => a < b)] (k : Nat)
    (arr : List α) (l ir : Nat) : Option (List α × Nat × Nat) :=
  match phs_swap_floats arr ((l + ir) / 2) (l + 1) with
  | none => none
  | some arr1 =>
    match swap_if_greater arr1 l ir with
    | none => none
    | some arr2 =>
      match swap_if_greater arr2 (l + 1) ir with
      | none => none
      | some arr3 =>
        match swap_if_greater arr3 l (l + 1) with
        | none => none
        | some arr4 =>
          match arr4[l + 1]? with
          | none => none
          | some pivot =>
            match partition_loop pivot arr4.length arr4 (l + 1) ir with
            | none => none
            | some (arr5, i, j) =>
              match place_pivot arr5 l j pivot with
              | none => none
              | some arr6 =>
                some (arr6, if j ≤ k then i else l, if k ≤ j then usub j 1 else ir)

/-- The outer `while(1)` of `kth_smallest` on the copy `arr`, with the
bounds `l`, `ir`; the result is the value stored through `result`. -/
def select_loop {α : Type} [LT α] [DecidableRel (fun (a b : α) => a < b)] (k : Nat) :
    Nat → List α → Nat → Nat → Option α
  | 0, _, _, _ => none
  | fuel + 1, arr, l, ir =>
    if ir ≤ l + 1 then
      if ir = l + 1 then
        match swap_if_greater arr l ir with
        | none => none
        | some arr' => arr'[k]?
      else arr[k]?
    else
      match select_step k arr l ir with
      | none => none
      | some (arr', l', ir') => select_loop k fuel arr' l' ir'

/-- The function `kth_smallest(data, size, k, &result)`: `arr` is the copy of
the `size` leading samples, `l = 0`, `ir = size - 1`.  The allocation is
taken to succeed; `some v` is the return value 0 with `*result = v`. -/
def kth_smallest {α : Type} [LT α] [DecidableRel (fun (a b : α) => a < b)]
    (data : List α) (size k : Nat) : Option α :=
  if size ≤ data.length then select_loop k (size + 1) (data.take size) 0 (usub size 1)
  else none

/-! ## Predicates used to state the loop invariants of `kth_smallest`

The sample at offset `i` of an array is written `arr.getD i d`; the default
`d` is never reached for an offset inside the array. -/

/-- Every sample left of offset `l` is at most every sample from `l` on. -/
def lower_part_le {α : Type} [LE α] (d : α) (arr : List α) (l : Nat) : Prop :=
  ∀ a b, a < l → l ≤ b → b < arr.length → arr.getD a d ≤ arr.getD b d

/-- Every sample up to offset `ir` is at most every sample right of `ir`. -/
def upper_part_ge {α : Type} [LE α] (d : α) (arr : List α) (ir : Nat) : Prop :=
  ∀ a b, a ≤ ir → ir < b → b < arr.length → arr.getD a d ≤ arr.getD b d

/-- The sample at offset `k` is in its sorted position. -/
def settled_at {α : Type} [LE α] (d : α) (arr : List α) (k : Nat) : Prop :=
  (∀ a, a < k → arr.getD a d ≤ arr.getD k d) ∧
    (∀ b, k < b → b < arr.length → arr.getD k d ≤ arr.getD b d)

/-- The array `arr'` is `arr` with the samples at offsets `l..ir` rearranged
among themselves. -/
def segment_shuffle {α : Type} (d : α) (arr arr' : List α) (l ir : Nat) : Prop :=
  arr'.length = arr.length ∧ (∀ p : α → Bool, arr'.countP p = arr.countP p) ∧
    (∀ idx, idx < l ∨ ir < idx → arr'.getD idx d = arr.getD idx d) ∧
    (∀ idx, l ≤ idx → idx ≤ ir →
      ∃ idx', l ≤ idx' ∧ idx' ≤ ir ∧ arr'.getD idx d = arr.getD idx' d)

/-- The invariant of the outer loop of `kth_smallest` on the copy `arr` of
`data`. -/
def select_inv {α : Type} [LE α] (d : α) (data arr : List α) (k l ir : Nat) : Prop :=
  arr.length = data.length ∧ (∀ p : α → Bool, arr.countP p = data.countP p) ∧
    k < arr.length ∧ ir < arr.length ∧ lower_part_le d arr l ∧ upper_part_ge d arr ir ∧
    ((l ≤ k ∧ k ≤ ir) ∨ (k < l ∧ settled_at d arr k))

/-! ## `double` products that are floored to a frame index -/

/-- Number of binary digits of `n`, for `n < 2 ^ fuel`. -/
def bit_length : Nat → Nat → Nat
  | 0, _ => 0
  | fuel + 1, n => if n = 0 then 0 else bit_length fuel (n / 2) + 1

/-- Rounding of a positive integer mantissa `p` to 53 significant bits, ties
to even: the significand rounding of IEEE 754 binary64 (`double`).  As the
rounding is invariant under scaling by powers of two, the `double` nearest to
`p / 2 ^ k` is `round_double p / 2 ^ k` (no overflow or subnormal occurs for
the magnitudes that arise from a 64 bit frame count). -/
def round_double (p : Nat) : Nat :=
  let s := bit_length 192 p - 53
  let q := p / 2 ^ s
  let r := p % 2 ^ s
  let q' := if 2 ^ s < 2 * r ∨ (2 * r = 2 ^ s ∧ q % 2 = 1) then q + 1 else q
  q' * 2 ^ s

/-- The significand numerator of the `double` literal `0.35`, which is
`3152519739159347 / 2 ^ 53`; the literal `0.7` is `3152519739159347 / 2 ^ 52`. -/
def double_035_num : Nat := 3152519739159347

/-- The expression `(size_t)floor(frame_count * c)` for a `uint64_t`
`frame_count` and a `double` constant `c = num / 2 ^ k`: the count is
converted to `double`, the product is rounded to `double`, then floored. -/
def floor_mul_double (frame_count num k : Nat) : Nat :=
  round_double (round_double frame_count * num) / 2 ^ k

/-! ## `float` arithmetic (IEEE 754 binary32)

A `float` that is not a NaN is identified by its code, the integer `c` for
which the value is `c * 2^-149` (`2^-149` is the smallest positive `float`).
The finite `float`s have the codes of absolute value `m * 2^e` with
`m < 2^24` and `m * 2^e <= (2^24 - 1) * 2^253`; the codes `2^128 * 2^149`
and `-(2^128 * 2^149)` stand for `+inf` and `-inf`.  The two
zeros share the code 0: they compare equal, and no comparison made by the
code tells them apart.  Expressions are evaluated in `float`
(`FLT_EVAL_METHOD` 0), in the default rounding mode. -/

/-- The code of `+inf`: `2^128` in units of `2^-149`. -/
def binary32_inf : Nat := 2 ^ 128 * 2 ^ 149

/-- Whether `c` is the code of a `float`: its absolute value has at most 24
significant bits and is at most that of `+inf`. -/
def is_binary32 (c : Int) : Bool :=
  decide (c.natAbs ≤ binary32_inf) &&
    decide (c.natAbs % 2 ^ (bit_length 320 c.natAbs - 24) = 0)

/-- Rounding of the magnitude `p` (in units of `2^-149`) to 24 significant
bits, to nearest and ties to even; a rounded magnitude of `2^128` or more
overflows to infinity. -/
def round_magnitude (p : Nat) : Nat :=
  let s := bit_length 320 p - 24
  let q := p / 2 ^ s
  let r := p % 2 ^ s
  let q' := if 2 ^ s < 2 * r ∨ (2 * r = 2 ^ s ∧ q % 2 = 1) then q + 1 else q
  min (q' * 2 ^ s) binary32_inf

/-- The code of the `float` nearest to `x * 2^-149`. -/
def round_binary32 (x : Int) : Int :=
  if 0 ≤ x then (round_magnitude x.toNat : Int) else -(round_magnitude (-x).toNat : Int)

/-- Half of the magnitude `p`, rounded to a multiple of `2^-149` to nearest
and ties to even. -/
def half_magnitude (p : Nat) : Nat :=
  if p % 2 = 0 then p / 2 else if p / 2 % 2 = 0 then p / 2 else p / 2 + 1

/-- The code of `x / 2` for the code `x` of a finite `float`: the quotient
is a `float` when `x` is even; an odd code is below `2^24`, and its half is
rounded to the nearer even code. -/
def half_code (x : Int) : Int :=
  if 0 ≤ x then (half_magnitude x.toNat : Int) else -(half_magnitude (-x).toNat : Int)

/-- A value of type `float`: a NaN, or the number or infinity with the given
code. -/
inductive binary32 where
  | nan : binary32
  | val (code : Int) : binary32
deriving DecidableEq, Repr

/-- The comparison `a < b` of two `float`s; it is false when an operand is a
NaN. -/
def binary32.lt : binary32 → binary32 → Prop
  | binary32.val a, binary32.val b => a < b
  | _, _ => False

instance binary32.instLT : LT binary32 := ⟨binary32.lt⟩

instance binary32.decLt : DecidableRel (fun (a b : binary32) => a < b)
  | binary32.val a, binary32.val b => inferInstanceAs (Decidable (a < b))
  | binary32.nan, _ => isFalse (fun h => h)
  | binary32.val _, binary32.nan => isFalse (fun h => h)

/-- The sum `a + b` of two `float`s: a NaN operand and `inf + -inf` give a
NaN, an infinite operand gives that infinity, and the sum of two finite
values is rounded. -/
def binary32.add : binary32 → binary32 → binary32
  | binary32.val a, binary32.val b =>
    if a.natAbs = binary32_inf ∧ b = -a then binary32.nan
    else if a.natAbs = binary32_inf then binary32.val a
    else if b.natAbs = binary32_inf then binary32.val b
    else binary32.val (round_binary32 (a + b))
  | _, _ => binary32.nan

/-- The quotient `a / 2` of a `float` by the `int` 2 (converted to `float`):
a NaN stays a NaN and an infinity stays itself. -/
def binary32.half : binary32 → binary32
  | binary32.nan => binary32.nan
  | binary32.val a =>
    if a.natAbs = binary32_inf then binary32.val a else binary32.val (half_code a)

/-- The function `median(data, size, &result)`: the assignment
`*result = (r1 + r2) / 2` is evaluated in `float`. -/
def median (data : List binary32) (size : Nat) : Option binary32 :=
  match kth_smallest data size (size / 2) with
  | none => none
  | some r1 =>
    if size % 2 ≠ 0 then some r1
    else
      match kth_smallest data size (usub (size / 2) 1) with
      | none => none
      | some r2 => some (binary32.half (binary32.add r1 r2))

/-- The median and threshold step of `phs_dct_image_hash`:
`median(img1, 64, &median_value)` and, on success, the threshold loop. -/
def median_threshold (img1 : List binary32) : Option Nat :=
  match median img1 64 with
  | none => none
  | some median_value => threshold_hash img1 median_value

/-! ## `process_video.c`: frame sampling and aggregation -/

/-- The struct `video_frame_info`: `hash` is `none` for a `NULL` pointer. -/
structure video_frame_info where
  frame_number : Nat
  hash : Option (List Int)
  hash_size : Nat
deriving DecidableEq, Repr

/-- The enum `HashingMethod` of `processing.h`. -/
inductive HashingMethod where
  | HM_BLOCKHASH
  | HM_BLOCKHASH_QUICK
  | HM_PHASH_DCT64
deriving DecidableEq, Repr

/-- The comparison `hashing_method < HM_PHASH_DCT64`. -/
def HashingMethod.below_dct64 : HashingMethod → Bool
  | HashingMethod.HM_PHASH_DCT64 => false
  | _ => true

/-- The slots of `process_video_file` after `memset(&hash_frames[0], 0, ...)`
and the block "Determine first and last hash frames" / "Determine middle hash
frames".  The result is `none` in the zero-frame case, which jumps to
`hash_computed` without sampling. -/
def hash_frame_numbers (frame_count : Nat) : Option (List video_frame_info) :=
  let zero : video_frame_info := ⟨0, none, 0⟩
  let first_last : Option (Nat × Nat) :=
    if frame_count < 11 then
      if frame_count > 0 then some (0, usub frame_count 1) else none
    else some (10, usub frame_count 11)
  match first_last with
  | none => none
  | some (f0, f3) =>
    some [{ zero with frame_number := f0 },
          { zero with frame_number := floor_mul_double frame_count double_035_num 53 },
          { zero with frame_number := floor_mul_double frame_count double_035_num 52 },
          { zero with frame_number := f3 }]

/-- The loop `for(i = next_hash_frame; i < HASH_PART_COUNT; ++i)` run for one
decoded frame.  `process_video_frame current_frame` is the hash pointer and
the `hash_size` that `process_video_frame` returns for that frame (`none`
for `NULL`, on which the code leaves through `goto cleanup`).  The result is
the slots and `next_hash_frame`; `none` stands for the `goto cleanup` exit. -/
def slot_loop (process_video_frame : Nat → Option (List Int × Nat)) (current_frame : Nat) :
    Nat → Nat → List video_frame_info → Nat → Option (List video_frame_info × Nat)
  | 0, _, _, _ => none
  | fuel + 1, i, hash_frames, next_hash_frame =>
    if i < 4 then
      match hash_frames[i]? with
      | none => none
      | some slot =>
        if slot.frame_number = current_frame then
          match process_video_frame current_frame with
          | none => none
          | some (hash, hash_size) =>
            slot_loop process_video_frame current_frame fuel (i + 1)
              (hash_frames.set i { slot with hash := some hash, hash_size := hash_size })
              (next_hash_frame + 1)
        else
          slot_loop process_video_frame current_frame fuel (i + 1) hash_frames next_hash_frame
    else some (hash_frames, next_hash_frame)

/-- The loop "Read frames one by one and compute hash for the selected
frames" over a stream that yields `frames` further decoded video frames
(packets of other streams and packets without a frame change nothing). -/
def frame_loop (process_video_frame : Nat → Option (List Int × Nat)) :
    Nat → Nat → List video_frame_info → Nat → Option (List video_frame_info)
  | 0, _, hash_frames, _ => some hash_frames
  | frames + 1, current_frame, hash_frames, next_hash_frame =>
    match slot_loop process_video_frame current_frame 5 next_hash_frame
        hash_frames next_hash_frame with
    | none => none
    | some (hash_frames', next_hash_frame') =>
      frame_loop process_video_frame frames (current_frame + 1) hash_frames' next_hash_frame'

/-- The sampling part of `process_video_file` for a video whose stream
reports `frame_count` frames and yields `decoded` frames:
`next_hash_frame = 0; current_frame = 0;` and the frame loop. -/
def sample_frames (process_video_frame : Nat → Option (List Int × Nat))
    (frame_count decoded : Nat) : Option (List video_frame_info) :=
  match hash_frame_numbers frame_count with
  | none => none
  | some hash_frames => frame_loop process_video_frame decoded 0 hash_frames 0

/-- The statement `memcpy(dest, hash_frames[i].hash, block_size)` into the
combined buffer, whose cells are `none` while uninitialised.  A copy of zero
entries changes nothing. -/
def memcpy_hash (buf : List (Option Int)) (dest : Nat) (src : Option (List Int)) (n : Nat) :
    Option (List (Option Int)) :=
  if n = 0 then some buf
  else
    match src with
    | none => none
    | some h =>
      if n ≤ h.length ∧ dest + n ≤ buf.length then
        some (buf.take dest ++ ((h.take n).map some ++ buf.drop (dest + n)))
      else none

/-- The loop `for(i = 0; i < HASH_PART_COUNT; ++i) { block_size = ...;
memcpy(dest, hash_frames[i].hash, block_size); dest += hash_frames[i].hash_size; }`. -/
def concat_loop (hash_frames : List video_frame_info) :
    Nat → Nat → Nat → List (Option Int) → Option (List (Option Int))
  | 0, _, _, _ => none
  | fuel + 1, i, dest, hash =>
    if i < 4 then
      match hash_frames[i]? with
      | none => none
      | some slot =>
        match memcpy_hash hash dest slot.hash slot.hash_size with
        | none => none
        | some hash' => concat_loop hash_frames fuel (i + 1) (dest + slot.hash_size) hash'
    else some hash

/-- The loop `for(i = 0; i < HASH_PART_COUNT; ++i)
total_hash_size += hash_frames[i].hash_size;`. -/
def total_loop (hash_frames : List video_frame_info) : Nat → Nat → Nat → Option Nat
  | 0, _, _ => none
  | fuel + 1, i, total_hash_size =>
    if i < 4 then
      match hash_frames[i]? with
      | none => none
      | some slot => total_loop hash_frames fuel (i + 1) (total_hash_size + slot.hash_size)
    else some total_hash_size

/-- The aggregation of `process_video_file`: `total_hash_size`, the buffer
of `total_hash_size * HASH_PART_COUNT` ints and the copy loop. -/
def combine_hashes (hash_frames : List video_frame_info) : Option (Nat × List (Option Int)) :=
  match total_loop hash_frames 5 0 0 with
  | none => none
  | some total_hash_size =>
    match concat_loop hash_frames 5 0 0 (List.replicate (total_hash_size * 4) none) with
    | none => none
    | some hash => some (total_hash_size, hash)

/-- The values of a run of cells, provided each of them has been written. -/
def all_initialised : List (Option Int) → Option (List Int)
  | [] => some []
  | none :: _ => none
  | some x :: t => (all_initialised t).map (fun r => x :: r)

/-- The `size` leading entries of a buffer; `none` if one of them is outside
the buffer or uninitialised. -/
def read_entries (hash : List (Option Int)) (size : Nat) : Option (List Int) :=
  if size ≤ hash.length then all_initialised (hash.take size) else none

/-- The entries that `print_hash(opt_filename, hash, size)` of `misc.c`
formats: `hash[0] .. hash[size - 1]`. -/
def print_hash_entries (hash : List (Option Int)) (size : Nat) : Option (List Int) :=
  read_entries hash size

/-- Modelled from the spec: `blockhash_to_str(hash, size)` is declared in
`blockhash.h`, which is not among the sources; it packs the `size` leading
0/1 entries of `hash` into a hex string, so the entries it serializes are
`hash[0] .. hash[size - 1]`. -/
def blockhash_to_str_entries (hash : List (Option Int)) (size : Nat) : Option (List Int) :=
  read_entries hash size

/-- The entries that the code after `hash_computed:` hands to the
serializer: `blockhash_to_str(hash, HASH_PART_COUNT * bits * bits)` for the
block-mean methods, `print_hash(task->src_file_name, hash, total_hash_size)`
for DCT. -/
def serialized_entries (bits : Nat) (hashing_method : HashingMethod)
    (total_hash_size : Nat) (hash : List (Option Int)) : Option (List Int) :=
  if hashing_method.below_dct64 then blockhash_to_str_entries hash (4 * bits * bits)
  else print_hash_entries hash total_hash_size

/-- The aggregation and serialization of `process_video_file` for filled
slots. -/
def video_serialized (bits : Nat) (hashing_method : HashingMethod)
    (hash_frames : List video_frame_info) : Option (List Int) :=
  match combine_hashes hash_frames with
  | none => none
  | some (total_hash_size, hash) => serialized_entries bits hashing_method total_hash_size hash

/-! ## `rgb_to_y` -/

/-- The value `Y = (66*R + 129*G + 25*B + 128)/256 + 16` of `rgb_to_y`. -/
def luma {α : Type} [Field α] (R G B : Fin 256) : α :=
  (66 * (R.val : α) + 129 * (G.val : α) + 25 * (B.val : α) + 128) / 256 + 16

/-- The loop `while(data < data_end) { R = *data++, G = *data++, B = *data++;
Y = ...; *p++ = (float)(Y<0?0:(Y>255?255:Y)); }`.  `data` is the read offset;
the stores through `p` fill the plane from its start, so the plane is kept
as the list of values stored so far. -/
def rgb_to_y_loop {α : Type} [Field α] [LT α] [DecidableRel (fun (a b : α) => a < b)]
    (bytes : List (Fin 256)) (data_end : Nat) : Nat → Nat → List α → Option (List α)
  | 0, _, _ => none
  | fuel + 1, data, result =>
    if data < data_end then
      match bytes[data]?, bytes[data + 1]?, bytes[data + 2]? with
      | some R, some G, some B =>
        rgb_to_y_loop bytes data_end fuel (data + 3)
          (result ++ [if luma R G B < (0 : α) then 0
            else (if (255 : α) < luma R G B then 255 else luma R G B)])
      | _, _, _ => none
    else some result

/-- The function `rgb_to_y(data, width, height)`.  The outer `none` is a read
outside `data` or an overflow of one of the `int` products `width * height`
and `3 * pixel_count` beyond `INT_MAX` (a product below `-2^31`, which needs
a negative dimension, is not modelled as an overflow); `some none` is the
`NULL` return (no pixels, or the allocation failed: `alloc_ok = false`). -/
def rgb_to_y {α : Type} [Field α] [LT α] [DecidableRel (fun (a b : α) => a < b)]
    (alloc_ok : Bool) (bytes : List (Fin 256)) (width height : Int) :
    Option (Option (List α)) :=
  let pixel_count := width * height
  if 2 ^ 31 ≤ pixel_count then none
  else if pixel_count > 0 then
    if alloc_ok then
      if 2 ^ 31 ≤ 3 * pixel_count then none
      else
        match rgb_to_y_loop bytes (3 * pixel_count.toNat) (pixel_count.toNat + 1) 0 [] with
        | none => none
        | some result => some (some result)
    else some none
  else some none

/-- The luminance values of the first `n` RGB triplets of `bytes`. -/
def luma_plane {α : Type} [Field α] (bytes : List (Fin 256)) (n : Nat) : List α :=
  (List.range n).map (fun i =>
    luma (bytes.getD (3 * i) 0) (bytes.getD (3 * i + 1) 0) (bytes.getD (3 * i + 2) 0))

/-! ## `nni_resize` -/

/-- The conversion `(unsigned int) x` of an `int`. -/
def to_unsigned (x : Int) : Nat := (x % 2 ^ 32).toNat

/-- What `nni_resize` returns: `NULL`, the pointer `img` itself, or a newly
allocated plane. -/
inductive resized (α : Type) where
  | null : resized α
  | same : resized α
  | fresh (buf : List α) : resized α

/-- The store `tbl[i] = v` into a freshly allocated offset table, whose cells
are `none` until they are written. -/
def table_write (tbl : List (Option Nat)) (i v : Nat) : Option (List (Option Nat)) :=
  if i < tbl.length then some (tbl.set i (some v)) else none

/-- The read `tbl[i]` of an offset table. -/
def table_read (tbl : List (Option Nat)) (i : Nat) : Option Nat :=
  match tbl[i]? with
  | some (some v) => some v
  | _ => none

/-- The loops `for(i = 0; i < sx; ++i) off_x[i] = 1;` and
`for(i = 0; i < sy; ++i) off_y[i] = width;`. -/
def fill_const_loop (n v : Nat) : Nat → Nat → List (Option Nat) → Option (List (Option Nat))
  | 0, _, _ => none
  | fuel + 1, i, tbl =>
    if i < n then
      match table_write tbl i v with
      | none => none
      | some tbl' => fill_const_loop n v fuel (i + 1) tbl'
    else some tbl

/-- The loops `for(i = 0; i < count; ++i) { old = curr;
curr = (unsigned long)((i + 1.0)*dim/s); *(poff++) = scale*(curr - old); }`
that fill `off_x` (`dim = width`, `s = sx`, no scaling: `scale = 1`) and
`off_y` (`dim = height`, `s = sy`, `scale = width`).  The `double` quotient
is truncated, which for the non-negative dimensions modelled here is the
integer quotient.  Returns the table and the final `poff`. -/
def fill_step_loop (count dim s scale : Nat) :
    Nat → Nat → Nat → Nat → List (Option Nat) → Option (List (Option Nat) × Nat)
  | 0, _, _, _, _ => none
  | fuel + 1, i, poff, curr, tbl =>
    if i < count then
      match table_write tbl poff ((scale * usub ((i + 1) * dim / s) curr) % 2 ^ 64) with
      | none => none
      | some tbl' =>
        fill_step_loop count dim s scale fuel (i + 1) (poff + 1) ((i + 1) * dim / s) tbl'
    else some (tbl, poff)

/-- The loop `for(j = 0; j < sx; ++j) { *p++ = *px; px += *poff_x++; }`.  The
stores through `p` fill the result from its start, so the result is kept as
the list of values stored so far. -/
def resize_row_loop {α : Type} (img : List α) (off_x : List (Option Nat)) (sx : Nat) :
    Nat → Nat → Nat → List α → Option (List α)
  | 0, _, _, _ => none
  | fuel + 1, j, px, result =>
    if j < sx then
      match img[px]?, table_read off_x j with
      | some v, some dx => resize_row_loop img off_x sx fuel (j + 1) (px + dx) (result ++ [v])
      | _, _ => none
    else some result

/-- The loop `for ( ; !dy && i < dy; ++i, p += sx, dy = *poff_y++)
memcpy(p, p - sx, sizeof(float)*sx);`.  Returns the result and the final
`i`, `poff_y`, `dy`. -/
def resize_dup_loop {α : Type} (off_y : List (Option Nat)) (sx : Nat) :
    Nat → Nat → Nat → Nat → List α → Option (List α × Nat × Nat × Nat)
  | 0, _, _, _, _ => none
  | fuel + 1, i, dy, poff_y, result =>
    if dy = 0 ∧ i < dy then
      if sx ≤ result.length then
        match table_read off_y poff_y with
        | none => none
        | some dy' =>
          resize_dup_loop off_y sx fuel (i + 1) dy' (poff_y + 1)
            (result ++ result.drop (result.length - sx))
      else none
    else some (result, i, poff_y, dy)

/-- The loop `for (i = 0; i < sy; ) { px = py; poff_x = off_x; ...; ++i;
dy = *poff_y++; ...; py += dy; }`. -/
def resize_rows_loop {α : Type} (img : List α) (off_x off_y : List (Option Nat))
    (sx sy : Nat) : Nat → Nat → Nat → Nat → List α → Option (List α)
  | 0, _, _, _, _ => none
  | fuel + 1, i, py, poff_y, result =>
    if i < sy then
      match resize_row_loop img off_x sx (sx + 1) 0 py result with
      | none => none
      | some result1 =>
        match table_read off_y poff_y with
        | none => none
        | some dy =>
          match resize_dup_loop off_y sx (sy + 1) (i + 1) dy (poff_y + 1) result1 with
          | none => none
          | some (result2, i', poff_y', dy') =>
            resize_rows_loop img off_x off_y sx sy fuel i' (py + dy') poff_y' result2
    else some result

/-- The function `nni_resize(img, width, height, new_width, new_height)` for
non-negative `width`, `height`.  The three flags tell whether the
allocations of the result, of `off_x` and of `off_y` succeed; the outer
`none` is an access outside a buffer or a read of a cell never written. -/
def nni_resize {α : Type} (alloc_result alloc_off_x alloc_off_y : Bool) (img : List α)
    (width height new_width new_height : Int) : Option (resized α) :=
  let sx0 := to_unsigned (if new_width < 0 then Int.tdiv (-new_width * width) 100 else new_width)
  let sy0 :=
    to_unsigned (if new_height < 0 then Int.tdiv (-new_height * height) 100 else new_height)
  let sx := if sx0 ≠ 0 then sx0 else 1
  let sy := if sy0 ≠ 0 then sy0 else 1
  if sx = to_unsigned width ∧ sy = to_unsigned height then some resized.same
  else if alloc_result = false then some resized.null
  else if alloc_off_x = false then some resized.null
  else if alloc_off_y = false then some resized.null
  else
    let filled_x :=
      if sx = to_unsigned width then fill_const_loop sx 1 (sx + 1) 0 (List.replicate sx none)
      else
        match fill_step_loop sx width.toNat sx 1 (sx + 1) 0 0 0 (List.replicate sx none) with
        | none => none
        | some (tbl, _) => some tbl
    match filled_x with
    | none => none
    | some off_x =>
      let filled_y :=
        if sy = to_unsigned height then
          fill_const_loop sy width.toNat (sy + 1) 0 (List.replicate sy none)
        else
          match fill_step_loop sx height.toNat sy width.toNat (sx + 1) 0 0 0
              (List.replicate sy none) with
          | none => none
          | some (tbl, poff_y) => table_write tbl poff_y 0
      match filled_y with
      | none => none
      | some off_y =>
        match resize_rows_loop img off_x off_y sx sy (sy + 1) 0 0 0 [] with
        | none => none
        | some result => some (resized.fresh result)

/-! ## The hash words and `print_hash` -/

/-- The `int` whose 32 bit pattern is `w`. -/
def to_int32 (w : Nat) : Int :=
  if w % 2 ^ 32 < 2 ^ 31 then Int.ofNat (w % 2 ^ 32) else Int.ofNat (w % 2 ^ 32) - 2 ^ 32

/-- The end of `phs_dct_image_hash`: `result = (int*) malloc(8)`,
`*((uint64_t*)result) = hash_value;` (which on a little-endian host puts the
low word first) and, unless `BIG_ENDIAN` is defined (`phs_endian.h` defines
it on big-endian hosts), `phs_swap_ints(result, result + 1)`. -/
def store_hash_value (big_endian : Bool) (hash_value : Nat) : Option (List Int) :=
  if big_endian then
    some [to_int32 (hash_value / 2 ^ 32), to_int32 (hash_value % 2 ^ 32)]
  else
    phs_swap_floats [to_int32 (hash_value % 2 ^ 32), to_int32 (hash_value / 2 ^ 32)] 0 1

/-- The lowercase hexadecimal digit of value `d < 16`. -/
def hex_digit (d : Nat) : Char :=
  if d < 10 then Char.ofNat (48 + d) else Char.ofNat (87 + d)

/-- The `n` digit hexadecimal numeral of `u`, zero padded, most significant
digit first. -/
def hex_digits (n u : Nat) : List Char :=
  (List.range n).map (fun i => hex_digit (u / 16 ^ (n - 1 - i) % 16))

/-- The conversion `%08x` of `printf` applied to an `int`: the argument is
read as `unsigned int`, which never needs more than 8 digits. -/
def format_08x (x : Int) : List Char := hex_digits 8 (to_unsigned x)

/-- The loop `for (i = 0; i < size; i++) printf("%08x", hash[i]);` of
`print_hash`, appending to the output written so far. -/
def print_hash_loop (hash : List Int) (size : Int) : Nat → Int → List Char → Option (List Char)
  | 0, _, _ => none
  | fuel + 1, i, out =>
    if i < size then
      match read_at hash i with
      | none => none
      | some w => print_hash_loop hash size fuel (i + 1) (out ++ format_08x w)
    else some out

/-- The function `print_hash(opt_filename, hash, size)`: the characters
written to standard output. -/
def print_hash (opt_filename : Option String) (hash : List Int) (size : Int) :
    Option (List Char) :=
  match print_hash_loop hash size (size.toNat + 1) 0 [] with
  | none => none
  | some out =>
    match opt_filename with
    | some name => some (out ++ [Char.ofNat 32, Char.ofNat 32] ++ name.toList ++ [Char.ofNat 10])
    | none => some (out ++ [Char.ofNat 10])

/-- The value of a hexadecimal digit character. -/
def hex_value (c : Char) : Nat :=
  if c.toNat < 58 then c.toNat - 48 else c.toNat - 87

/-- Whether a character is one of `0..9`, `a..f`. -/
def is_lower_hex (c : Char) : Bool :=
  (48 ≤ c.toNat && c.toNat ≤ 57) || (97 ≤ c.toNat && c.toNat ≤ 102)

/-- The number that a string of hexadecimal digits denotes in base 16. -/
def parse_hex (cs : List Char) : Nat :=
  cs.foldl (fun acc c => 16 * acc + hex_value c) 0

/-! ## `phs_dct_image_hash` -/

/-- The callees of `phs_dct_image_hash` whose result it tests for failure,
as functions of the arguments that vary: `convolve(img1, width, height,
mean_filter, 7, 7, 1)`, `nni_resize(img2, width, height, 32, 32)`,
`mul_matrix(a, 32, 32, b, 32, 32)` and `median(img1, 64, &median_value)`.
For each the outer `none` is an access outside a buffer inside the callee and
`some none` its failure return (`NULL`; for `median` a non-zero value). -/
structure dct_callees (α : Type) where
  convolve : List α → Int → Int → Option (Option (List α))
  nni_resize : List α → Int → Int → Option (resized α)
  mul_matrix : List α → List α → Option (Option (List α))
  median : List α → Option (Option α)

/-- The part of `phs_dct_image_hash` from the first `mul_matrix` call on.
`img1` is the resized plane and `hash` what the caller's `*hash` holds; the
result is the return value together with what `*hash` holds afterwards
(`none` for an access outside a buffer).  `alloc_result` tells whether
`malloc(8)` succeeds. -/
def dct_transform_and_threshold {α : Type} [LT α] [DecidableRel (fun (a b : α) => a < b)]
    (K : dct_callees α) (big_endian alloc_result : Bool)
    (dct_matrix transposed_dct_matrix img1 : List α) (hash : Option (List Int)) :
    Option (Int × Option (List Int)) :=
  match K.mul_matrix dct_matrix img1 with
  | none => none
  | some none => some (-1, hash)
  | some (some img2) =>
    match K.mul_matrix img2 transposed_dct_matrix with
    | none => none
    | some none => some (-1, hash)
    | some (some img1) =>
      match crop img1 with
      | none => none
      | some img1 =>
        match K.median img1 with
        | none => none
        | some none => some (-1, hash)
        | some (some median_value) =>
          match threshold_hash img1 median_value with
          | none => none
          | some hash_value =>
            if alloc_result then
              match store_hash_value big_endian hash_value with
              | none => none
              | some result => some (0, some result)
            else some (-1, hash)

/-- The function `phs_dct_image_hash(data, width, height, hash)`.  `hash` is
what the caller's `*hash` holds before the call; the result is the return
value together with what `*hash` holds afterwards, and `none` for an access
outside a buffer.  `alloc_y` tells whether the allocation in `rgb_to_y`
succeeds. -/
def phs_dct_image_hash {α : Type} [Field α] [LT α] [DecidableRel (fun (a b : α) => a < b)]
    (K : dct_callees α) (big_endian alloc_y alloc_result : Bool) (m : libm α)
    (st : dct_statics α) (data : List (Fin 256)) (width height : Int)
    (hash : Option (List Int)) : Option (Int × Option (List Int)) :=
  match get_transposed_dct_matrix m (get_dct_matrix m st).1 with
  | none => none
  | some (_, transposed_dct_matrix) =>
    match rgb_to_y alloc_y data width height with
    | none => none
    | some none => some (-1, hash)
    | some (some img1) =>
      match K.convolve img1 width height with
      | none => none
      | some none => some (-1, hash)
      | some (some img2) =>
        match K.nni_resize img2 width height with
        | none => none
        | some resized.null => some (-1, hash)
        | some resized.same =>
          dct_transform_and_threshold K big_endian alloc_result (get_dct_matrix m st).2
            transposed_dct_matrix img2 hash
        | some (resized.fresh img1') =>
          dct_transform_and_threshold K big_endian alloc_result (get_dct_matrix m st).2
            transposed_dct_matrix img1' hash

/-- Callees that succeed on every input: `convolve` returns the plane
unchanged, `nni_resize` and `mul_matrix` a 32x32 plane of zeros, `median`
the value 0. -/
def zero_callees : dct_callees ℚ :=
  ⟨fun img _ _ => some (some img), fun _ _ _ => some (resized.fresh (List.replicate 1024 0)),
    fun _ _ => some (some (List.replicate 1024 0)), fun _ => some (some 0)⟩

/-- The callee `mul_matrix(a, 32, 32, b, 32, 32)` of `phs_dct_image_hash` as
embedded from the source; the dimensions agree, so it never returns `NULL`. -/
def mul_matrix_callee {α : Type} [Zero α] [Add α] [Mul α] (a b : List α) :
    Option (Option (List α)) :=
  match mul_matrix a 32 32 b 32 32 with
  | none => none
  | some r => some (some r)

/-- Callees whose `mul_matrix` is the one of the source; `convolve` returns
the plane unchanged, `nni_resize` a 32x32 plane of zeros, `median` the
value 0. -/
def source_mul_callees : dct_callees ℚ :=
  ⟨fun img _ _ => some (some img), fun _ _ _ => some (resized.fresh (List.replicate 1024 0)),
    mul_matrix_callee, fun _ => some (some 0)⟩

/-! ## `compute_image_hash`, `process_video_frame` and `process_video_file` -/

/-- The function `compute_image_hash(magick_wand, bits, hashing_method, hash,
hash_size)` for an image of `width` x `height` pixels.  `hash` and
`hash_size` are what the caller's `*hash` and `*hash_size` hold before the
call (`none`: never written); the result is the return value with what they
hold afterwards, and `none` for a signed overflow of `bits * bits`.
`alloc_h` and `alloc_image_data` tell whether the two `malloc` calls succeed,
`export_ok` whether `MagickExportImagePixels` succeeds; `hasher` gives, for
the selected function (`blockhash`, `blockhash_quick`, `phs_dct_image_hash`)
and the contents of `*hash`, its return value and what it leaves in `*hash`. -/
def compute_image_hash (alloc_h alloc_image_data export_ok : Bool)
    (hasher : HashingMethod → Option (List Int) → Int × Option (List Int))
    (width height : Nat) (bits : Int) (hashing_method : HashingMethod)
    (hash : Option (List Int)) (hash_size : Option Int) :
    Option (Int × Option (List Int) × Option Int) :=
  let data_size := width * height * (if hashing_method.below_dct64 then 4 else 3) % 2 ^ 64
  if data_size = 0 then
    if bits * bits < 2 ^ 31 then
      if alloc_h then some (0, some (List.replicate (bits * bits).toNat 0), hash_size)
      else some (1, hash, hash_size)
    else none
  else if alloc_image_data = false then some (2, hash, hash_size)
  else if export_ok = false then some (3, hash, hash_size)
  else
    match hashing_method with
    | HashingMethod.HM_BLOCKHASH =>
      if (hasher HashingMethod.HM_BLOCKHASH hash).1 = 0 then
        if bits * bits < 2 ^ 31 then
          some (0, (hasher HashingMethod.HM_BLOCKHASH hash).2, some (bits * bits))
        else none
      else some ((hasher HashingMethod.HM_BLOCKHASH hash).1,
        (hasher HashingMethod.HM_BLOCKHASH hash).2, hash_size)
    | HashingMethod.HM_BLOCKHASH_QUICK =>
      if (hasher HashingMethod.HM_BLOCKHASH_QUICK hash).1 = 0 then
        if bits * bits < 2 ^ 31 then
          some (0, (hasher HashingMethod.HM_BLOCKHASH_QUICK hash).2, some (bits * bits))
        else none
      else some ((hasher HashingMethod.HM_BLOCKHASH_QUICK hash).1,
        (hasher HashingMethod.HM_BLOCKHASH_QUICK hash).2, hash_size)
    | HashingMethod.HM_PHASH_DCT64 =>
      if (hasher HashingMethod.HM_PHASH_DCT64 hash).1 = 0 then
        some (0, (hasher HashingMethod.HM_PHASH_DCT64 hash).2, some 2)
      else some ((hasher HashingMethod.HM_PHASH_DCT64 hash).1,
        (hasher HashingMethod.HM_PHASH_DCT64 hash).2, hash_size)

/-- The function `process_video_frame`: `load_ok` tells whether
`load_image_from_frame` succeeds, the other arguments are those of the
`compute_image_hash` call, which gets the address of the local `hash` (not
initialised) and the slot's `hash_size`.  The result is the returned pointer
(`none` for `NULL`) with the slot's `hash_size`; the outer `none` stands for
`return hash;` with `hash` never written. -/
def process_video_frame (load_ok alloc_h alloc_image_data export_ok : Bool)
    (hasher : HashingMethod → Option (List Int) → Int × Option (List Int))
    (width height : Nat) (bits : Int) (hashing_method : HashingMethod)
    (hash_size : Option Int) : Option (Option (List Int) × Option Int) :=
  if load_ok = false then some (none, hash_size)
  else
    match compute_image_hash alloc_h alloc_image_data export_ok hasher width height bits
        hashing_method none hash_size with
    | none => none
    | some (_, none, _) => none
    | some (_, some hash, hash_size') => some (some hash, hash_size')

/-- The code of `process_video_file` after the label `hash_computed:`,
entered with `result` = 0.  `total_hash_size` is `none` while that variable
has not been assigned; `alloc_hex` tells whether `blockhash_to_str` can
allocate its string.  The result is the return value with the entries
serialized (`none`: nothing printed); the outer `none` is a read outside
`hash` or of a variable never assigned. -/
def hash_computed (alloc_hex : Bool) (bits : Nat) (hashing_method : HashingMethod)
    (total_hash_size : Option Nat) (hash : List (Option Int)) :
    Option (Int × Option (List Int)) :=
  if hashing_method.below_dct64 then
    match blockhash_to_str_entries hash (4 * bits * bits) with
    | none => none
    | some entries => if alloc_hex then some (0, some entries) else some (-1, none)
  else
    match total_hash_size with
    | none => none
    | some size =>
      match print_hash_entries hash size with
      | none => none
      | some entries => some (0, some entries)

/-- The function `process_video_file` from "Determine first and last hash
frames" on, for a file that opens and whose picture buffer and scaling
context can be set up.  `frame_count` is the frame count, `decoded` the
number of frames the read loop decodes, `process_video_frame f` what
`process_video_frame` returns for frame `f` (`none` for `NULL`);
`alloc_zero` and `alloc_hash` tell whether the `malloc` of the zero-frame
hash and of the combined hash succeed.  `result` is 0 when this part is
entered. -/
def process_video_file (process_video_frame : Nat → Option (List Int × Nat))
    (alloc_zero alloc_hash alloc_hex : Bool) (bits : Nat) (hashing_method : HashingMethod)
    (frame_count decoded : Nat) : Option (Int × Option (List Int)) :=
  match hash_frame_numbers frame_count with
  | none =>
    if alloc_zero = false then some (-1, none)
    else
      hash_computed alloc_hex bits hashing_method none (List.replicate (bits * bits) (some 0))
  | some hash_frames =>
    match frame_loop process_video_frame decoded 0 hash_frames 0 with
    | none => some (0, none)
    | some hash_frames' =>
      if alloc_hash = false then some (0, none)
      else
        match combine_hashes hash_frames' with
        | none => none
        | some (total_hash_size, hash) =>
          hash_computed alloc_hex bits hashing_method (some total_hash_size) hash

/-! ## `main` -/

/-- The struct `hash_computation_task` of `main.c`. -/
structure hash_computation_task where
  file_name : String
  bits : Int
  quick : Int
  debug : Int
  video : Int
deriving DecidableEq, Repr

/-- One option of the command line as the `switch` of `main` sees it: the
character `getopt_long` returns for it.  For `b` (`-b`, `--bits`) `parsed` is
the value that `sscanf(optarg, "%d", &task.bits)` stores, `none` if it
converts nothing; `unknown` is the return value `?`. -/
inductive cli_option where
  | help : cli_option
  | version : cli_option
  | quick : cli_option
  | video : cli_option
  | bits (parsed : Option Int) : cli_option
  | debug : cli_option
  | unknown : cli_option
deriving DecidableEq, Repr

/-- The loop `while ((c = getopt_long(...)) != -1) switch (c) { ... }` of
`main` over the options still to come, with the current `task` and
`custom_bits_defined`.  `Except.error code` is a `return code;` from inside
the loop. -/
def option_loop : List cli_option → hash_computation_task → Int →
    Except Int (hash_computation_task × Int)
  | [], task, custom_bits_defined => Except.ok (task, custom_bits_defined)
  | cli_option.help :: _, _, _ => Except.error 0
  | cli_option.version :: _, _, _ => Except.error 0
  | cli_option.quick :: rest, task, custom_bits_defined =>
    option_loop rest { task with quick := 1 } custom_bits_defined
  | cli_option.video :: rest, task, custom_bits_defined =>
    option_loop rest { task with video := 1 } custom_bits_defined
  | cli_option.bits none :: _, _, _ => Except.error 2
  | cli_option.bits (some v) :: rest, task, _ =>
    if Int.tmod v 4 ≠ 0 then Except.error 2
    else option_loop rest { task with bits := v } 1
  | cli_option.debug :: rest, task, custom_bits_defined =>
    option_loop rest { task with debug := 1 } custom_bits_defined
  | cli_option.unknown :: _, _, _ => Except.error (-1)

/-- The loop `while (optind < argc) { task.file_name = argv[optind];
result = process_task(&task); if(result) ++n_failed; else ++n_succeeded;
++optind; }`, returning `n_failed` and the tasks handed to `process_task`,
in order. -/
def file_loop (process_task : hash_computation_task → Int) :
    List String → hash_computation_task → Int → List hash_computation_task →
    Int × List hash_computation_task
  | [], _, n_failed, processed => (n_failed, processed)
  | file :: rest, task, n_failed, processed =>
    file_loop process_task rest { task with file_name := file }
      (if process_task { task with file_name := file } ≠ 0 then n_failed + 1 else n_failed)
      (processed ++ [{ task with file_name := file }])

/-- The function `main` for a command line made of `options` and, after
them, the file names `files` (`getopt_long` moves the options to the front).
The result is the exit code together with the tasks handed to
`process_task`. -/
def main (process_task : hash_computation_task → Int) (options : List cli_option)
    (files : List String) : Int × List hash_computation_task :=
  if options.isEmpty && files.isEmpty then (1, [])
  else
    match option_loop options ⟨"", 0, 0, 0, 0⟩ 0 with
    | Except.error code => (code, [])
    | Except.ok (task, custom_bits_defined) =>
      if files.isEmpty then (0, [])
      else
        let task1 := if custom_bits_defined = 0 then { task with bits := 16 } else task
        let task2 := if task1.video ≠ 0 then { task1 with bits := Int.tdiv task1.bits 2 }
          else task1
        ((if (file_loop process_task files task2 0 []).1 > 0 then 1 else 0),
          (file_loop process_task files task2 0 []).2)

/-- The options after which the option loop of `main` goes on: `q`, `V`,
`d`, and `b` with a value that is a multiple of 4. -/
def cli_option.accepted : cli_option → Bool
  | cli_option.quick => true
  | cli_option.video => true
  | cli_option.debug => true
  | cli_option.bits (some v) => decide (Int.tmod v 4 = 0)
  | _ => false

/-- The state of the four slots while the frames are read: slot `i` keeps
its frame number `fs[i]`, and each of the first `n` slots holds the hash and
hash size that `g` gives for its frame. -/
def slots_filled (g : Nat → List Int × Nat) (fs : List Nat) (hash_frames : List video_frame_info)
    (n : Nat) : Prop :=
  hash_frames.length = 4 ∧
    ∀ i, i < 4 → ∃ slot, hash_frames[i]? = some slot ∧ slot.frame_number = fs.getD i 0 ∧
      (i < n → slot.hash = some (g (fs.getD i 0)).1 ∧ slot.hash_size = (g (fs.getD i 0)).2)

/-- The value of the last `--bits` option among options that the option loop
accepts; `none` when there is none. -/
def last_bits : List cli_option → Option Int
  | [] => none
  | cli_option.bits (some v) :: rest =>
    match last_bits rest with
    | some w => some w
    | none => some v
  | _ :: rest => last_bits rest

/-! # Theorems -/

/-! ## Lemmas: crop -/

theorem memcpy_within_spec {α : Type} (buf : List α) (dst src n : Nat)
    (h1 : src + n ≤ buf.length) (h2 : dst + n ≤ buf.length)
    (h3 : dst + n ≤ src ∨ src + n ≤ dst) :
    ∃ b, memcpy_within buf dst src n = some b ∧ b.length = buf.length ∧
      ∀ i, b[i]? = if dst ≤ i ∧ i < dst + n then buf[src + (i - dst)]? else buf[i]? := by
  refine ⟨_, if_pos ⟨h1, h2, h3⟩, ?_, ?_⟩
  · simp only [List.length_append, List.length_take, List.length_drop]
    omega
  · intro i
    by_cases hi : i < dst
    · rw [List.getElem?_append_left (by simp; omega)]
      rw [List.getElem?_take_of_lt hi]
      have : ¬ (dst ≤ i ∧ i < dst + n) := by omega
      rw [if_neg this]
    · have hlen : (List.take dst buf).length = dst := by simp; omega
      rw [List.getElem?_append_right (by omega), hlen]
      by_cases hi2 : i < dst + n
      · rw [if_pos ⟨by omega, hi2⟩]
        rw [List.getElem?_append_left (by simp; omega)]
        rw [List.getElem?_take_of_lt (by omega), List.getElem?_drop]
      · have : ¬ (dst ≤ i ∧ i < dst + n) := by omega
        rw [if_neg this]
        have hlen2 : (List.take n (List.drop src buf)).length = n := by simp; omega
        rw [List.getElem?_append_right (by omega), hlen2, List.getElem?_drop]
        congr 1
        omega

theorem crop_loop_spec {α : Type} :
    ∀ (fuel y : Nat) (img1 : List α), 1 ≤ y → y ≤ 9 → 10 ≤ fuel + y →
      img1.length = 1024 →
      ∃ b, crop_loop fuel y (8 * (y - 1)) (32 * y + 1) img1 = some b ∧ b.length = 1024 ∧
        ∀ i, b[i]? = if 8 * (y - 1) ≤ i ∧ i < 64
          then img1[32 * (i / 8 + 1) + (i % 8 + 1)]? else img1[i]? := by
  intro fuel
  induction fuel with
  | zero => intro y img1 _ h9 hf; omega
  | succ fuel ih =>
    intro y img1 h1 h9 hf hlen
    unfold crop_loop
    by_cases hy : y < 9
    · rw [if_pos hy]
      obtain ⟨b1, hb1, hl1, hg1⟩ := memcpy_within_spec img1 (8 * (y - 1)) (32 * y + 1) 8
        (by omega) (by omega) (by omega)
      rw [hb1]
      obtain ⟨b, hb, hl, hg⟩ := ih (y + 1) b1 (by omega) (by omega) (by omega) (hl1.trans hlen)
      have e1 : 8 * (y - 1) + 8 = 8 * (y + 1 - 1) := by omega
      have e2 : 32 * y + 1 + 32 = 32 * (y + 1) + 1 := by omega
      simp only [e1, e2]
      refine ⟨b, hb, hl, ?_⟩
      intro i
      rw [hg i]
      by_cases c1 : 8 * (y + 1 - 1) ≤ i ∧ i < 64
      · rw [if_pos c1, if_pos (by omega), hg1]
        rw [if_neg (by omega)]
      · rw [if_neg c1, hg1]
        by_cases c2 : 8 * (y - 1) ≤ i ∧ i < 8 * (y - 1) + 8
        · rw [if_pos c2, if_pos (by omega)]
          congr 1
          omega
        · rw [if_neg c2, if_neg (by omega)]
    · rw [if_neg hy]
      refine ⟨img1, rfl, hlen, ?_⟩
      intro i
      rw [if_neg (by omega)]

/-- C7: for every 32x32 matrix `M`, the in-place crop loop of
`phs_dct_image_hash` succeeds (no overlapping or out-of-range `memcpy`), and
afterwards `buffer[8*r + c] = M[(r+1)*32 + (c+1)]` for all `r, c < 8`. -/
theorem crop_is_low_frequency_block {α : Type} (M : List α) (hM : M.length = 1024) :
    ∃ buffer, crop M = some buffer ∧ buffer.length = 1024 ∧
      ∀ r c, r < 8 → c < 8 → buffer[8 * r + c]? = M[(r + 1) * 32 + (c + 1)]? := by
  obtain ⟨b, hb, hl, hg⟩ := crop_loop_spec 9 1 M (by omega) (by omega) (by omega) hM
  refine ⟨b, hb, hl, ?_⟩
  intro r c hr hc
  rw [hg, if_pos (by omega)]
  congr 1
  omega

theorem crop_is_low_frequency_block_witness :
    (List.range 1024).length = 1024 ∧
    ∃ buffer, crop (List.range 1024) = some buffer ∧ buffer.length = 1024 ∧
      ∀ r c, r < 8 → c < 8 →
        buffer[8 * r + c]? = (List.range 1024)[(r + 1) * 32 + (c + 1)]? :=
  ⟨List.length_range 1024, crop_is_low_frequency_block (List.range 1024) (List.length_range 1024)⟩

/-! ## Lemmas: threshold -/

theorem threshold_loop_spec {α : Type} [LT α] [DecidableRel (fun (a b : α) => a < b)]
    (img1 : List α) (m : α) (hlen : 64 ≤ img1.length) :
    ∀ (fuel i one hash_value : Nat), i ≤ 64 → 65 ≤ fuel + i → one = 2 ^ i % 2 ^ 64 →
      hash_value < 2 ^ i →
      ∃ h, threshold_loop img1 m fuel i one hash_value = some h ∧ h < 2 ^ 64 ∧
        ∀ j (hj : j < 64), h.testBit j =
          if j < i then hash_value.testBit j
          else decide (m < img1.get ⟨j, by omega⟩) := by
  intro fuel
  induction fuel with
  | zero => intro i one hv hi hf; omega
  | succ fuel ih =>
    intro i one hv hi hf hone hhv
    unfold threshold_loop
    by_cases h64 : i < 64
    · rw [if_pos h64]
      have hget : img1[i]? = some (img1.get ⟨i, by omega⟩) := by
        rw [List.getElem?_eq_getElem (by omega)]; rfl
      rw [hget]
      have hone2 : one = 2 ^ i := by
        rw [hone]; exact Nat.mod_eq_of_lt (Nat.pow_lt_pow_right (by omega) h64)
      have hshl : shl1_u64 one = 2 ^ (i + 1) % 2 ^ 64 := by
        unfold shl1_u64; rw [hone2, Nat.shiftLeft_eq, pow_one, ← pow_succ]
      have hpow : (2 : Nat) ^ i < 2 ^ (i + 1) := Nat.pow_lt_pow_right (by omega) (by omega)
      have hnew : (if m < img1.get ⟨i, by omega⟩ then hv ||| one else hv) < 2 ^ (i + 1) := by
        split
        · rw [hone2]; exact Nat.or_lt_two_pow (by omega) hpow
        · omega
      obtain ⟨h, hh, hlt, hbits⟩ := ih (i + 1) _ _ (by omega) (by omega) hshl hnew
      refine ⟨h, hh, hlt, ?_⟩
      intro j hj
      rw [hbits j hj]
      by_cases c1 : j < i
      · rw [if_pos c1, if_pos (by omega)]
        split
        · rw [Nat.testBit_or, hone2, Nat.testBit_two_pow]
          have : decide (i = j) = false := by simp; omega
          rw [this, Bool.or_false]
        · rfl
      · rw [if_neg c1]
        by_cases c2 : j = i
        · subst c2
          rw [if_pos (by omega)]
          split
          · rename_i hlt2
            rw [Nat.testBit_or, hone2, Nat.testBit_two_pow]
            simp only [decide_True, Bool.or_true]
            exact (decide_eq_true hlt2).symm
          · rename_i hlt2
            rw [Nat.testBit_lt_two_pow hhv]
            exact (decide_eq_false hlt2).symm
        · rw [if_neg (by omega)]
    · rw [if_neg h64]
      have hi64 : i = 64 := by omega
      subst hi64
      refine ⟨hv, rfl, hhv, ?_⟩
      intro j hj
      rw [if_pos hj]

/-- The threshold loop sets bit `i` exactly when `value[i] > m`. -/
theorem threshold_hash_spec {α : Type} [LT α] [DecidableRel (fun (a b : α) => a < b)]
    (value : List α) (m : α) (hlen : 64 ≤ value.length) :
    ∃ hash_value, threshold_hash value m = some hash_value ∧ hash_value < 2 ^ 64 ∧
      ∀ i (hi : i < 64), (hash_value.testBit i = true ↔ m < value.get ⟨i, by omega⟩) := by
  obtain ⟨h, hh, hlt, hbits⟩ :=
    threshold_loop_spec value m hlen 65 0 1 0 (by omega) (by omega) (by norm_num) (by norm_num)
  refine ⟨h, hh, hlt, ?_⟩
  intro i hi
  rw [hbits i hi, if_neg (by omega)]
  simp

/-- C6: for every cropped block `value[0..63]` and median `m`, the threshold
loop of `phs_dct_image_hash` yields a 64-bit word whose bit `i` (bit 0 the
least significant) is set if and only if `value[i] > m`, for every `i < 64`. -/
theorem threshold_hash_bits {α : Type} [LT α] [DecidableRel (fun (a b : α) => a < b)]
    (value : List α) (m : α) (hlen : 64 ≤ value.length) :
    ∃ hash_value, threshold_hash value m = some hash_value ∧ hash_value < 2 ^ 64 ∧
      ∀ i (hi : i < 64), (hash_value.testBit i = true ↔ m < value.get ⟨i, by omega⟩) :=
  threshold_hash_spec value m hlen

theorem threshold_hash_bits_witness :
    64 ≤ (List.range 64).length ∧
    ∃ hash_value, threshold_hash (List.range 64) 31 = some hash_value ∧ hash_value < 2 ^ 64 ∧
      ∀ i (hi : i < 64), (hash_value.testBit i = true ↔
        31 < (List.range 64).get ⟨i, by rw [List.length_range]; exact hi⟩) :=
  ⟨by simp, threshold_hash_bits (List.range 64) 31 (by simp)⟩

/-! ## Frame sampling -/

set_option maxRecDepth 100000 in
theorem floor_mul_double_small :
    ∀ n < 90, floor_mul_double n double_035_num 53 = 35 * n / 100 ∧
      floor_mul_double n double_035_num 52 = 70 * n / 100 := by
  decide

/-- C8 (counterexample): for a 90 frame video the code samples the frames
(10, 31, 62, 79): the `double` product `90 * 0.7` is just below 63 and floors
to 62, whereas `floor(0.70 * 90)` is 63. -/
theorem hash_frame_numbers_90_frames :
    hash_frame_numbers 90 =
        some [⟨10, none, 0⟩, ⟨31, none, 0⟩, ⟨62, none, 0⟩, ⟨79, none, 0⟩] ∧
      70 * 90 / 100 = 63 ∧
      hash_frame_numbers 90 ≠
        some [⟨10, none, 0⟩, ⟨35 * 90 / 100, none, 0⟩, ⟨70 * 90 / 100, none, 0⟩,
          ⟨90 - 11, none, 0⟩] := by
  decide

/-- C8 (amended): for every frame count `0 < N < 2 ^ 64` the slot indices
are, in slot order, `0` (`N < 11`) or `10`, the floor of the `double` product
`N * 0.35`, the floor of the `double` product `N * 0.7`, and `N - 1`
(`N < 11`) or `N - 11`; the two floors equal `floor(0.35 N)` and
`floor(0.70 N)` for every `N < 90` and for `N = 100`, so that `N = 10` gives
(0, 3, 7, 9) and `N = 100` gives (10, 35, 70, 89). -/
theorem hash_frame_numbers_spec (N : Nat) (hpos : 0 < N) (hu64 : N < 2 ^ 64) :
    hash_frame_numbers N =
        some [⟨if N < 11 then 0 else 10, none, 0⟩,
          ⟨floor_mul_double N double_035_num 53, none, 0⟩,
          ⟨floor_mul_double N double_035_num 52, none, 0⟩,
          ⟨if N < 11 then N - 1 else N - 11, none, 0⟩] ∧
      (N < 90 ∨ N = 100 →
        floor_mul_double N double_035_num 53 = 35 * N / 100 ∧
        floor_mul_double N double_035_num 52 = 70 * N / 100) ∧
      (N = 10 → hash_frame_numbers N =
        some [⟨0, none, 0⟩, ⟨3, none, 0⟩, ⟨7, none, 0⟩, ⟨9, none, 0⟩]) ∧
      (N = 100 → hash_frame_numbers N =
        some [⟨10, none, 0⟩, ⟨35, none, 0⟩, ⟨70, none, 0⟩, ⟨89, none, 0⟩]) := by
  refine ⟨?_, ?_, ?_, ?_⟩
  · have h1 : usub N 1 = N - 1 := by unfold usub; omega
    have h11 : 11 ≤ N → usub N 11 = N - 11 := by intro h; unfold usub; omega
    unfold hash_frame_numbers
    by_cases h : N < 11
    · simp [h, hpos, h1]
    · simp [h, h11 (by omega)]
  · rintro (h | h)
    · exact floor_mul_double_small N h
    · subst h; decide
  · intro h; subst h; decide
  · intro h; subst h; decide

theorem hash_frame_numbers_spec_witness :
    0 < 10 ∧ 10 < 2 ^ 64 ∧
      hash_frame_numbers 10 =
        some [⟨0, none, 0⟩, ⟨3, none, 0⟩, ⟨7, none, 0⟩, ⟨9, none, 0⟩] :=
  ⟨by decide, by decide,
    (hash_frame_numbers_spec 10 (by decide) (by decide)).2.2.1 rfl⟩

/-- C9 (failing input): on an 11 frame video whose frames all decode and hash
(frame `f` hashing to the one entry list `[f]`), the slots are
(10, 3, 7, 0); frame 0 fills slot 3 and advances `next_hash_frame`, and when
frame 10 arrives the slot loop starts at `i = 3`, so slot 0 is left without
a hash (`NULL`, `hash_size` 0). -/
theorem sample_frames_11_frames :
    sample_frames (fun f => some ([Int.ofNat f], 1)) 11 11 =
      some [⟨10, none, 0⟩, ⟨3, some [3], 1⟩, ⟨7, some [7], 1⟩, ⟨0, some [0], 1⟩] := by
  decide

/-! ## Aggregation -/

theorem all_initialised_map_some (l : List Int) : all_initialised (l.map some) = some l := by
  induction l with
  | nil => rfl
  | cons a t ih => simp [all_initialised, ih]

theorem memcpy_hash_append (pre h : List Int) (k : Nat) (hk : h.length ≤ k) :
    memcpy_hash (pre.map some ++ List.replicate k none) pre.length (some h) h.length =
      some ((pre ++ h).map some ++ List.replicate (k - h.length) none) := by
  unfold memcpy_hash
  by_cases h0 : h.length = 0
  · have : h = [] := List.length_eq_zero.mp h0
    subst this
    simp
  · rw [if_neg h0]
    dsimp only
    rw [if_pos ⟨le_refl _, by simp; omega⟩]
    have e1 : List.take pre.length (pre.map some ++ List.replicate k none) = pre.map some := by
      rw [List.take_append_of_le_length (by simp)]
      rw [List.take_of_length_le (by simp)]
    have e2 : List.drop (pre.length + h.length) (pre.map some ++ List.replicate k none) =
        List.replicate (k - h.length) none := by
      rw [List.drop_append_eq_append_drop]
      simp
    rw [e1, e2, List.take_of_length_le (le_refl _)]
    simp

/-- For four filled slots whose recorded `hash_size` is the length of their
hash `h0 .. h3` (for the block-mean methods each hash has `bits * bits`
entries), the entries handed to the serializer are `h0 ++ h1 ++ h2 ++ h3` in
slot order, and their number is the sum of the four lengths. -/
theorem video_serialized_sized_slots (bits : Nat) (hashing_method : HashingMethod)
    (f0 f1 f2 f3 : Nat) (h0 h1 h2 h3 : List Int)
    (hbm : hashing_method.below_dct64 = true →
      h0.length = bits * bits ∧ h1.length = bits * bits ∧
      h2.length = bits * bits ∧ h3.length = bits * bits) :
    ∃ out, video_serialized bits hashing_method
        [⟨f0, some h0, h0.length⟩, ⟨f1, some h1, h1.length⟩,
         ⟨f2, some h2, h2.length⟩, ⟨f3, some h3, h3.length⟩] = some out ∧
      out = h0 ++ h1 ++ h2 ++ h3 ∧
      out.length = h0.length + h1.length + h2.length + h3.length := by
  refine ⟨h0 ++ h1 ++ h2 ++ h3, ?_, rfl, by simp only [List.length_append]⟩
  have c0 := memcpy_hash_append [] h0 ((h0.length + h1.length + h2.length + h3.length) * 4)
    (by omega)
  have c1 := memcpy_hash_append ([] ++ h0) h1
    ((h0.length + h1.length + h2.length + h3.length) * 4 - h0.length) (by omega)
  have c2 := memcpy_hash_append ([] ++ h0 ++ h1) h2
    ((h0.length + h1.length + h2.length + h3.length) * 4 - h0.length - h1.length) (by omega)
  have c3 := memcpy_hash_append ([] ++ h0 ++ h1 ++ h2) h3
    ((h0.length + h1.length + h2.length + h3.length) * 4 - h0.length - h1.length - h2.length)
    (by omega)
  simp only [List.nil_append, List.map_nil, List.length_nil, List.length_append] at c0 c1 c2 c3
  simp only [video_serialized, combine_hashes, total_loop, concat_loop, Nat.zero_add,
    List.getElem?_cons_zero, List.getElem?_cons_succ, Nat.reduceLT, if_true, if_false,
    Nat.reduceAdd, Nat.lt_irrefl, c0, c1, c2, c3]
  unfold serialized_entries blockhash_to_str_entries print_hash_entries read_entries
  have hlen : h0.length + h1.length + h2.length + h3.length ≤
      (List.map some (h0 ++ h1 ++ h2 ++ h3) ++
        List.replicate ((h0.length + h1.length + h2.length + h3.length) * 4 - h0.length -
          h1.length - h2.length - h3.length) none).length := by
    simp only [List.length_append, List.length_map, List.length_replicate]
    omega
  have htake : List.take (h0.length + h1.length + h2.length + h3.length)
      (List.map some (h0 ++ h1 ++ h2 ++ h3) ++
        List.replicate ((h0.length + h1.length + h2.length + h3.length) * 4 - h0.length -
          h1.length - h2.length - h3.length) none) = List.map some (h0 ++ h1 ++ h2 ++ h3) := by
    rw [List.take_append_of_le_length (by simp [List.length_append]; omega)]
    rw [List.take_of_length_le (by simp [List.length_append]; omega)]
  by_cases hm : hashing_method.below_dct64 = true
  · obtain ⟨e0, e1, e2, e3⟩ := hbm hm
    have hsz : 4 * bits * bits = h0.length + h1.length + h2.length + h3.length := by
      rw [e0, e1, e2, e3]; ring
    rw [if_pos hm, hsz, if_pos hlen, htake, all_initialised_map_some]
  · rw [if_neg hm, if_pos hlen, htake, all_initialised_map_some]

/-! ## `convolve`, `mul_matrix` -/

set_option maxRecDepth 100000 in
/-- C1 (failing input): on the 9x7 plane whose column `x` holds `20 + x`, the
interior cell `(4, 3)` is computed as 1225, the sum over the columns 2..8
(the offset `- mx1 + x` is applied twice, in `pimgy` and again in `pimgx`),
whereas the clamped 7x7 window, columns 1..7, sums to 1176; the next cell
`(5, 3)` reads past the end of the plane, so the call as a whole has no
defined result. -/
theorem convolve_9x7_interior_cell :
    corr_cell plane_9x7 mean_filter 9 7 3 3 3 3 0 4 = some 1225 ∧
      spec_window_sum plane_9x7 9 7 4 3 = 1176 ∧
      convolve plane_9x7 9 7 mean_filter 7 7 1 = none := by
  decide

theorem mul_k_loop_first_row {α : Type} [Add α] [Mul α] (A B : List α)
    (hA : A.length = 1024) (hB : B.length = 1024) :
    ∀ (fuel k : Nat) (v : α), k ≤ 32 → 33 ≤ fuel + k →
      ∃ v', mul_k_loop A B 32 32 fuel k k (32 * k) v = some (v', 32, 1024) := by
  intro fuel
  induction fuel with
  | zero => intro k v hk hf; omega
  | succ fuel ih =>
    intro k v hk hf
    unfold mul_k_loop
    by_cases h : k < 32
    · rw [if_pos h]
      have ha : A[k]? = some (A.get ⟨k, by omega⟩) := by
        rw [List.getElem?_eq_getElem (by omega)]; rfl
      have hb : B[32 * k]? = some (B.get ⟨32 * k, by omega⟩) := by
        rw [List.getElem?_eq_getElem (by omega)]; rfl
      rw [ha, hb]
      have e : 32 * k + 32 = 32 * (k + 1) := by omega
      simp only [e]
      exact ih (k + 1) _ (by omega) (by omega)
    · rw [if_neg h]
      have hk32 : k = 32 := by omega
      subst hk32
      exact ⟨v, rfl⟩

/-- C2 (failing input: every pair of 32x32 matrices): `mul_matrix(A, 32, 32,
B, 32, 32)` computes entry 0 from row 0 of `A` and column 0 of `B`, but `p2c`
is not reset for the next entry (nor `p1` for the next `i`): the second entry
starts reading `B` at offset 1024, outside the matrix, so the call has no
defined result, and in particular not the product. -/
theorem mul_matrix_reads_outside {α : Type} [Zero α] [Add α] [Mul α] (A B : List α)
    (hA : A.length = 1024) (hB : B.length = 1024) :
    mul_matrix A 32 32 B 32 32 = none := by
  obtain ⟨v, hv⟩ := mul_k_loop_first_row A B hA hB 33 0 0 (by omega) (by omega)
  have hb : B[1024]? = none := by
    rw [List.getElem?_eq_none_iff]; omega
  have h2 : ∀ (w : α), mul_k_loop A B 32 32 33 0 32 1024 w = none := by
    intro w
    unfold mul_k_loop
    rw [if_pos (by omega), hb]
    cases A[32]? <;> rfl
  unfold mul_matrix
  rw [if_pos rfl]
  unfold mul_i_loop
  rw [if_pos (by omega)]
  unfold mul_j_loop
  rw [if_pos (by omega), hv]
  dsimp only
  unfold mul_j_loop
  rw [if_pos (by omega), h2]

theorem mul_matrix_reads_outside_witness :
    (List.replicate 1024 (1 : Int)).length = 1024 ∧
      mul_matrix (List.replicate 1024 (1 : Int)) 32 32 (List.replicate 1024 (1 : Int)) 32 32 =
        none :=
  ⟨List.length_replicate 1024 1,
    mul_matrix_reads_outside (List.replicate 1024 (1 : Int)) (List.replicate 1024 (1 : Int))
      (List.length_replicate 1024 1) (List.length_replicate 1024 1)⟩

/-! ## The transposed DCT matrix -/

theorem phs_swap_floats_spec {α : Type} (t : List α) (a b : Nat)
    (ha : a < t.length) (hb : b < t.length) :
    ∃ t', phs_swap_floats t a b = some t' ∧ t'.length = t.length ∧
      ∀ idx, t'[idx]? = if idx = b then t[a]? else if idx = a then t[b]? else t[idx]? := by
  have e1 : t[a]? = some t[a] := List.getElem?_eq_getElem ha
  have e2 : t[b]? = some t[b] := List.getElem?_eq_getElem hb
  refine ⟨(t.set a t[b]).set b t[a], ?_, ?_, ?_⟩
  · unfold phs_swap_floats
    rw [e1, e2]
  · simp
  · intro idx
    rw [List.getElem?_set, List.getElem?_set]
    by_cases c1 : b = idx
    · subst c1
      simp [e1, hb]
    · have c1' : ¬ idx = b := fun h => c1 h.symm
      rw [if_neg c1, if_neg c1']
      by_cases c2 : a = idx
      · subst c2
        simp [e2, ha]
      · have c2' : ¬ idx = a := fun h => c2 h.symm
        rw [if_neg c2, if_neg c2']

theorem swapped_upto_step {α : Type} (d cur : List α) (n : Nat) (hn : n < 1024)
    (h : swapped_upto d cur n) :
    ∃ cur', phs_swap_floats cur n (mirror32 n) = some cur' ∧ swapped_upto d cur' (n + 1) := by
  obtain ⟨hlen, hcur⟩ := h
  have hm : mirror32 n < 1024 := by unfold mirror32; omega
  have hmm : ∀ i, i < 1024 → mirror32 (mirror32 i) = i := by
    intro i hi; unfold mirror32; omega
  obtain ⟨t, ht, htl, htg⟩ := phs_swap_floats_spec cur n (mirror32 n) (by omega) (by omega)
  refine ⟨t, ht, htl.trans hlen, ?_⟩
  intro idx hidx
  have hmi : mirror32 idx < 1024 := by unfold mirror32; omega
  rw [htg]
  by_cases c1 : idx = mirror32 n
  · rw [if_pos c1, hcur n hn]
    have e : mirror32 idx = n := by rw [c1]; exact hmm n hn
    rw [e]
    by_cases c3 : mirror32 n < n
    · rw [if_neg (by omega), if_pos (by omega), c1]
    · by_cases c4 : mirror32 n = n
      · rw [if_pos (by omega), if_pos (by omega), c1, c4]
      · rw [if_pos (by omega), if_neg (by omega)]
  · rw [if_neg c1]
    by_cases c2 : idx = n
    · rw [if_pos c2, hcur _ hm, hmm n hn]
      subst c2
      by_cases c3 : mirror32 idx < idx
      · rw [if_neg (by omega), if_pos (by omega)]
      · rw [if_pos (by omega), if_neg (by omega)]
    · rw [if_neg c2, hcur idx hidx]
      have c5 : mirror32 idx ≠ n := by
        intro h5
        apply c1
        rw [← h5]
        exact (hmm idx hidx).symm
      by_cases c6 : (idx < n ↔ mirror32 idx < n)
      · rw [if_pos c6, if_pos (by omega)]
      · rw [if_neg c6, if_neg (by omega)]

theorem transpose_y_loop_spec {α : Type} (d : List α) (x : Nat) (hx : x < 32) :
    ∀ (fuel y : Nat) (cur : List α), y ≤ 32 → 33 ≤ fuel + y →
      swapped_upto d cur (32 * x + y) →
      ∃ cur', transpose_y_loop fuel y (32 * x + y) (x + 32 * y) cur = some (cur', 32 * x + 32) ∧
        swapped_upto d cur' (32 * x + 32) := by
  intro fuel
  induction fuel with
  | zero => intro y cur hy hf; omega
  | succ fuel ih =>
    intro y cur hy hf hinv
    unfold transpose_y_loop
    by_cases h : y < 32
    · rw [if_pos h]
      have e : x + 32 * y = mirror32 (32 * x + y) := by unfold mirror32; omega
      obtain ⟨cur1, h1, hinv1⟩ := swapped_upto_step d cur (32 * x + y) (by omega) hinv
      rw [e, h1]
      dsimp only
      have e2 : mirror32 (32 * x + y) + 32 = x + 32 * (y + 1) := by unfold mirror32; omega
      have e3 : 32 * x + y + 1 = 32 * x + (y + 1) := by omega
      rw [e2, e3]
      exact ih (y + 1) cur1 (by omega) (by omega) (by rw [← e3]; exact hinv1)
    · rw [if_neg h]
      have hy32 : y = 32 := by omega
      subst hy32
      exact ⟨cur, rfl, hinv⟩

theorem transpose_x_loop_spec {α : Type} (d : List α) :
    ∀ (fuel x : Nat) (cur : List α), x ≤ 32 → 33 ≤ fuel + x →
      swapped_upto d cur (32 * x) →
      ∃ cur', transpose_x_loop fuel x (32 * x) x cur = some cur' ∧
        swapped_upto d cur' 1024 := by
  intro fuel
  induction fuel with
  | zero => intro x cur hx hf; omega
  | succ fuel ih =>
    intro x cur hx hf hinv
    unfold transpose_x_loop
    by_cases h : x < 32
    · rw [if_pos h]
      obtain ⟨cur1, h1, hinv1⟩ :=
        transpose_y_loop_spec d x h 33 0 cur (by omega) (by omega) (by simpa using hinv)
      simp only [Nat.add_zero, Nat.mul_zero] at h1
      rw [h1]
      dsimp only
      have e : 32 * x + 32 = 32 * (x + 1) := by omega
      rw [e]
      exact ih (x + 1) cur1 (by omega) (by omega) (by rw [← e]; exact hinv1)
    · rw [if_neg h]
      have hx32 : x = 32 := by omega
      subst hx32
      exact ⟨cur, rfl, hinv⟩

/-- The swap loops of `get_transposed_dct_matrix` swap every off-diagonal
pair twice and so return the array they started from. -/
theorem transpose_x_loop_identity {α : Type} (d : List α) (hd : d.length = 1024) :
    transpose_x_loop 33 0 0 0 d = some d := by
  have h0 : swapped_upto d d (32 * 0) := by
    refine ⟨hd, ?_⟩
    intro idx hidx
    rw [if_pos (by omega)]
  obtain ⟨cur, hcur, hlen, hg⟩ := transpose_x_loop_spec d 33 0 d (by omega) (by omega) h0
  have : cur = d := by
    apply List.ext_getElem?
    intro idx
    by_cases hidx : idx < 1024
    · rw [hg idx hidx]
      have hm : mirror32 idx < 1024 := by unfold mirror32; omega
      rw [if_pos (by omega)]
    · rw [List.getElem?_eq_none_iff.mpr (by omega), List.getElem?_eq_none_iff.mpr (by omega)]
  rw [this] at hcur
  exact hcur

theorem length_flatMap_const {β γ : Type} (f : β → List γ) (n : Nat)
    (hf : ∀ y, (f y).length = n) : ∀ l : List β, (l.flatMap f).length = n * l.length := by
  intro l
  induction l with
  | nil => simp
  | cons a t ih => rw [List.flatMap_cons, List.length_append, ih, hf, List.length_cons]; ring

theorem dct_matrix_values_length {α : Type} [Field α] (m : libm α) :
    (dct_matrix_values m).length = 1024 := by
  unfold dct_matrix_values
  rw [List.length_append, length_flatMap_const _ 32 (by intro y; simp)]
  simp

theorem dct_matrix_values_row0 {α : Type} [Field α] (m : libm α) :
    (dct_matrix_values m)[0 * 32 + 1]? = some (1 / m.sqrt 32) := by
  unfold dct_matrix_values
  rw [List.getElem?_append_left (by simp)]
  simp

theorem dct_matrix_values_col0 {α : Type} [Field α] (m : libm α) :
    (dct_matrix_values m)[1 * 32 + 0]? =
      some (1 / m.sqrt (2 / 32) * m.cos (m.pi / 2 / 32 * 1 * 1)) := by
  unfold dct_matrix_values
  rw [List.getElem?_append_right (by simp)]
  rw [show List.range' 1 31 = 1 :: List.range' 2 30 from rfl, List.flatMap_cons]
  rw [List.getElem?_append_left (by simp)]
  rw [List.getElem?_map, List.length_map, List.length_range]
  rw [show (1 * 32 + 0 - 32) = 0 from rfl, List.getElem?_range (by omega)]
  simp

theorem get_dct_matrix_first {α : Type} [Field α] (m : libm α) (st : dct_statics α)
    (h : st.dct_matrix_prepared = 0) :
    (get_dct_matrix m st).2 = dct_matrix_values m := by
  unfold get_dct_matrix
  rw [if_pos h]

/-- On the first call `get_transposed_dct_matrix` returns the values of the
DCT matrix unchanged. -/
theorem get_transposed_dct_matrix_first {α : Type} [Field α] (m : libm α) (st : dct_statics α)
    (h : st.dct_matrix_prepared = 0) (ht : st.transposed_dct_matrix_prepared = 0) :
    ∃ st', get_transposed_dct_matrix m st = some (st', dct_matrix_values m) := by
  have hT := transpose_x_loop_identity (dct_matrix_values m) (dct_matrix_values_length m)
  unfold get_transposed_dct_matrix
  rw [if_pos ht, get_dct_matrix_first m st h, hT]
  exact ⟨_, rfl⟩

theorem real_dct_entries_differ :
    (1 : ℝ) / Real.sqrt 32 ≠ 1 / Real.sqrt (2 / 32) * Real.cos (Real.pi / 2 / 32 * 1 * 1) := by
  have h1 : (1 : ℝ) / Real.sqrt 32 < 1 := by
    rw [div_lt_one (Real.sqrt_pos.mpr (by norm_num))]
    rw [Real.lt_sqrt (by norm_num)]
    norm_num
  have h2 : Real.sqrt (2 / 32) = 1 / 4 := by
    rw [show (2 : ℝ) / 32 = (1 / 4) ^ 2 by norm_num]
    exact Real.sqrt_sq (by norm_num)
  have h3 : (1 : ℝ) / 2 ≤ Real.cos (Real.pi / 2 / 32 * 1 * 1) := by
    rw [← Real.cos_pi_div_three]
    apply Real.cos_le_cos_of_nonneg_of_le_pi
    · have := Real.pi_pos; positivity
    · have := Real.pi_pos; linarith
    · have := Real.pi_pos; linarith
  rw [h2]
  intro h
  have h4 : (1 : ℝ) / (1 / 4) * Real.cos (Real.pi / 2 / 32 * 1 * 1) ≥ 2 := by
    have h5 : (1 : ℝ) / (1 / 4) = 4 := by norm_num
    rw [h5]; linarith
  linarith

/-- C3 (failing input: the first call, with the real `sqrt`, `cos` and pi):
the swap loops of `get_transposed_dct_matrix` run `y` from 0 for every `x`,
so each off-diagonal pair is swapped twice and the returned matrix `T` is the
DCT matrix `D` itself, not its transpose: `T[0*32 + 1] = D[0*32 + 1]` is
`1/sqrt(32)`, which differs from `D[1*32 + 0]`. -/
theorem transposed_dct_matrix_is_not_transposed :
    ∃ st T, get_transposed_dct_matrix (⟨Real.sqrt, Real.cos, Real.pi⟩ : libm ℝ)
        dct_statics_start = some (st, T) ∧
      T = (get_dct_matrix (⟨Real.sqrt, Real.cos, Real.pi⟩ : libm ℝ) dct_statics_start).2 ∧
      T[0 * 32 + 1]? ≠
        (get_dct_matrix (⟨Real.sqrt, Real.cos, Real.pi⟩ : libm ℝ) dct_statics_start).2[1 * 32 + 0]? := by
  have hD : (get_dct_matrix (⟨Real.sqrt, Real.cos, Real.pi⟩ : libm ℝ) dct_statics_start).2 =
      dct_matrix_values ⟨Real.sqrt, Real.cos, Real.pi⟩ := by
    rw [get_dct_matrix_first _ _ rfl]
  obtain ⟨st, hst⟩ := get_transposed_dct_matrix_first
    (⟨Real.sqrt, Real.cos, Real.pi⟩ : libm ℝ) dct_statics_start rfl rfl
  refine ⟨st, dct_matrix_values ⟨Real.sqrt, Real.cos, Real.pi⟩, hst, hD.symm, ?_⟩
  rw [hD, dct_matrix_values_row0, dct_matrix_values_col0]
  intro h
  exact real_dct_entries_differ (Option.some.inj h)

/-! ## Lemmas: array accesses -/

theorem getElem?_eq_some_getD {α : Type} (arr : List α) (d : α) (i : Nat)
    (h : i < arr.length) : arr[i]? = some (arr.getD i d) := by
  rw [List.getD_eq_getElem?_getD, List.getElem?_eq_getElem h]
  rfl

theorem getD_congr_of_getElem? {α : Type} (t t' : List α) (d : α) (i j : Nat)
    (h : t'[i]? = t[j]?) : t'.getD i d = t.getD j d := by
  rw [List.getD_eq_getElem?_getD, List.getD_eq_getElem?_getD, h]

theorem countP_swap {α : Type} (t : List α) (a b : Nat) (ha : a < t.length)
    (hb : b < t.length) (p : α → Bool) :
    ((t.set a t[b]).set b t[a]).countP p = t.countP p := by
  have hb2 : b < (t.set a t[b]).length := by rw [List.length_set]; exact hb
  rw [List.countP_set p _ b _ hb2, List.countP_set p t a _ ha]
  have e : (t.set a t[b])[b] = t[b] := by
    rw [List.getElem_set]
    split
    · rfl
    · rfl
  rw [e]
  have h1 := List.boole_getElem_le_countP p t a ha
  by_cases pa : p t[a] = true
  · by_cases pb : p t[b] = true
    · simp only [pa, pb, if_true] at h1 ⊢
      omega
    · simp only [pa, pb, if_true, if_false] at h1 ⊢
      omega
  · by_cases pb : p t[b] = true
    · simp only [pa, pb, if_true, if_false] at h1 ⊢
      omega
    · simp only [pa, pb, if_false] at h1 ⊢
      omega

/-- The effect of `phs_swap_floats` on an array, for in-range offsets. -/
theorem phs_swap_floats_getD {α : Type} (t : List α) (d : α) (a b : Nat)
    (ha : a < t.length) (hb : b < t.length) :
    ∃ t', phs_swap_floats t a b = some t' ∧ t'.length = t.length ∧
      (∀ idx, t'.getD idx d =
        if idx = b then t.getD a d else if idx = a then t.getD b d else t.getD idx d) ∧
      ∀ p : α → Bool, t'.countP p = t.countP p := by
  obtain ⟨t', h1, h2, h3⟩ := phs_swap_floats_spec t a b ha hb
  refine ⟨t', h1, h2, ?_, ?_⟩
  · intro idx
    by_cases c1 : idx = b
    · rw [if_pos c1]
      apply getD_congr_of_getElem?
      rw [h3, if_pos c1]
    · rw [if_neg c1]
      by_cases c2 : idx = a
      · rw [if_pos c2]
        apply getD_congr_of_getElem?
        rw [h3, if_neg c1, if_pos c2]
      · rw [if_neg c2]
        apply getD_congr_of_getElem?
        rw [h3, if_neg c1, if_neg c2]
  · intro p
    have e1 : t[a]? = some t[a] := List.getElem?_eq_getElem ha
    have e2 : t[b]? = some t[b] := List.getElem?_eq_getElem hb
    have : t' = (t.set a t[b]).set b t[a] := by
      unfold phs_swap_floats at h1
      rw [e1, e2] at h1
      exact (Option.some.inj h1).symm
    rw [this]
    exact countP_swap t a b ha hb p

/-! ## Lemmas: rearrangements inside a segment -/

theorem segment_shuffle_refl {α : Type} (d : α) (arr : List α) (l ir : Nat) :
    segment_shuffle d arr arr l ir :=
  ⟨rfl, fun _ => rfl, fun _ _ => rfl, fun idx h1 h2 => ⟨idx, h1, h2, rfl⟩⟩

theorem segment_shuffle_trans {α : Type} (d : α) (a1 a2 a3 : List α) (l ir : Nat)
    (h12 : segment_shuffle d a1 a2 l ir) (h23 : segment_shuffle d a2 a3 l ir) :
    segment_shuffle d a1 a3 l ir := by
  obtain ⟨l1, c1, o1, i1⟩ := h12
  obtain ⟨l2, c2, o2, i2⟩ := h23
  refine ⟨l2.trans l1, fun p => (c2 p).trans (c1 p), ?_, ?_⟩
  · intro idx h
    rw [o2 idx h, o1 idx h]
  · intro idx h1 h2
    obtain ⟨j, hj1, hj2, hj⟩ := i2 idx h1 h2
    obtain ⟨j', hj1', hj2', hj'⟩ := i1 j hj1 hj2
    exact ⟨j', hj1', hj2', hj.trans hj'⟩

theorem segment_shuffle_swap {α : Type} (d : α) (t : List α) (l ir a b : Nat)
    (hir : ir < t.length) (ha1 : l ≤ a) (ha2 : a ≤ ir) (hb1 : l ≤ b) (hb2 : b ≤ ir) :
    ∃ t', phs_swap_floats t a b = some t' ∧ segment_shuffle d t t' l ir ∧
      (∀ idx, t'.getD idx d =
        if idx = b then t.getD a d else if idx = a then t.getD b d else t.getD idx d) := by
  obtain ⟨t', h1, h2, h3, h4⟩ := phs_swap_floats_getD t d a b (by omega) (by omega)
  refine ⟨t', h1, ⟨h2, h4, ?_, ?_⟩, h3⟩
  · intro idx hidx
    rw [h3, if_neg (by omega), if_neg (by omega)]
  · intro idx hi1 hi2
    rw [h3]
    by_cases c1 : idx = b
    · rw [if_pos c1]; exact ⟨a, ha1, ha2, rfl⟩
    · rw [if_neg c1]
      by_cases c2 : idx = a
      · rw [if_pos c2]; exact ⟨b, hb1, hb2, rfl⟩
      · rw [if_neg c2]; exact ⟨idx, hi1, hi2, rfl⟩

theorem segment_shuffle_lower {α : Type} [LE α] (d : α) (arr arr' : List α) (l ir : Nat)
    (hir : ir < arr.length) (h : segment_shuffle d arr arr' l ir)
    (hl : lower_part_le d arr l) : lower_part_le d arr' l := by
  obtain ⟨hlen, _, ho, hi⟩ := h
  intro a b ha hb hb2
  rw [ho a (Or.inl ha)]
  by_cases c : b ≤ ir
  · obtain ⟨b', hb1', hb2', hb'⟩ := hi b hb c
    rw [hb']
    exact hl a b' ha hb1' (by omega)
  · rw [ho b (Or.inr (by omega))]
    exact hl a b ha hb (by omega)

theorem segment_shuffle_upper {α : Type} [LE α] (d : α) (arr arr' : List α) (l ir : Nat)
    (h : segment_shuffle d arr arr' l ir)
    (hu : upper_part_ge d arr ir) : upper_part_ge d arr' ir := by
  obtain ⟨hlen, _, ho, hi⟩ := h
  intro a b ha hb hb2
  rw [ho b (Or.inr hb)]
  by_cases c : l ≤ a
  · obtain ⟨a', ha1', ha2', ha'⟩ := hi a c ha
    rw [ha']
    exact hu a' b ha2' hb (by omega)
  · rw [ho a (Or.inl (by omega))]
    exact hu a b ha hb (by omega)

theorem segment_shuffle_settled {α : Type} [LE α] (d : α) (arr arr' : List α)
    (k l ir : Nat) (hir : ir < arr.length) (hk : k < l)
    (h : segment_shuffle d arr arr' l ir)
    (hs : settled_at d arr k) : settled_at d arr' k := by
  obtain ⟨hlen, _, ho, hi⟩ := h
  obtain ⟨s1, s2⟩ := hs
  refine ⟨?_, ?_⟩
  · intro a ha
    rw [ho a (Or.inl (by omega)), ho k (Or.inl hk)]
    exact s1 a ha
  · intro b hb hb2
    rw [ho k (Or.inl hk)]
    by_cases c : l ≤ b ∧ b ≤ ir
    · obtain ⟨b', hb1', hb2', hb'⟩ := hi b c.1 c.2
      rw [hb']
      exact s2 b' (by omega) (by omega)
    · rw [ho b (by omega)]
      exact s2 b hb (by omega)

/-! ## Lemmas: the scans -/

theorem usub_one (j : Nat) (h1 : 0 < j) (h2 : j < 2 ^ 64) : usub j 1 = j - 1 := by
  unfold usub
  omega

theorem scan_up_spec {α : Type} [LinearOrder α] (arr : List α) (d pivot : α) (s : Nat)
    (hs : s < arr.length) (hsent : ¬ arr.getD s d < pivot) :
    ∀ (fuel i : Nat), i < s → s ≤ i + fuel →
      ∃ i', scan_up arr pivot fuel i = some i' ∧ i < i' ∧ i' ≤ s ∧
        ¬ arr.getD i' d < pivot ∧ ∀ a, i < a → a < i' → arr.getD a d < pivot := by
  intro fuel
  induction fuel with
  | zero => intro i h1 h2; omega
  | succ fuel ih =>
    intro i h1 h2
    unfold scan_up
    rw [getElem?_eq_some_getD arr d (i + 1) (by omega)]
    dsimp only
    by_cases c : arr.getD (i + 1) d < pivot
    · rw [if_pos c]
      have hne : i + 1 ≠ s := by
        intro e; rw [e] at c; exact hsent c
      obtain ⟨i', e1, e2, e3, e4, e5⟩ := ih (i + 1) (by omega) (by omega)
      refine ⟨i', e1, by omega, e3, e4, ?_⟩
      intro a ha1 ha2
      by_cases ca : a = i + 1
      · rw [ca]; exact c
      · exact e5 a (by omega) ha2
    · rw [if_neg c]
      exact ⟨i + 1, rfl, by omega, by omega, c, fun a ha1 ha2 => by omega⟩

theorem scan_down_spec {α : Type} [LinearOrder α] (arr : List α) (d pivot : α) (t : Nat)
    (hlen : arr.length < 2 ^ 64) (hsent : ¬ pivot < arr.getD t d) :
    ∀ (fuel j : Nat), t < j → j ≤ arr.length → j ≤ t + fuel →
      ∃ j', scan_down arr pivot fuel j = some j' ∧ t ≤ j' ∧ j' < j ∧
        ¬ pivot < arr.getD j' d ∧ ∀ b, j' < b → b < j → pivot < arr.getD b d := by
  intro fuel
  induction fuel with
  | zero => intro j h1 h2 h3; omega
  | succ fuel ih =>
    intro j h1 h2 h3
    unfold scan_down
    rw [usub_one j (by omega) (by omega)]
    rw [getElem?_eq_some_getD arr d (j - 1) (by omega)]
    dsimp only
    by_cases c : pivot < arr.getD (j - 1) d
    · rw [if_pos c]
      have hne : j - 1 ≠ t := by
        intro e; rw [e] at c; exact hsent c
      obtain ⟨j', e1, e2, e3, e4, e5⟩ := ih (j - 1) (by omega) (by omega) (by omega)
      refine ⟨j', e1, e2, by omega, e4, ?_⟩
      intro b hb1 hb2
      by_cases cb : b = j - 1
      · rw [cb]; exact c
      · exact e5 b hb1 (by omega)
    · rw [if_neg c]
      exact ⟨j - 1, rfl, by omega, by omega, c, fun b hb1 hb2 => by omega⟩

/-! ## Lemmas: the partition loop -/

theorem partition_loop_spec {α : Type} [LinearOrder α] (d pivot : α) (l ir : Nat) :
    ∀ (fuel : Nat) (arr : List α) (i j : Nat),
      arr.length < 2 ^ 64 → ir < arr.length → l + 1 ≤ i → i ≤ j → j ≤ ir →
      (i < j ∨ (l + 2 ≤ i ∧ j < ir)) →
      (∀ a, l ≤ a → a ≤ i → arr.getD a d ≤ pivot) →
      (∀ b, j ≤ b → b ≤ ir → pivot ≤ arr.getD b d) →
      arr.getD (l + 1) d = pivot →
      j - i < fuel →
      ∃ arr' i' j', partition_loop pivot fuel arr i j = some (arr', i', j') ∧
        segment_shuffle d arr arr' l ir ∧
        l + 2 ≤ i' ∧ i' ≤ ir ∧ l + 1 ≤ j' ∧ j' + 1 ≤ ir ∧ j' < i' ∧
        (∀ a, l ≤ a → a < i' → arr'.getD a d ≤ pivot) ∧
        (∀ b, j' < b → b ≤ ir → pivot ≤ arr'.getD b d) ∧
        arr'.getD (l + 1) d = pivot := by
  intro fuel
  induction fuel with
  | zero => intro arr i j _ _ _ _ _ _ _ _ _ hf; omega
  | succ fuel ih =>
    intro arr i j hlen hir hi hij hj hsep hlow hhigh hpiv hf
    -- the sentinels of the two scans
    have hup : ∃ s, i < s ∧ s ≤ ir ∧ ¬ arr.getD s d < pivot := by
      rcases hsep with h | h
      · exact ⟨j, h, hj, not_lt.mpr (hhigh j (le_refl _) hj)⟩
      · exact ⟨j + 1, by omega, by omega, not_lt.mpr (hhigh (j + 1) (by omega) (by omega))⟩
    have hdown : ∃ t, t < j ∧ l + 1 ≤ t ∧ ¬ pivot < arr.getD t d := by
      rcases hsep with h | h
      · exact ⟨i, h, hi, not_lt.mpr (hlow i (by omega) (le_refl _))⟩
      · exact ⟨i - 1, by omega, by omega, not_lt.mpr (hlow (i - 1) (by omega) (by omega))⟩
    obtain ⟨s, hs1, hs2, hs3⟩ := hup
    obtain ⟨t, ht1, ht2, ht3⟩ := hdown
    obtain ⟨i', ei, hi1, hi2, hi3, hi4⟩ :=
      scan_up_spec arr d pivot s (by omega) hs3 (arr.length + 1) i hs1 (by omega)
    obtain ⟨j', ej, hj1, hj2, hj3, hj4⟩ :=
      scan_down_spec arr d pivot t hlen ht3 (arr.length + 1) j ht1 (by omega) (by omega)
    have hlow' : ∀ a, l ≤ a → a < i' → arr.getD a d ≤ pivot := by
      intro a ha1 ha2
      by_cases c : a ≤ i
      · exact hlow a ha1 c
      · exact le_of_lt (hi4 a (by omega) ha2)
    have hhigh' : ∀ b, j' < b → b ≤ ir → pivot ≤ arr.getD b d := by
      intro b hb1 hb2
      by_cases c : j ≤ b
      · exact hhigh b c hb2
      · exact le_of_lt (hj4 b hb1 (by omega))
    unfold partition_loop
    rw [ei]
    dsimp only
    rw [ej]
    dsimp only
    by_cases c : j' < i'
    · rw [if_pos c]
      exact ⟨arr, i', j', rfl, segment_shuffle_refl d arr l ir, by omega, by omega, by omega,
        by omega, c, hlow', hhigh', hpiv⟩
    · rw [if_neg c]
      obtain ⟨arr1, e1, hsh, hget⟩ :=
        segment_shuffle_swap d arr l ir i' j' hir (by omega) (by omega) (by omega) (by omega)
      rw [e1]
      dsimp only
      have hlen1 : arr1.length = arr.length := hsh.1
      obtain ⟨arr', i'', j'', e2, hsh2, r1, r2, r3, r4, r5, r6, r7, r8⟩ :=
        ih arr1 i' j' (by omega) (by omega) (by omega) (by omega) (by omega)
          (Or.inr ⟨by omega, by omega⟩)
          (by
            intro a ha1 ha2
            rw [hget]
            by_cases c1 : a = j'
            · rw [if_pos c1]
              have : i' = j' := by omega
              rw [this]
              exact not_lt.mp hj3
            · rw [if_neg c1]
              by_cases c2 : a = i'
              · rw [if_pos c2]; exact not_lt.mp hj3
              · rw [if_neg c2]; exact hlow' a ha1 (by omega))
          (by
            intro b hb1 hb2
            rw [hget]
            by_cases c1 : b = j'
            · rw [if_pos c1]; exact not_lt.mp hi3
            · rw [if_neg c1, if_neg (by omega)]
              exact hhigh' b (by omega) hb2)
          (by
            rw [hget, if_neg (by omega), if_neg (by omega)]
            exact hpiv)
          (by omega)
      exact ⟨arr', i'', j'', e2, segment_shuffle_trans d arr arr1 arr' l ir hsh hsh2,
        r1, by omega, r3, by omega, r5, r6, by
          intro b hb1 hb2
          exact r7 b hb1 hb2, r8⟩

/-! ## Lemmas: one pass of the selection loop -/

theorem swap_if_greater_spec {α : Type} [LinearOrder α] (d : α) (arr : List α)
    (l ir a b : Nat) (hir : ir < arr.length) (ha1 : l ≤ a) (ha2 : a ≤ ir) (hb1 : l ≤ b)
    (hb2 : b ≤ ir) (hab : a ≠ b) :
    ∃ arr', swap_if_greater arr a b = some arr' ∧ segment_shuffle d arr arr' l ir ∧
      arr'.getD a d ≤ arr'.getD b d ∧
      ((arr'.getD a d = arr.getD a d ∧ arr'.getD b d = arr.getD b d) ∨
        (arr'.getD a d = arr.getD b d ∧ arr'.getD b d = arr.getD a d)) ∧
      ∀ idx, idx ≠ a → idx ≠ b → arr'.getD idx d = arr.getD idx d := by
  unfold swap_if_greater
  rw [getElem?_eq_some_getD arr d a (by omega), getElem?_eq_some_getD arr d b (by omega)]
  dsimp only
  by_cases c : arr.getD b d < arr.getD a d
  · rw [if_pos c]
    obtain ⟨arr', e, hsh, hget⟩ := segment_shuffle_swap d arr l ir a b hir ha1 ha2 hb1 hb2
    have ga : arr'.getD a d = arr.getD b d := by
      rw [hget, if_neg hab, if_pos rfl]
    have gb : arr'.getD b d = arr.getD a d := by
      rw [hget, if_pos rfl]
    refine ⟨arr', e, hsh, ?_, Or.inr ⟨ga, gb⟩, ?_⟩
    · rw [ga, gb]; exact le_of_lt c
    · intro idx h1 h2
      rw [hget, if_neg h2, if_neg h1]
  · rw [if_neg c]
    exact ⟨arr, rfl, segment_shuffle_refl d arr l ir, not_lt.mp c, Or.inl ⟨rfl, rfl⟩,
      fun _ _ _ => rfl⟩

theorem place_pivot_eq_swap {α : Type} (arr : List α) (d pivot : α) (l j : Nat)
    (hl : l + 1 < arr.length) (hj : j < arr.length) (hp : arr.getD (l + 1) d = pivot) :
    place_pivot arr l j pivot = phs_swap_floats arr (l + 1) j := by
  unfold place_pivot phs_swap_floats
  rw [getElem?_eq_some_getD arr d j hj, getElem?_eq_some_getD arr d (l + 1) hl]
  dsimp only
  rw [if_pos hl, hp]

theorem select_step_spec {α : Type} [LinearOrder α] (d : α) (data arr : List α)
    (k l ir : Nat) (hlen : arr.length < 2 ^ 64) (hgap : l + 2 ≤ ir)
    (hinv : select_inv d data arr k l ir) :
    ∃ arr' l' ir', select_step k arr l ir = some (arr', l', ir') ∧
      select_inv d data arr' k l' ir' ∧ ir' + 1 - l' < ir + 1 - l := by
  obtain ⟨hld, hcnt, hk, hir, hlo, hup, hpos⟩ := hinv
  -- median of three
  obtain ⟨arr1, e1, sh1, _⟩ :=
    segment_shuffle_swap d arr l ir ((l + ir) / 2) (l + 1) hir (by omega) (by omega)
      (by omega) (by omega)
  have len1 : arr1.length = arr.length := sh1.1
  obtain ⟨arr2, e2, sh2, o2, c2, u2⟩ :=
    swap_if_greater_spec d arr1 l ir l ir (by omega) (by omega) (by omega) (by omega)
      (by omega) (by omega)
  have len2 : arr2.length = arr1.length := sh2.1
  obtain ⟨arr3, e3, sh3, o3, c3, u3⟩ :=
    swap_if_greater_spec d arr2 l ir (l + 1) ir (by omega) (by omega) (by omega) (by omega)
      (by omega) (by omega)
  have len3 : arr3.length = arr2.length := sh3.1
  obtain ⟨arr4, e4, sh4, o4, c4, u4⟩ :=
    swap_if_greater_spec d arr3 l ir l (l + 1) (by omega) (by omega) (by omega) (by omega)
      (by omega) (by omega)
  have len4 : arr4.length = arr3.length := sh4.1
  have sh04 : segment_shuffle d arr arr4 l ir :=
    segment_shuffle_trans d arr arr1 arr4 l ir sh1
      (segment_shuffle_trans d arr1 arr2 arr4 l ir sh2
        (segment_shuffle_trans d arr2 arr3 arr4 l ir sh3 sh4))
  -- arr4[l] ≤ arr4[l+1] ≤ arr4[ir]
  have l3 : arr3.getD l d = arr2.getD l d := u3 l (by omega) (by omega)
  have ir4 : arr4.getD ir d = arr3.getD ir d := u4 ir (by omega) (by omega)
  have hl_ir3 : arr3.getD l d ≤ arr3.getD ir d := by
    rw [l3]
    rcases c3 with ⟨_, h⟩ | ⟨h1, _⟩
    · rw [h]; exact o2
    · have h3 := o3
      rw [h1] at h3
      exact le_trans o2 h3
  have hmid_ir : arr4.getD (l + 1) d ≤ arr4.getD ir d := by
    rw [ir4]
    rcases c4 with ⟨_, h⟩ | ⟨_, h⟩
    · rw [h]; exact o3
    · rw [h]; exact hl_ir3
  set pivot := arr4.getD (l + 1) d with hpiv
  -- partition
  obtain ⟨arr5, i, j, e5, sh5, p1, p2, p3, p4, p5, p6, p7, p8⟩ :=
    partition_loop_spec d pivot l ir arr4.length arr4 (l + 1) ir (by omega) (by omega)
      (by omega) (by omega) (le_refl _) (Or.inl (by omega))
      (by
        intro a ha1 ha2
        by_cases c : a = l
        · rw [c]; exact o4
        · have : a = l + 1 := by omega
          rw [this])
      (by
        intro b hb1 hb2
        have : b = ir := by omega
        rw [this]; exact hmid_ir)
      rfl (by omega)
  have len5 : arr5.length = arr4.length := sh5.1
  -- placing the pivot
  obtain ⟨arr6, e6, sh6, g6⟩ :=
    segment_shuffle_swap d arr5 l ir (l + 1) j (by omega) (by omega) (by omega) (by omega)
      (by omega)
  have e6' : place_pivot arr5 l j pivot = some arr6 := by
    rw [place_pivot_eq_swap arr5 d pivot l j (by omega) (by omega) p8]
    exact e6
  have len6 : arr6.length = arr5.length := sh6.1
  have sh06 : segment_shuffle d arr arr6 l ir :=
    segment_shuffle_trans d arr arr4 arr6 l ir sh04
      (segment_shuffle_trans d arr4 arr5 arr6 l ir sh5 sh6)
  have q_low : ∀ a, l ≤ a → a < i → arr6.getD a d ≤ pivot := by
    intro a ha1 ha2
    rw [g6]
    by_cases c1 : a = j
    · rw [if_pos c1, p8]
    · rw [if_neg c1]
      by_cases c2 : a = l + 1
      · rw [if_pos c2]; exact p6 j (by omega) p5
      · rw [if_neg c2]; exact p6 a ha1 ha2
  have q_high : ∀ b, j < b → b ≤ ir → pivot ≤ arr6.getD b d := by
    intro b hb1 hb2
    rw [g6, if_neg (by omega), if_neg (by omega)]
    exact p7 b hb1 hb2
  have q_j : arr6.getD j d = pivot := by
    rw [g6, if_pos rfl, p8]
  have lo6 : lower_part_le d arr6 l := segment_shuffle_lower d arr arr6 l ir hir sh06 hlo
  have up6 : upper_part_ge d arr6 ir := segment_shuffle_upper d arr arr6 l ir sh06 hup
  have hlen6 : arr6.length = arr.length := sh06.1
  have hj64 : usub j 1 = j - 1 := usub_one j (by omega) (by omega)
  -- the invariants for the new bounds
  have new_up : upper_part_ge d arr6 (j - 1) := by
    intro a b ha hb hb2
    by_cases cb : b ≤ ir
    · by_cases ca : l ≤ a
      · exact le_trans (q_low a ca (by omega))
          (by
            by_cases cj : b = j
            · rw [cj, q_j]
            · exact q_high b (by omega) cb)
      · exact lo6 a b (by omega) (by omega) hb2
    · exact up6 a b (by omega) (by omega) hb2
  have new_lo : lower_part_le d arr6 i := by
    intro a b ha hb hb2
    by_cases ca : l ≤ a
    · by_cases cb : b ≤ ir
      · exact le_trans (q_low a ca ha) (q_high b (by omega) cb)
      · exact up6 a b (by omega) (by omega) hb2
    · exact lo6 a b (by omega) (by omega) hb2
  have settle : l ≤ k → j ≤ k → k < i → k ≤ ir → settled_at d arr6 k := by
    intro h1 h2 h3 h4
    have hk6 : arr6.getD k d = pivot := by
      by_cases c : k = j
      · rw [c]; exact q_j
      · exact le_antisymm (q_low k h1 h3) (q_high k (by omega) h4)
    refine ⟨?_, ?_⟩
    · intro a ha
      rw [hk6]
      by_cases ca : l ≤ a
      · exact q_low a ca (by omega)
      · rw [← hk6]; exact lo6 a k (by omega) h1 (by omega)
    · intro b hb hb2
      rw [hk6]
      by_cases cb : b ≤ ir
      · exact q_high b (by omega) cb
      · rw [← hk6]; exact up6 k b h4 (by omega) hb2
  refine ⟨arr6, if j ≤ k then i else l, if k ≤ j then usub j 1 else ir, ?_, ?_, ?_⟩
  · unfold select_step
    rw [e1]; dsimp only
    rw [e2]; dsimp only
    rw [e3]; dsimp only
    rw [e4]; dsimp only
    rw [getElem?_eq_some_getD arr4 d (l + 1) (by omega)]; dsimp only
    rw [← hpiv, e5]; dsimp only
    rw [e6']
  · rw [hj64]
    refine ⟨hlen6.trans hld, fun p => (sh06.2.1 p).trans (hcnt p), by omega, ?_, ?_, ?_, ?_⟩
    · split <;> omega
    · split
      · exact new_lo
      · exact lo6
    · split
      · exact new_up
      · exact up6
    · rcases hpos with ⟨h1, h2⟩ | ⟨h1, h2⟩
      · by_cases c1 : j ≤ k
        · by_cases c2 : k ≤ j
          · have hjk : j = k := by omega
            rw [if_pos c1, if_pos c2]
            exact Or.inr ⟨by omega, settle h1 c1 (by omega) h2⟩
          · rw [if_pos c1, if_neg c2]
            by_cases c3 : i ≤ k
            · exact Or.inl ⟨c3, h2⟩
            · exact Or.inr ⟨by omega, settle h1 c1 (by omega) h2⟩
        · rw [if_neg c1, if_pos (by omega)]
          exact Or.inl ⟨h1, by omega⟩
      · rw [if_neg (by omega), if_pos (by omega)]
        exact Or.inr ⟨h1, segment_shuffle_settled d arr arr6 k l ir hir h1 sh06 h2⟩
  · rw [hj64]
    split <;> split <;> omega

/-! ## Lemmas: order statistics by counting -/

theorem countP_le_of_tail_false {α : Type} (d : α) (l : List α) (p : α → Bool) (k : Nat)
    (h : ∀ i, k ≤ i → i < l.length → p (l.getD i d) = false) : l.countP p ≤ k := by
  have hsplit : l.countP p = (l.take k).countP p + (l.drop k).countP p := by
    rw [← List.countP_append, List.take_append_drop]
  have h1 : (l.take k).countP p ≤ k :=
    le_trans (List.countP_le_length p) (by rw [List.length_take]; omega)
  have h2 : (l.drop k).countP p = 0 := by
    rw [List.countP_eq_zero]
    intro a ha
    obtain ⟨i, hi, rfl⟩ := List.getElem_of_mem ha
    rw [List.length_drop] at hi
    have e : (l.drop k)[i] = l.getD (k + i) d := by
      rw [List.getElem_drop, List.getD_eq_getElem l d (by omega)]
    rw [e, h (k + i) (by omega) (by omega)]
    simp
  omega

theorem le_countP_of_head_true {α : Type} (d : α) (l : List α) (p : α → Bool) (k : Nat)
    (hk : k < l.length) (h : ∀ i, i ≤ k → p (l.getD i d) = true) : k + 1 ≤ l.countP p := by
  have h1 : (l.take (k + 1)).countP p ≤ l.countP p :=
    List.Sublist.countP_le p (List.take_sublist (k + 1) l)
  have h2 : (l.take (k + 1)).countP p = (l.take (k + 1)).length := by
    rw [List.countP_eq_length]
    intro a ha
    obtain ⟨i, hi, rfl⟩ := List.getElem_of_mem ha
    rw [List.length_take] at hi
    have e : (l.take (k + 1))[i] = l.getD i d := by
      rw [List.getElem_take, List.getD_eq_getElem l d (by omega)]
    rw [e]
    exact h i (by omega)
  rw [List.length_take] at h2
  omega

theorem sorted_getD_le {α : Type} [LinearOrder α] (d : α) (s : List α)
    (hs : List.Sorted (fun a b => a ≤ b) s) (i j : Nat) (hij : i ≤ j) (hj : j < s.length) :
    s.getD i d ≤ s.getD j d := by
  rw [List.getD_eq_getElem s d (by omega), List.getD_eq_getElem s d hj]
  have := List.Sorted.rel_get_of_le hs (a := ⟨i, by omega⟩) (b := ⟨j, hj⟩) hij
  exact this

/-- A sample that is in its sorted position is the order statistic of that
rank. -/
theorem settled_eq_sorted {α : Type} [LinearOrder α] (d : α) (data arr : List α) (k : Nat)
    (hk : k < arr.length) (hlen : arr.length = data.length)
    (hcnt : ∀ p : α → Bool, arr.countP p = data.countP p) (hs : settled_at d arr k) :
    (data.insertionSort (fun a b => a ≤ b)).getD k d = arr.getD k d := by
  have hsorted := List.sorted_insertionSort (fun (a b : α) => a ≤ b) data
  have hperm := List.perm_insertionSort (fun (a b : α) => a ≤ b) data
  have hslen : (data.insertionSort (fun a b => a ≤ b)).length = data.length :=
    hperm.length_eq
  obtain ⟨s1, s2⟩ := hs
  apply le_antisymm
  · by_contra hcon
    have hlt := not_le.mp hcon
    have c1 := le_countP_of_head_true d arr (fun x => decide (x ≤ arr.getD k d)) k hk
      (by
        intro i hi
        by_cases c : i = k
        · rw [c]; simp
        · simpa using s1 i (by omega))
    have c2 := countP_le_of_tail_false d (data.insertionSort (fun a b => a ≤ b))
      (fun x => decide (x ≤ arr.getD k d)) k
      (by
        intro i hi1 hi2
        have := sorted_getD_le d _ hsorted k i hi1 hi2
        simpa using lt_of_lt_of_le hlt this)
    have c3 := hperm.countP_eq (fun x => decide (x ≤ arr.getD k d))
    have c4 := hcnt (fun x => decide (x ≤ arr.getD k d))
    omega
  · by_contra hcon
    have hlt := not_le.mp hcon
    have c1 := countP_le_of_tail_false d arr (fun x => decide (x < arr.getD k d)) k
      (by
        intro i hi1 hi2
        by_cases c : i = k
        · rw [c]; simp
        · simpa using s2 i (by omega) hi2)
    have c2 := le_countP_of_head_true d (data.insertionSort (fun a b => a ≤ b))
      (fun x => decide (x < arr.getD k d)) k (by omega)
      (by
        intro i hi
        have := sorted_getD_le d _ hsorted i k hi (by omega)
        simpa using lt_of_le_of_lt this hlt)
    have c3 := hperm.countP_eq (fun x => decide (x < arr.getD k d))
    have c4 := hcnt (fun x => decide (x < arr.getD k d))
    omega

/-! ## Lemmas: the selection loop -/

theorem select_loop_spec {α : Type} [LinearOrder α] (d : α) (data : List α) (k : Nat) :
    ∀ (fuel : Nat) (arr : List α) (l ir : Nat), arr.length < 2 ^ 64 →
      select_inv d data arr k l ir → ir + 1 - l < fuel →
      select_loop k fuel arr l ir =
        some ((data.insertionSort (fun a b => a ≤ b)).getD k d) := by
  intro fuel
  induction fuel with
  | zero => intro arr l ir _ _ hf; omega
  | succ fuel ih =>
    intro arr l ir hlen hinv hf
    unfold select_loop
    by_cases hexit : ir ≤ l + 1
    · rw [if_pos hexit]
      obtain ⟨hld, hcnt, hk, hir, hlo, hup, hpos⟩ := hinv
      by_cases heq : ir = l + 1
      · rw [if_pos heq]
        obtain ⟨arr', e, sh, o, _, _⟩ :=
          swap_if_greater_spec d arr l ir l ir hir (le_refl _) (by omega) (by omega)
            (le_refl _) (by omega)
        rw [e]
        dsimp only
        have hlen' : arr'.length = arr.length := sh.1
        rw [getElem?_eq_some_getD arr' d k (by omega)]
        have lo' := segment_shuffle_lower d arr arr' l ir hir sh hlo
        have up' := segment_shuffle_upper d arr arr' l ir sh hup
        have hset : settled_at d arr' k := by
          rcases hpos with ⟨h1, h2⟩ | ⟨h1, h2⟩
          · by_cases ck : k = l
            · subst ck
              refine ⟨fun a ha => lo' a k ha (le_refl _) (by omega), ?_⟩
              intro b hb hb2
              by_cases cb : b = ir
              · rw [cb]; exact o
              · exact up' k b (by omega) (by omega) hb2
            · have hk1 : k = ir := by omega
              subst hk1
              refine ⟨?_, fun b hb hb2 => up' k b (le_refl _) hb hb2⟩
              intro a ha
              by_cases ca : a = l
              · rw [ca]; exact o
              · exact lo' a k (by omega) (by omega) (by omega)
          · exact segment_shuffle_settled d arr arr' k l ir hir h1 sh h2
        rw [settled_eq_sorted d data arr' k (by omega) (hlen'.trans hld)
          (fun p => (sh.2.1 p).trans (hcnt p)) hset]
      · rw [if_neg heq]
        rw [getElem?_eq_some_getD arr d k hk]
        have hset : settled_at d arr k := by
          rcases hpos with ⟨h1, h2⟩ | ⟨h1, h2⟩
          · have hkl : k = l := by omega
            exact ⟨fun a ha => hlo a k (by omega) (by omega) hk,
              fun b hb hb2 => hup k b (by omega) (by omega) hb2⟩
          · exact h2
        rw [settled_eq_sorted d data arr k hk hld hcnt hset]
    · rw [if_neg hexit]
      obtain ⟨arr', l', ir', e, hinv', hdec⟩ :=
        select_step_spec d data arr k l ir hlen (by omega) hinv
      rw [e]
      dsimp only
      have hlen' : arr'.length = arr.length := hinv'.1.trans hinv.1.symm
      exact ih arr' l' ir' (by omega) hinv' (by omega)

/-- The function `kth_smallest` returns the order statistic of rank `k`. -/
theorem kth_smallest_spec {α : Type} [LinearOrder α] (d : α) (data : List α) (k : Nat)
    (hk : k < data.length) (hlen : data.length < 2 ^ 64) :
    kth_smallest data data.length k =
      some ((data.insertionSort (fun a b => a ≤ b)).getD k d) := by
  unfold kth_smallest
  rw [if_pos (le_refl _), List.take_length, usub_one data.length (by omega) hlen]
  apply select_loop_spec d data k (data.length + 1) data 0 (data.length - 1) hlen
  · refine ⟨rfl, fun _ => rfl, hk, by omega, ?_, ?_, Or.inl ⟨by omega, by omega⟩⟩
    · intro a b ha; omega
    · intro a b ha hb hb2; omega
  · omega

/-! ## Counting over a split list -/

theorem countP_eq_of_split {α : Type} (d : α) (l : List α) (p : α → Bool) (k : Nat)
    (hk : k ≤ l.length)
    (h1 : ∀ i, i < k → p (l.getD i d) = false)
    (h2 : ∀ i, k ≤ i → i < l.length → p (l.getD i d) = true) :
    l.countP p = l.length - k := by
  have hsplit : l.countP p = (l.take k).countP p + (l.drop k).countP p := by
    rw [← List.countP_append, List.take_append_drop]
  have e1 : (l.take k).countP p = 0 := by
    rw [List.countP_eq_zero]
    intro a ha
    obtain ⟨i, hi, rfl⟩ := List.getElem_of_mem ha
    rw [List.length_take] at hi
    have e : (l.take k)[i] = l.getD i d := by
      rw [List.getElem_take, List.getD_eq_getElem l d (by omega)]
    rw [e, h1 i (by omega)]
    simp
  have e2 : (l.drop k).countP p = (l.drop k).length := by
    rw [List.countP_eq_length]
    intro a ha
    obtain ⟨i, hi, rfl⟩ := List.getElem_of_mem ha
    rw [List.length_drop] at hi
    have e : (l.drop k)[i] = l.getD (k + i) d := by
      rw [List.getElem_drop, List.getD_eq_getElem l d (by omega)]
    rw [e]
    exact h2 (k + i) (by omega) (by omega)
  rw [List.length_drop] at e2
  omega

theorem map_getD_range {α : Type} (d : α) (l : List α) :
    (List.range l.length).map (fun i => l.getD i d) = l := by
  apply List.ext_getElem?
  intro i
  rw [List.getElem?_map]
  by_cases c : i < l.length
  · rw [List.getElem?_range c, getElem?_eq_some_getD l d i c]
    rfl
  · rw [List.getElem?_eq_none_iff.mpr (by rw [List.length_range]; omega),
      List.getElem?_eq_none_iff.mpr (by omega)]
    rfl

/-! ## `rgb_to_y` -/

theorem luma_bounds {α : Type} [LinearOrderedField α] (R G B : Fin 256) :
    (33 : α) / 2 ≤ luma R G B ∧ (luma R G B : α) ≤ 15081 / 64 := by
  have hR : ((R.val : Nat) : α) ≤ 255 := by exact_mod_cast Nat.le_of_lt_succ R.isLt
  have hG : ((G.val : Nat) : α) ≤ 255 := by exact_mod_cast Nat.le_of_lt_succ G.isLt
  have hB : ((B.val : Nat) : α) ≤ 255 := by exact_mod_cast Nat.le_of_lt_succ B.isLt
  have hR0 : (0 : α) ≤ ((R.val : Nat) : α) := Nat.cast_nonneg _
  have hG0 : (0 : α) ≤ ((G.val : Nat) : α) := Nat.cast_nonneg _
  have hB0 : (0 : α) ≤ ((B.val : Nat) : α) := Nat.cast_nonneg _
  unfold luma
  constructor
  · rw [div_add' _ _ _ (by norm_num : (256 : α) ≠ 0), div_le_div_iff₀ (by norm_num) (by norm_num)]
    linarith
  · rw [div_add' _ _ _ (by norm_num : (256 : α) ≠ 0), div_le_div_iff₀ (by norm_num) (by norm_num)]
    linarith

theorem luma_clamp {α : Type} [LinearOrderedField α] (R G B : Fin 256) :
    (if luma R G B < (0 : α) then (0 : α)
      else (if (255 : α) < luma R G B then 255 else luma R G B)) = luma R G B := by
  obtain ⟨h1, h2⟩ := luma_bounds (α := α) R G B
  rw [if_neg (by
    intro h
    have : (33 : α) / 2 < 0 := lt_of_le_of_lt h1 h
    norm_num at this)]
  rw [if_neg (by
    intro h
    have : (255 : α) < 15081 / 64 := lt_of_lt_of_le h h2
    norm_num at this)]

theorem rgb_to_y_loop_spec {α : Type} [LinearOrderedField α] (bytes : List (Fin 256))
    (n : Nat) (hlen : 3 * n ≤ bytes.length) :
    ∀ (fuel t : Nat), t ≤ n → n < fuel + t →
      rgb_to_y_loop bytes (3 * n) fuel (3 * t) (luma_plane (α := α) bytes t) =
        some (luma_plane bytes n) := by
  intro fuel
  induction fuel with
  | zero => intro t h1 h2; omega
  | succ fuel ih =>
    intro t h1 h2
    unfold rgb_to_y_loop
    by_cases c : 3 * t < 3 * n
    · rw [if_pos c]
      rw [getElem?_eq_some_getD bytes 0 (3 * t) (by omega),
        getElem?_eq_some_getD bytes 0 (3 * t + 1) (by omega),
        getElem?_eq_some_getD bytes 0 (3 * t + 2) (by omega)]
      dsimp only
      rw [luma_clamp]
      have e : luma_plane (α := α) bytes t ++
          [luma (bytes.getD (3 * t) 0) (bytes.getD (3 * t + 1) 0) (bytes.getD (3 * t + 2) 0)] =
          luma_plane bytes (t + 1) := by
        unfold luma_plane
        rw [List.range_succ, List.map_append]
        rfl
      rw [e]
      have e3 : 3 * t + 3 = 3 * (t + 1) := by omega
      rw [e3]
      exact ih (t + 1) (by omega) (by omega)
    · rw [if_neg c]
      have : t = n := by omega
      rw [this]

/-- C19 (counterexample): for a 30000 x 30000 image `width * height` fits an
`int` but `3 * pixel_count` = 2700000000 does not, so the call has no defined
result, whatever the buffer holds. -/
theorem rgb_to_y_30000_overflows :
    rgb_to_y (α := ℚ) true (List.replicate (3 * 30000 * 30000) 0) 30000 30000 = none := by
  unfold rgb_to_y
  dsimp only
  rw [if_neg (by decide), if_pos (by decide), if_pos rfl, if_pos (by decide)]

/-- C19 (amended): for every RGB byte buffer with `width*height > 0` and
`3*width*height <= INT_MAX` (holding at least `3*width*height` bytes),
`rgb_to_y` returns a plane of `width*height` values whose `i`-th value is
`Y = (66*R_i + 129*G_i + 25*B_i + 128)/256 + 16`; `Y` lies in
`[16.5, 235.640625]`, so clamping to `[0, 255]` does not change it. -/
theorem rgb_to_y_luminance {α : Type} [LinearOrderedField α] (bytes : List (Fin 256))
    (width height : Int) (hpos : 0 < width * height) (hsize : 3 * (width * height) < 2 ^ 31)
    (hlen : 3 * (width * height).toNat ≤ bytes.length) :
    ∃ plane : List α, rgb_to_y true bytes width height = some (some plane) ∧
      plane.length = (width * height).toNat ∧
      ∀ i, i < (width * height).toNat →
        ∃ R G B : Fin 256, bytes[3 * i]? = some R ∧ bytes[3 * i + 1]? = some G ∧
          bytes[3 * i + 2]? = some B ∧
          plane[i]? = some ((66 * (R.val : α) + 129 * (G.val : α) + 25 * (B.val : α) + 128)
            / 256 + 16) ∧
          max 0 (min 255 ((66 * (R.val : α) + 129 * (G.val : α) + 25 * (B.val : α) + 128)
            / 256 + 16)) =
            (66 * (R.val : α) + 129 * (G.val : α) + 25 * (B.val : α) + 128) / 256 + 16 ∧
          (33 : α) / 2 ≤ (66 * (R.val : α) + 129 * (G.val : α) + 25 * (B.val : α) + 128)
            / 256 + 16 ∧
          (66 * (R.val : α) + 129 * (G.val : α) + 25 * (B.val : α) + 128) / 256 + 16 ≤
            15081 / 64 := by
  refine ⟨luma_plane bytes (width * height).toNat, ?_, ?_, ?_⟩
  · unfold rgb_to_y
    dsimp only
    rw [if_neg (by omega), if_pos hpos, if_pos rfl, if_neg (by omega)]
    have h := rgb_to_y_loop_spec (α := α) bytes (width * height).toNat hlen
      ((width * height).toNat + 1) 0 (by omega) (by omega)
    have e0 : luma_plane (α := α) bytes 0 = [] := rfl
    rw [e0] at h
    rw [h]
  · unfold luma_plane
    rw [List.length_map, List.length_range]
  · intro i hi
    refine ⟨bytes.getD (3 * i) 0, bytes.getD (3 * i + 1) 0, bytes.getD (3 * i + 2) 0,
      getElem?_eq_some_getD bytes 0 _ (by omega), getElem?_eq_some_getD bytes 0 _ (by omega),
      getElem?_eq_some_getD bytes 0 _ (by omega), ?_, ?_, ?_⟩
    · unfold luma_plane
      rw [List.getElem?_map, List.getElem?_range hi]
      rfl
    · obtain ⟨h1, h2⟩ := luma_bounds (α := α) (bytes.getD (3 * i) 0) (bytes.getD (3 * i + 1) 0)
        (bytes.getD (3 * i + 2) 0)
      unfold luma at h1 h2
      rw [min_eq_right (le_trans h2 (by norm_num)), max_eq_right (le_trans (by norm_num) h1)]
    · exact luma_bounds (α := α) (bytes.getD (3 * i) 0) (bytes.getD (3 * i + 1) 0)
        (bytes.getD (3 * i + 2) 0)

theorem rgb_to_y_luminance_witness :
    (0 < (2 : Int) * 1 ∧ 3 * ((2 : Int) * 1) < 2 ^ 31 ∧
      3 * ((2 : Int) * 1).toNat ≤ ([0, 0, 0, 255, 255, 255] : List (Fin 256)).length) ∧
    ∃ plane : List ℚ, rgb_to_y true ([0, 0, 0, 255, 255, 255] : List (Fin 256)) 2 1 =
        some (some plane) ∧ plane.length = ((2 : Int) * 1).toNat :=
  ⟨⟨by decide, by decide, by decide⟩,
    let ⟨plane, h1, h2, _⟩ := rgb_to_y_luminance (α := ℚ)
      ([0, 0, 0, 255, 255, 255] : List (Fin 256)) 2 1 (by decide) (by decide) (by decide)
    ⟨plane, h1, h2⟩⟩

/-! ## `nni_resize` -/

/-- C18: for every input plane, `nni_resize(img, 32, 32, 32, 32)` makes no
allocation and no access: it returns the pointer `img` itself, so each of the
1024 samples of a 32x32 plane is returned unchanged. -/
theorem nni_resize_same_size {α : Type} (alloc_result alloc_off_x alloc_off_y : Bool)
    (img : List α) :
    nni_resize alloc_result alloc_off_x alloc_off_y img 32 32 32 32 = some resized.same := by
  unfold nni_resize
  rfl

/-! ## The scale of the DCT matrix -/

theorem dct_matrix_values_first_row {α : Type} [Field α] (m : libm α) (x : Nat) (hx : x < 32) :
    (dct_matrix_values m)[0 * 32 + x]? = some (1 / m.sqrt 32) := by
  unfold dct_matrix_values
  rw [List.getElem?_append_left (by simp; omega)]
  rw [List.getElem?_map, List.getElem?_range (by omega)]
  rfl

theorem real_dct_scale_differs :
    (1 : ℝ) / Real.sqrt (2 / 32) * Real.cos (Real.pi / 2 / 32 * 1 * 1) ≠
      Real.sqrt (2 / 32) * Real.cos (Real.pi / 64 * 1 * (2 * 0 + 1)) := by
  have h2 : Real.sqrt (2 / 32) = 1 / 4 := by
    rw [show (2 : ℝ) / 32 = (1 / 4) ^ 2 by norm_num]
    exact Real.sqrt_sq (by norm_num)
  have e : Real.pi / 64 * 1 * (2 * 0 + 1) = Real.pi / 2 / 32 * 1 * 1 := by ring
  have h3 : 0 < Real.cos (Real.pi / 2 / 32 * 1 * 1) := by
    apply Real.cos_pos_of_mem_Ioo
    have := Real.pi_pos
    constructor <;> linarith
  rw [h2, e]
  intro h
  have h5 : (1 : ℝ) / (1 / 4) = 4 := by norm_num
  rw [h5] at h
  linarith

/-- C15 (failing input: `y = 1`, `x = 0`, with the real `sqrt`, `cos` and
pi): the first row of the matrix built by `get_dct_matrix` is `1/sqrt(32)`
throughout, but the other rows are scaled by `c1 = 1.0/sqrt(2.0/32)`, which
is 4, not by `sqrt(2/32)`, which is 1/4: `D[1][0]` is
`1/sqrt(2/32) * cos(pi/64)` and differs from `sqrt(2/32) * cos(pi/64)`. -/
theorem dct_matrix_rows_scaled_by_inverse :
    (∀ x, x < 32 →
      (get_dct_matrix (⟨Real.sqrt, Real.cos, Real.pi⟩ : libm ℝ) dct_statics_start).2[0 * 32 + x]? =
        some (1 / Real.sqrt 32)) ∧
    (get_dct_matrix (⟨Real.sqrt, Real.cos, Real.pi⟩ : libm ℝ) dct_statics_start).2[1 * 32 + 0]? =
      some (1 / Real.sqrt (2 / 32) * Real.cos (Real.pi / 2 / 32 * 1 * 1)) ∧
    (get_dct_matrix (⟨Real.sqrt, Real.cos, Real.pi⟩ : libm ℝ) dct_statics_start).2[1 * 32 + 0]? ≠
      some (Real.sqrt (2 / 32) * Real.cos (Real.pi / 64 * 1 * (2 * 0 + 1))) := by
  have hD : (get_dct_matrix (⟨Real.sqrt, Real.cos, Real.pi⟩ : libm ℝ) dct_statics_start).2 =
      dct_matrix_values ⟨Real.sqrt, Real.cos, Real.pi⟩ := by
    rw [get_dct_matrix_first _ _ rfl]
  rw [hD]
  refine ⟨fun x hx => dct_matrix_values_first_row _ x hx, dct_matrix_values_col0 _, ?_⟩
  rw [dct_matrix_values_col0]
  intro h
  exact real_dct_scale_differs (Option.some.inj h)

/-! ## The hash words and `print_hash` -/

theorem to_unsigned_lt (x : Int) : to_unsigned x < 2 ^ 32 := by
  unfold to_unsigned
  omega

theorem to_unsigned_to_int32 (w : Nat) (h : w < 2 ^ 32) : to_unsigned (to_int32 w) = w := by
  unfold to_unsigned to_int32
  rw [Nat.mod_eq_of_lt h]
  simp only [Int.ofNat_eq_coe]
  split <;> omega

theorem hex_digits_16_split (v : Nat) :
    hex_digits 16 v = hex_digits 8 (v / 2 ^ 32) ++ hex_digits 8 (v % 2 ^ 32) := by
  have r16 : List.range 16 = [0, 1, 2, 3, 4, 5, 6, 7, 8, 9, 10, 11, 12, 13, 14, 15] := by decide
  have r8 : List.range 8 = [0, 1, 2, 3, 4, 5, 6, 7] := by decide
  unfold hex_digits
  rw [r16, r8]
  simp only [List.map, List.cons_append, List.nil_append, Nat.reducePow, Nat.reduceSub,
    List.cons.injEq, and_true]
  repeat' constructor
  all_goals congr 1
  all_goals omega

theorem hex_value_hex_digit : ∀ d, d < 16 → hex_value (hex_digit d) = d := by decide

theorem is_lower_hex_hex_digit : ∀ d, d < 16 → is_lower_hex (hex_digit d) = true := by decide

theorem hex_digits_8_length (u : Nat) : (hex_digits 8 u).length = 8 := by
  unfold hex_digits
  rw [List.length_map, List.length_range]

theorem hex_digits_8_all_lower (u : Nat) : (hex_digits 8 u).all is_lower_hex = true := by
  unfold hex_digits
  rw [List.all_eq_true]
  intro c hc
  rw [List.mem_map] at hc
  obtain ⟨i, _, rfl⟩ := hc
  exact is_lower_hex_hex_digit _ (Nat.mod_lt _ (by norm_num))

theorem parse_hex_hex_digits_8 (u : Nat) (hu : u < 2 ^ 32) : parse_hex (hex_digits 8 u) = u := by
  have r8 : List.range 8 = [0, 1, 2, 3, 4, 5, 6, 7] := by decide
  unfold parse_hex hex_digits
  rw [r8]
  simp only [List.map, List.foldl, Nat.reducePow, Nat.reduceSub]
  rw [hex_value_hex_digit _ (Nat.mod_lt _ (by norm_num)),
    hex_value_hex_digit _ (Nat.mod_lt _ (by norm_num)),
    hex_value_hex_digit _ (Nat.mod_lt _ (by norm_num)),
    hex_value_hex_digit _ (Nat.mod_lt _ (by norm_num)),
    hex_value_hex_digit _ (Nat.mod_lt _ (by norm_num)),
    hex_value_hex_digit _ (Nat.mod_lt _ (by norm_num)),
    hex_value_hex_digit _ (Nat.mod_lt _ (by norm_num)),
    hex_value_hex_digit _ (Nat.mod_lt _ (by norm_num))]
  omega

theorem read_at_nat {α : Type} (buf : List α) (i : Nat) : read_at buf (Int.ofNat i) = buf[i]? := by
  unfold read_at
  have h : (0 : Int) ≤ Int.ofNat i := Int.ofNat_nonneg i
  rw [if_pos h]
  rfl

theorem print_hash_loop_spec (hash : List Int) :
    ∀ (fuel i : Nat) (out : List Char), i ≤ hash.length → hash.length < fuel + i →
      print_hash_loop hash (Int.ofNat hash.length) fuel (Int.ofNat i) out =
        some (out ++ ((hash.drop i).map format_08x).flatten) := by
  intro fuel
  induction fuel with
  | zero => intro i out h1 h2; omega
  | succ fuel ih =>
    intro i out h1 h2
    unfold print_hash_loop
    by_cases c : i < hash.length
    · rw [if_pos (by simp only [Int.ofNat_eq_coe]; omega), read_at_nat,
        List.getElem?_eq_getElem c]
      dsimp only
      have e : Int.ofNat i + 1 = Int.ofNat (i + 1) := rfl
      rw [e, ih (i + 1) _ (by omega) (by omega)]
      rw [List.drop_eq_getElem_cons c]
      simp only [List.map_cons, List.flatten_cons, List.append_assoc]
    · rw [if_neg (by simp only [Int.ofNat_eq_coe]; omega)]
      rw [List.drop_eq_nil_of_le (by omega)]
      simp

theorem flatten_block {β : Type} (l : List (List β)) (n : Nat)
    (hl : ∀ b ∈ l, b.length = n) :
    ∀ i (hi : i < l.length), (l.flatten.drop (n * i)).take n = l.get ⟨i, hi⟩ := by
  induction l with
  | nil => intro i hi; simp at hi
  | cons b t ih =>
    intro i hi
    have hb : b.length = n := hl b (List.mem_cons_self _ _)
    cases i with
    | zero =>
      simp only [Nat.mul_zero, List.drop_zero, List.flatten_cons]
      rw [List.take_append_of_le_length (by omega), List.take_of_length_le (by omega)]
      rfl
    | succ i =>
      have e : n * (i + 1) = b.length + n * i := by rw [hb]; ring
      rw [List.flatten_cons, e, List.drop_append]
      exact ih (fun b' hb' => hl b' (List.mem_cons_of_mem _ hb')) i
        (by simpa using hi)

theorem flatten_length_const {β : Type} (l : List (List β)) (n : Nat)
    (hl : ∀ b ∈ l, b.length = n) : l.flatten.length = n * l.length := by
  induction l with
  | nil => simp
  | cons b t ih =>
    rw [List.flatten_cons, List.length_append, hl b (List.mem_cons_self _ _),
      ih (fun b' hb' => hl b' (List.mem_cons_of_mem _ hb')), List.length_cons]
    ring

/-- The output of `print_hash` without a file name is the concatenation of
the 8 digit groups, followed by a newline. -/
theorem print_hash_output (hash : List Int) :
    print_hash none hash (Int.ofNat hash.length) =
      some ((hash.map format_08x).flatten ++ [Char.ofNat 10]) := by
  unfold print_hash
  have h := print_hash_loop_spec hash (hash.length + 1) 0 [] (by omega) (by omega)
  rw [List.drop_zero, List.nil_append] at h
  have e : (Int.ofNat hash.length).toNat + 1 = hash.length + 1 := rfl
  have e0 : (0 : Int) = Int.ofNat 0 := rfl
  rw [e, e0, h]

/-- C16: on a little-endian host (`BIG_ENDIAN` not defined), for every 64 bit
value `v` the words returned by `phs_dct_image_hash` are `hash[0]` = bits
63..32 of `v` and `hash[1]` = bits 31..0 of `v`, and `print_hash` on these two
words prints the 16 digit hexadecimal numeral of `v`, most significant digit
first. -/
theorem dct_hash_words_most_significant_first (v : Nat) (hv : v < 2 ^ 64) :
    ∃ h0 h1, store_hash_value false v = some [h0, h1] ∧
      to_unsigned h0 = v / 2 ^ 32 ∧ to_unsigned h1 = v % 2 ^ 32 ∧
      print_hash none [h0, h1] 2 = some (hex_digits 16 v ++ [Char.ofNat 10]) := by
  refine ⟨to_int32 (v / 2 ^ 32), to_int32 (v % 2 ^ 32), rfl,
    to_unsigned_to_int32 _ (by omega), to_unsigned_to_int32 _ (by omega), ?_⟩
  have h := print_hash_output [to_int32 (v / 2 ^ 32), to_int32 (v % 2 ^ 32)]
  have e : Int.ofNat [to_int32 (v / 2 ^ 32), to_int32 (v % 2 ^ 32)].length = 2 := rfl
  rw [e] at h
  rw [h, hex_digits_16_split]
  simp only [List.map_cons, List.map_nil, List.flatten_cons, List.flatten_nil, List.append_nil]
  unfold format_08x
  rw [to_unsigned_to_int32 _ (by omega), to_unsigned_to_int32 _ (by omega)]

theorem dct_hash_words_most_significant_first_witness :
    (81985529216486895 : Nat) < 2 ^ 64 ∧
    ∃ h0 h1, store_hash_value false 81985529216486895 = some [h0, h1] ∧
      to_unsigned h0 = 81985529216486895 / 2 ^ 32 ∧
      to_unsigned h1 = 81985529216486895 % 2 ^ 32 ∧
      print_hash none [h0, h1] 2 = some (hex_digits 16 81985529216486895 ++ [Char.ofNat 10]) :=
  ⟨by decide, dct_hash_words_most_significant_first 81985529216486895 (by decide)⟩

/-- C17: for every vector of `int` words, `print_hash` emits 8 lowercase
hexadecimal digits per word in vector order (then a newline), and the `i`-th
group of 8 digits, read as a base 16 number, is the `i`-th word as an
unsigned 32 bit value. -/
theorem print_hash_round_trip (hash : List Int) :
    ∃ out, print_hash none hash (Int.ofNat hash.length) = some out ∧
      out.length = 8 * hash.length + 1 ∧
      ∀ i (hi : i < hash.length),
        ((out.drop (8 * i)).take 8).length = 8 ∧
        ((out.drop (8 * i)).take 8).all is_lower_hex = true ∧
        parse_hex ((out.drop (8 * i)).take 8) = to_unsigned (hash.get ⟨i, hi⟩) := by
  have hblocks : ∀ b ∈ hash.map format_08x, b.length = 8 := by
    intro b hb
    rw [List.mem_map] at hb
    obtain ⟨x, _, rfl⟩ := hb
    exact hex_digits_8_length _
  have hflen := flatten_length_const (hash.map format_08x) 8 hblocks
  rw [List.length_map] at hflen
  refine ⟨_, print_hash_output hash, ?_, ?_⟩
  · rw [List.length_append, hflen]
    rfl
  · intro i hi
    have hgroup : (((hash.map format_08x).flatten ++ [Char.ofNat 10]).drop (8 * i)).take 8 =
        format_08x (hash.get ⟨i, hi⟩) := by
      rw [List.drop_append_of_le_length (by omega),
        List.take_append_of_le_length (by rw [List.length_drop]; omega)]
      rw [flatten_block (hash.map format_08x) 8 hblocks i (by rw [List.length_map]; exact hi)]
      simp
    rw [hgroup]
    exact ⟨hex_digits_8_length _, hex_digits_8_all_lower _,
      parse_hex_hex_digits_8 _ (to_unsigned_lt _)⟩

theorem print_hash_round_trip_witness :
    ∃ out, print_hash none [-1, 255] (Int.ofNat [(-1 : Int), 255].length) = some out ∧
      out.length = 8 * [(-1 : Int), 255].length + 1 ∧
      ((out.drop (8 * 1)).take 8).all is_lower_hex = true ∧
      parse_hex ((out.drop (8 * 1)).take 8) = to_unsigned 255 :=
  let ⟨out, h1, h2, h3⟩ := print_hash_round_trip [-1, 255]
  ⟨out, h1, h2, (h3 1 (by decide)).2.1, (h3 1 (by decide)).2.2⟩

/-! ## `phs_dct_image_hash` -/

theorem to_int32_range (w : Nat) : -2 ^ 31 ≤ to_int32 w ∧ to_int32 w < 2 ^ 31 := by
  unfold to_int32
  simp only [Int.ofNat_eq_coe]
  split <;> omega

theorem store_hash_value_eq (big_endian : Bool) (v : Nat) :
    store_hash_value big_endian v = some [to_int32 (v / 2 ^ 32), to_int32 (v % 2 ^ 32)] := by
  cases big_endian <;> rfl

theorem get_transposed_dct_matrix_total {α : Type} [Field α] (m : libm α) (st : dct_statics α)
    (hst : st.dct_matrix_prepared ≠ 0 → st.dct_matrix.length = 1024) :
    ∃ r, get_transposed_dct_matrix m (get_dct_matrix m st).1 = some r := by
  have hlen : (get_dct_matrix m (get_dct_matrix m st).1).2.length = 1024 := by
    unfold get_dct_matrix
    by_cases h : st.dct_matrix_prepared = 0
    · rw [if_pos h]
      simp only [one_ne_zero, if_false]
      exact dct_matrix_values_length m
    · rw [if_neg h, if_neg h]
      exact hst h
  have hT := transpose_x_loop_identity _ hlen
  unfold get_transposed_dct_matrix
  by_cases ht : (get_dct_matrix m st).1.transposed_dct_matrix_prepared = 0
  · rw [if_pos ht, hT]
    exact ⟨_, rfl⟩
  · rw [if_neg ht]
    exact ⟨_, rfl⟩

theorem dct_transform_and_threshold_outcomes {α : Type} [LT α]
    [DecidableRel (fun (a b : α) => a < b)]
    (K : dct_callees α) (big_endian alloc_result : Bool)
    (dct_matrix transposed_dct_matrix img1 : List α) (hash : Option (List Int))
    (r : Int) (h : Option (List Int))
    (H : dct_transform_and_threshold K big_endian alloc_result dct_matrix
      transposed_dct_matrix img1 hash = some (r, h)) :
    (r = -1 ∧ h = hash) ∨
    (r = 0 ∧ ∃ w0 w1, h = some [w0, w1] ∧ -2 ^ 31 ≤ w0 ∧ w0 < 2 ^ 31 ∧
      -2 ^ 31 ≤ w1 ∧ w1 < 2 ^ 31) := by
  unfold dct_transform_and_threshold at H
  repeat' split at H
  all_goals try cases H
  all_goals first
    | (left
       exact ⟨rfl, rfl⟩)
    | (rename_i hs
       rw [store_hash_value_eq] at hs
       cases hs
       right
       exact ⟨rfl, _, _, rfl, (to_int32_range _).1, (to_int32_range _).2,
         (to_int32_range _).1, (to_int32_range _).2⟩)


/-- When the two products and the median succeed and the second product is a
32x32 plane, the transform step returns 0 with two words: no loop runs out
of fuel. -/
theorem dct_transform_and_threshold_success {α : Type} [LT α]
    [DecidableRel (fun (a b : α) => a < b)]
    (K : dct_callees α) (big_endian : Bool)
    (dct_matrix transposed_dct_matrix img1 a b : List α) (hash : Option (List Int))
    (h1 : K.mul_matrix dct_matrix img1 = some (some a))
    (h2 : K.mul_matrix a transposed_dct_matrix = some (some b))
    (hb : b.length = 1024)
    (hmed : ∀ c, ∃ median_value, K.median c = some (some median_value)) :
    ∃ w0 w1, dct_transform_and_threshold K big_endian true dct_matrix
      transposed_dct_matrix img1 hash = some (0, some [w0, w1]) := by
  obtain ⟨c, hc, hclen, _⟩ := crop_loop_spec 9 1 b (by omega) (by omega) (by omega) hb
  have hcrop : crop b = some c := hc
  obtain ⟨mv, hmv⟩ := hmed c
  obtain ⟨v, hv, _, _⟩ := threshold_hash_spec c mv (by omega)
  refine ⟨to_int32 (v / 2 ^ 32), to_int32 (v % 2 ^ 32), ?_⟩
  unfold dct_transform_and_threshold
  rw [h1]
  dsimp only
  rw [h2]
  dsimp only
  rw [hcrop]
  dsimp only
  rw [hmv]
  dsimp only
  rw [hv]
  dsimp only
  rw [if_pos rfl, store_hash_value_eq]

/-- C14: `phs_dct_image_hash` returns -1 for every input with
`width * height <= 0`; whenever it returns -1 the caller's `*hash` is what it
was before the call; whenever it returns 0, `*hash` points to exactly two
32 bit words; and it returns no other value.  This holds whatever the
callees `convolve`, `nni_resize`, `mul_matrix` and `median` return. -/
theorem phs_dct_image_hash_failure_leaves_hash {α : Type} [Field α] [LT α]
    [DecidableRel (fun (a b : α) => a < b)]
    (K : dct_callees α) (big_endian alloc_y alloc_result : Bool) (m : libm α)
    (st : dct_statics α) (hst : st.dct_matrix_prepared ≠ 0 → st.dct_matrix.length = 1024)
    (data : List (Fin 256)) (width height : Int) (hash : Option (List Int)) :
    (width * height ≤ 0 →
      phs_dct_image_hash K big_endian alloc_y alloc_result m st data width height hash =
        some (-1, hash)) ∧
    (∀ r h,
      phs_dct_image_hash K big_endian alloc_y alloc_result m st data width height hash =
        some (r, h) →
      (r = -1 ∧ h = hash) ∨
      (r = 0 ∧ ∃ w0 w1, h = some [w0, w1] ∧ -2 ^ 31 ≤ w0 ∧ w0 < 2 ^ 31 ∧
        -2 ^ 31 ≤ w1 ∧ w1 < 2 ^ 31)) := by
  obtain ⟨⟨st1, t⟩, ht⟩ := get_transposed_dct_matrix_total m st hst
  constructor
  · intro hwh
    have hy : rgb_to_y (α := α) alloc_y data width height = some none := by
      unfold rgb_to_y
      dsimp only
      rw [if_neg (not_le.mpr (lt_of_le_of_lt hwh (by norm_num))), if_neg (not_lt.mpr hwh)]
    unfold phs_dct_image_hash
    rw [ht]
    dsimp only
    rw [hy]
  · intro r h H
    unfold phs_dct_image_hash at H
    rw [ht] at H
    dsimp only at H
    split at H
    · cases H
    · cases H
      exact Or.inl ⟨rfl, rfl⟩
    · split at H
      · cases H
      · cases H
        exact Or.inl ⟨rfl, rfl⟩
      · split at H
        · cases H
        · cases H
          exact Or.inl ⟨rfl, rfl⟩
        · exact dct_transform_and_threshold_outcomes _ _ _ _ _ _ _ _ _ H
        · exact dct_transform_and_threshold_outcomes _ _ _ _ _ _ _ _ _ H


/-- When every callee succeeds and the second product is a 32x32 plane,
`phs_dct_image_hash` returns 0 with two words. -/
theorem phs_dct_image_hash_success {α : Type} [Field α] [LT α]
    [DecidableRel (fun (a b : α) => a < b)]
    (K : dct_callees α) (big_endian alloc_y : Bool) (m : libm α)
    (st : dct_statics α) (hst : st.dct_matrix_prepared ≠ 0 → st.dct_matrix.length = 1024)
    (data : List (Fin 256)) (width height : Int) (hash : Option (List Int))
    (plane img2 r a b : List α)
    (hy : rgb_to_y alloc_y data width height = some (some plane))
    (hc : K.convolve plane width height = some (some img2))
    (hn : K.nni_resize img2 width height = some (resized.fresh r))
    (h1 : ∀ d, K.mul_matrix d r = some (some a))
    (h2 : ∀ t, K.mul_matrix a t = some (some b))
    (hb : b.length = 1024)
    (hmed : ∀ c, ∃ median_value, K.median c = some (some median_value)) :
    ∃ w0 w1, phs_dct_image_hash K big_endian alloc_y true m st data width height hash =
      some (0, some [w0, w1]) := by
  obtain ⟨⟨st1, t⟩, ht⟩ := get_transposed_dct_matrix_total m st hst
  obtain ⟨w0, w1, hw⟩ := dct_transform_and_threshold_success K big_endian
    (get_dct_matrix m st).2 t r a b hash (h1 _) (h2 _) hb hmed
  refine ⟨w0, w1, ?_⟩
  unfold phs_dct_image_hash
  rw [ht]
  dsimp only
  rw [hy]
  dsimp only
  rw [hc]
  dsimp only
  rw [hn]
  exact hw

theorem rgb_to_y_black_pixel :
    rgb_to_y (α := ℚ) true [0, 0, 0] 1 1 = some (some [33 / 2]) := by
  simp [rgb_to_y, rgb_to_y_loop, luma]
  norm_num

theorem zero_callees_run :
    ∃ w0 w1, phs_dct_image_hash zero_callees false true true ⟨id, id, 3⟩ dct_statics_start
      [0, 0, 0] 1 1 none = some (0, some [w0, w1]) :=
  phs_dct_image_hash_success zero_callees false true ⟨id, id, 3⟩ dct_statics_start
    (fun h => absurd rfl h) [0, 0, 0] 1 1 none [33 / 2] [33 / 2] (List.replicate 1024 0)
    (List.replicate 1024 0) (List.replicate 1024 0) rgb_to_y_black_pixel rfl rfl
    (fun _ => rfl) (fun _ => rfl) (List.length_replicate _ _) (fun _ => ⟨0, rfl⟩)

theorem phs_dct_image_hash_failure_leaves_hash_witness :
    ((dct_statics_start (α := ℚ)).dct_matrix_prepared ≠ 0 →
      (dct_statics_start (α := ℚ)).dct_matrix.length = 1024) ∧
    ((0 : Int) * 5 ≤ 0 ∧
      phs_dct_image_hash zero_callees false true true ⟨id, id, 3⟩ dct_statics_start
        [] 0 5 (some [7]) = some (-1, some [7])) ∧
    (∃ h, phs_dct_image_hash zero_callees false true true ⟨id, id, 3⟩ dct_statics_start
        [0, 0, 0] 1 1 none = some (0, h) ∧ ∃ w0 w1, h = some [w0, w1]) :=
  ⟨fun h => absurd rfl h,
    ⟨by decide,
      (phs_dct_image_hash_failure_leaves_hash zero_callees false true true ⟨id, id, 3⟩
        dct_statics_start (fun h => absurd rfl h) [] 0 5 (some [7])).1 (by decide)⟩,
    let ⟨w0, w1, hrun⟩ := zero_callees_run
    ⟨some [w0, w1], hrun,
      ((phs_dct_image_hash_failure_leaves_hash zero_callees false true true ⟨id, id, 3⟩
        dct_statics_start (fun h => absurd rfl h) [0, 0, 0] 1 1 none).2 0 _ hrun).elim
        (fun h => absurd h.1 (by decide))
        (fun h => let ⟨_, a, b, hab, _⟩ := h; ⟨a, b, hab⟩)⟩⟩

/-! ## `compute_image_hash` and the end of `process_video_file` -/

/-- C11 (divergence): for an image with `width = 0` or `height = 0`
`compute_image_hash` returns 0 and stores a buffer of `bits * bits` zero
entries in `*hash` for every hashing method, `HM_PHASH_DCT64` included (whose
hash length is 2), and it leaves `*hash_size` as it was: the length is not
reported. -/
theorem compute_image_hash_zero_area (alloc_image_data export_ok : Bool)
    (hasher : HashingMethod → Option (List Int) → Int × Option (List Int))
    (width height : Nat) (bits : Int) (hashing_method : HashingMethod)
    (hash : Option (List Int)) (hash_size : Option Int)
    (hz : width = 0 ∨ height = 0) (hb : bits * bits < 2 ^ 31) :
    compute_image_hash true alloc_image_data export_ok hasher width height bits
      hashing_method hash hash_size =
      some (0, some (List.replicate (bits * bits).toNat 0), hash_size) := by
  have h0 : width * height = 0 := by
    rcases hz with h | h
    · rw [h, Nat.zero_mul]
    · rw [h, Nat.mul_zero]
  unfold compute_image_hash
  dsimp only
  rw [h0, Nat.zero_mul, Nat.zero_mod, if_pos rfl, if_pos hb, if_pos rfl]

theorem compute_image_hash_zero_area_witness :
    ((0 : Nat) = 0 ∨ 5 = 0) ∧ (16 : Int) * 16 < 2 ^ 31 ∧
    compute_image_hash true true true (fun _ h => (0, h)) 0 5 16 HashingMethod.HM_PHASH_DCT64
      none none = some (0, some (List.replicate ((16 : Int) * 16).toNat 0), none) :=
  ⟨Or.inl rfl, by decide,
    compute_image_hash_zero_area true true (fun _ h => (0, h)) 0 5 16
      HashingMethod.HM_PHASH_DCT64 none none (Or.inl rfl) (by decide)⟩

/-- C10 (failing input: a video whose frames have `width = 0` or
`height = 0`, with `bits >= 1`): for such a frame `process_video_frame`
returns a hash of `bits * bits` zero entries and leaves the slot's
`hash_size` at the 0 that `memset` put there, so for four such slots
`total_hash_size` is 0, the combined buffer has no cell and nothing is
copied; the serializer is handed no entry for DCT and reads
`4 * bits * bits` entries outside the buffer for the block-mean methods.  The
concatenation of the four hashes has `4 * bits * bits` entries. -/
theorem video_hash_zero_area_frames (alloc_image_data export_ok : Bool)
    (hasher : HashingMethod → Option (List Int) → Int × Option (List Int))
    (width height bits : Nat) (hashing_method : HashingMethod) (f0 f1 f2 f3 : Nat)
    (hz : width = 0 ∨ height = 0) (hbits : 0 < bits) (hb : (bits : Int) * bits < 2 ^ 31) :
    process_video_frame true true alloc_image_data export_ok hasher width height bits
      hashing_method (some 0) =
      some (some (List.replicate ((bits : Int) * bits).toNat 0), some 0) ∧
    combine_hashes
      [⟨f0, some (List.replicate ((bits : Int) * bits).toNat 0), 0⟩,
       ⟨f1, some (List.replicate ((bits : Int) * bits).toNat 0), 0⟩,
       ⟨f2, some (List.replicate ((bits : Int) * bits).toNat 0), 0⟩,
       ⟨f3, some (List.replicate ((bits : Int) * bits).toNat 0), 0⟩] = some (0, []) ∧
    video_serialized bits hashing_method
      [⟨f0, some (List.replicate ((bits : Int) * bits).toNat 0), 0⟩,
       ⟨f1, some (List.replicate ((bits : Int) * bits).toNat 0), 0⟩,
       ⟨f2, some (List.replicate ((bits : Int) * bits).toNat 0), 0⟩,
       ⟨f3, some (List.replicate ((bits : Int) * bits).toNat 0), 0⟩] =
      (if hashing_method.below_dct64 then none else some []) ∧
    (List.replicate ((bits : Int) * bits).toNat (0 : Int) ++
      List.replicate ((bits : Int) * bits).toNat 0 ++
      List.replicate ((bits : Int) * bits).toNat 0 ++
      List.replicate ((bits : Int) * bits).toNat 0).length = 4 * bits * bits ∧
    0 < 4 * bits * bits := by
  have h0 : width * height = 0 := by
    rcases hz with h | h
    · rw [h, Nat.zero_mul]
    · rw [h, Nat.mul_zero]
  have hc : ∀ slots : List video_frame_info,
      slots = [⟨f0, some (List.replicate ((bits : Int) * bits).toNat 0), 0⟩,
       ⟨f1, some (List.replicate ((bits : Int) * bits).toNat 0), 0⟩,
       ⟨f2, some (List.replicate ((bits : Int) * bits).toNat 0), 0⟩,
       ⟨f3, some (List.replicate ((bits : Int) * bits).toNat 0), 0⟩] →
      combine_hashes slots = some (0, []) := by
    intro slots e
    subst e
    simp [combine_hashes, total_loop, concat_loop, memcpy_hash]
  have hpos : 0 < 4 * bits * bits := Nat.mul_pos (Nat.mul_pos (by decide) hbits) hbits
  refine ⟨?_, hc _ rfl, ?_, ?_, hpos⟩
  · unfold process_video_frame
    rw [if_neg (by decide)]
    unfold compute_image_hash
    dsimp only
    rw [h0, Nat.zero_mul, Nat.zero_mod, if_pos rfl, if_pos hb, if_pos rfl]
  · unfold video_serialized
    rw [hc _ rfl]
    dsimp only
    unfold serialized_entries blockhash_to_str_entries print_hash_entries read_entries
    by_cases hm : hashing_method.below_dct64 = true
    · rw [if_pos hm, if_pos hm, if_neg (by simp only [List.length_nil]; omega)]
    · rw [if_neg hm, if_neg hm, if_pos (Nat.zero_le _)]
      rfl
  · have e : ((bits : Int) * bits).toNat = bits * bits := by
      rw [← Int.natCast_mul]
      exact Int.toNat_natCast _
    simp only [List.length_append, List.length_replicate, e]
    ring

theorem video_hash_zero_area_frames_witness :
    ((0 : Nat) = 0 ∨ 5 = 0) ∧ 0 < 1 ∧ ((1 : Nat) : Int) * (1 : Nat) < 2 ^ 31 ∧
    process_video_frame true true true true (fun _ h => (0, h)) 0 5 (1 : Nat)
      HashingMethod.HM_PHASH_DCT64 (some 0) = some (some [0], some 0) ∧
    combine_hashes [⟨0, some [0], 0⟩, ⟨3, some [0], 0⟩, ⟨7, some [0], 0⟩, ⟨9, some [0], 0⟩] =
      some (0, []) ∧
    video_serialized 1 HashingMethod.HM_PHASH_DCT64
      [⟨0, some [0], 0⟩, ⟨3, some [0], 0⟩, ⟨7, some [0], 0⟩, ⟨9, some [0], 0⟩] = some [] ∧
    ([(0 : Int)] ++ [0] ++ [0] ++ [0]).length = 4 * 1 * 1 ∧ 0 < 4 * 1 * 1 :=
  ⟨Or.inl rfl, by decide, by decide,
    video_hash_zero_area_frames true true (fun _ h => (0, h)) 0 5 1
      HashingMethod.HM_PHASH_DCT64 0 3 7 9 (Or.inl rfl) (by decide) (by decide)⟩

/-- C12 (divergence): for a video with no frames and `bits >= 1`, the code
jumps to `hash_computed` with a buffer of `bits * bits` entries; for the
block-mean methods it then serializes `4 * bits * bits` entries, which reads
outside the buffer, and for DCT it passes `total_hash_size`, which has not
been assigned. -/
theorem process_video_file_zero_frames (process_video_frame : Nat → Option (List Int × Nat))
    (alloc_hash alloc_hex : Bool) (bits : Nat) (hashing_method : HashingMethod)
    (decoded : Nat) (hbits : 0 < bits) :
    process_video_file process_video_frame true alloc_hash alloc_hex bits hashing_method
      0 decoded = none := by
  have hsq : 0 < bits * bits := Nat.mul_pos hbits hbits
  have h0 : hash_frame_numbers 0 = none := rfl
  unfold process_video_file
  rw [h0]
  dsimp only
  rw [if_neg (by decide)]
  unfold hash_computed
  cases hashing_method
  · have : blockhash_to_str_entries (List.replicate (bits * bits) (some 0))
        (4 * bits * bits) = none := by
      unfold blockhash_to_str_entries read_entries
      rw [if_neg (by rw [List.length_replicate, Nat.mul_assoc]; omega)]
    simp only [HashingMethod.below_dct64, if_true, this]
  · have : blockhash_to_str_entries (List.replicate (bits * bits) (some 0))
        (4 * bits * bits) = none := by
      unfold blockhash_to_str_entries read_entries
      rw [if_neg (by rw [List.length_replicate, Nat.mul_assoc]; omega)]
    simp only [HashingMethod.below_dct64, if_true, this]
  · simp only [HashingMethod.below_dct64, Bool.false_eq_true, if_false]

theorem process_video_file_zero_frames_witness :
    0 < 16 ∧
    process_video_file (fun _ => none) true true true 16 HashingMethod.HM_BLOCKHASH 0 0 =
      none :=
  ⟨by decide,
    process_video_file_zero_frames (fun _ => none) true true 16
      HashingMethod.HM_BLOCKHASH 0 (by decide)⟩

/-! ## A frame that yields no hash -/

theorem slot_loop_length (process_video_frame : Nat → Option (List Int × Nat))
    (current_frame : Nat) :
    ∀ (fuel i : Nat) (hash_frames : List video_frame_info) (n : Nat)
      (hash_frames' : List video_frame_info) (n' : Nat),
      i ≤ 4 →
      slot_loop process_video_frame current_frame fuel i hash_frames n =
        some (hash_frames', n') →
      hash_frames'.length = hash_frames.length ∧ n' + i ≤ n + 4 := by
  intro fuel
  induction fuel with
  | zero =>
    intro i hf n hf' n' _ h
    unfold slot_loop at h
    cases h
  | succ fuel ih =>
    intro i hf n hf' n' hi4 h
    unfold slot_loop at h
    split at h
    · split at h
      · cases h
      · split at h
        · split at h
          · cases h
          · obtain ⟨h1, h2⟩ := ih _ _ _ _ _ (by omega) h
            rw [List.length_set] at h1
            exact ⟨h1, by omega⟩
        · obtain ⟨h1, h2⟩ := ih _ _ _ _ _ (by omega) h
          exact ⟨h1, by omega⟩
    · cases h
      exact ⟨rfl, by omega⟩

theorem slot_loop_none (process_video_frame : Nat → Option (List Int × Nat))
    (current_frame : Nat) :
    ∀ (fuel i : Nat) (hash_frames : List video_frame_info) (n : Nat),
      hash_frames.length = 4 → 4 < fuel + i → i ≤ 4 →
      slot_loop process_video_frame current_frame fuel i hash_frames n = none →
      process_video_frame current_frame = none := by
  intro fuel
  induction fuel with
  | zero =>
    intro i hf n hlen hfuel hi4 h
    omega
  | succ fuel ih =>
    intro i hf n hlen hfuel hi4 h
    unfold slot_loop at h
    split at h
    · rename_i hi
      split at h
      · rename_i hnone
        rw [List.getElem?_eq_getElem (by omega)] at hnone
        cases hnone
      · split at h
        · split at h
          · assumption
          · exact ih _ _ _ (by rw [List.length_set]; exact hlen) (by omega) (by omega) h
        · exact ih _ _ _ hlen (by omega) (by omega) h
    · cases h

theorem frame_loop_none (process_video_frame : Nat → Option (List Int × Nat)) :
    ∀ (frames current_frame : Nat) (hash_frames : List video_frame_info) (n : Nat),
      hash_frames.length = 4 → n ≤ 4 →
      frame_loop process_video_frame frames current_frame hash_frames n = none →
      ∃ f, current_frame ≤ f ∧ f < current_frame + frames ∧ process_video_frame f = none := by
  intro frames
  induction frames with
  | zero =>
    intro cf hf n hlen hn h
    unfold frame_loop at h
    cases h
  | succ frames ih =>
    intro cf hf n hlen hn h
    unfold frame_loop at h
    split at h
    · rename_i hs
      exact ⟨cf, le_refl _, by omega, slot_loop_none _ _ _ _ _ _ hlen (by omega) hn hs⟩
    · rename_i hf' n' hs
      obtain ⟨hlen', hn'⟩ := slot_loop_length _ _ _ _ _ _ _ _ hn hs
      obtain ⟨f, h1, h2, h3⟩ := ih (cf + 1) hf' n' (by rw [hlen', hlen]) (by omega) h
      exact ⟨f, by omega, by omega, h3⟩

theorem hash_frame_numbers_length (frame_count : Nat) (hpos : 0 < frame_count) :
    ∃ hash_frames, hash_frame_numbers frame_count = some hash_frames ∧
      hash_frames.length = 4 := by
  unfold hash_frame_numbers
  by_cases h : frame_count < 11
  · simp only [h, if_true, hpos, gt_iff_lt]
    exact ⟨_, rfl, rfl⟩
  · simp only [h, if_false]
    exact ⟨_, rfl, rfl⟩

/-- C13 (divergence): when the frame loop of `process_video_file` is left
because `process_video_frame` returned `NULL` for a sampled frame, nothing is
serialized and the function returns 0, the value that `main` counts as a
success; the sampling is left in this way only if `process_video_frame`
returned `NULL` for one of the decoded frames. -/
theorem process_video_file_frame_failure_returns_zero
    (process_video_frame : Nat → Option (List Int × Nat))
    (alloc_zero alloc_hash alloc_hex : Bool) (bits : Nat) (hashing_method : HashingMethod)
    (frame_count decoded : Nat) (hpos : 0 < frame_count)
    (habort : sample_frames process_video_frame frame_count decoded = none) :
    (∃ f, f < decoded ∧ process_video_frame f = none) ∧
    process_video_file process_video_frame alloc_zero alloc_hash alloc_hex bits
      hashing_method frame_count decoded = some (0, none) := by
  obtain ⟨hf, hhf, hlen⟩ := hash_frame_numbers_length frame_count hpos
  unfold sample_frames at habort
  rw [hhf] at habort
  dsimp only at habort
  constructor
  · obtain ⟨f, _, h2, h3⟩ := frame_loop_none _ _ _ _ _ hlen (by omega) habort
    exact ⟨f, by omega, h3⟩
  · unfold process_video_file
    rw [hhf]
    dsimp only
    rw [habort]

theorem process_video_file_frame_failure_returns_zero_witness :
    0 < 20 ∧ sample_frames (fun f => if f = 7 then none else some ([Int.ofNat f], 1)) 20 20 =
      none ∧
    (∃ f, f < 20 ∧ (fun f => if f = 7 then none else some ([Int.ofNat f], 1)) f = none) ∧
    process_video_file (fun f => if f = 7 then none else some ([Int.ofNat f], 1))
      true true true 8 HashingMethod.HM_BLOCKHASH 20 20 = some (0, none) :=
  ⟨by decide, by decide,
    process_video_file_frame_failure_returns_zero
      (fun f => if f = 7 then none else some ([Int.ofNat f], 1)) true true true 8
      HashingMethod.HM_BLOCKHASH 20 20 (by decide) (by decide)⟩

/-- A frame that loads but whose hash computation fails (`hasher` returns a
non-zero value and leaves `*hash` alone) does not make `process_video_frame`
return `NULL`: it returns its local `hash`, which was never written. -/
theorem process_video_frame_hash_failure
    (hasher : HashingMethod → Option (List Int) → Int × Option (List Int))
    (width height : Nat) (bits : Int) (hashing_method : HashingMethod)
    (hash_size : Option Int)
    (hsize : width * height * (if hashing_method.below_dct64 then 4 else 3) % 2 ^ 64 ≠ 0)
    (hfail : ∀ method, (hasher method none).1 ≠ 0 ∧ (hasher method none).2 = none) :
    process_video_frame true true true true hasher width height bits hashing_method
      hash_size = none := by
  unfold process_video_frame compute_image_hash
  dsimp only
  rw [if_neg (by decide), if_neg hsize, if_neg (by decide), if_neg (by decide)]
  cases hashing_method <;>
    simp only [if_neg (hfail _).1, (hfail _).2]

/-! ## `main` -/

theorem option_loop_rejects (v : Int) (hv : Int.tmod v 4 ≠ 0) (post : List cli_option) :
    ∀ (pre : List cli_option) (task : hash_computation_task) (custom_bits_defined : Int),
      (∀ o ∈ pre, o.accepted = true) →
      option_loop (pre ++ cli_option.bits (some v) :: post) task custom_bits_defined =
        Except.error 2 := by
  intro pre
  induction pre with
  | nil =>
    intro task c _
    rw [List.nil_append]
    unfold option_loop
    rw [if_pos hv]
  | cons o rest ih =>
    intro task c hacc
    have ho := hacc o (List.mem_cons_self _ _)
    have hrest : ∀ o' ∈ rest, o'.accepted = true :=
      fun o' h' => hacc o' (List.mem_cons_of_mem _ h')
    rw [List.cons_append]
    cases o with
    | help => cases ho
    | version => cases ho
    | quick =>
      unfold option_loop
      exact ih _ _ hrest
    | video =>
      unfold option_loop
      exact ih _ _ hrest
    | bits parsed =>
      cases parsed with
      | none => cases ho
      | some w =>
        have hw : Int.tmod w 4 = 0 := by
          unfold cli_option.accepted at ho
          exact of_decide_eq_true ho
        unfold option_loop
        rw [if_neg (by rw [hw]; decide)]
        exact ih _ _ hrest
    | debug =>
      unfold option_loop
      exact ih _ _ hrest
    | unknown => cases ho

/-- C20 (counterexample): `--bits 0 a.png` is not rejected: 0 is not a
positive multiple of 4, yet `main` hands the file to `process_task` with
`bits` = 0 and exits with what the processing gives (here 0). -/
theorem main_accepts_bits_zero :
    main (fun _ => 0) [cli_option.bits (some 0)] ["a.png"] =
      (0, [⟨"a.png", 0, 0, 0, 0⟩]) := by
  decide

/-- C20 (amended): `main` rejects with exit code 2, before handing any file
to `process_task`, every `--bits` argument whose value is not a multiple of 4
(for example 15), whatever options and files follow it, when the options
before it are among `-q`, `-V`, `--debug` and `--bits` with a multiple of 4. -/
theorem main_rejects_bits_not_multiple_of_4 (process_task : hash_computation_task → Int)
    (pre post : List cli_option) (files : List String) (v : Int)
    (hpre : ∀ o ∈ pre, o.accepted = true) (hv : Int.tmod v 4 ≠ 0) :
    main process_task (pre ++ cli_option.bits (some v) :: post) files = (2, []) := by
  unfold main
  have hne : (pre ++ cli_option.bits (some v) :: post).isEmpty = false := by
    cases pre <;> rfl
  rw [hne, Bool.false_and, if_neg (by decide)]
  rw [option_loop_rejects v hv post pre _ _ hpre]

theorem main_rejects_bits_not_multiple_of_4_witness :
    (∀ o ∈ [cli_option.video, cli_option.bits (some 8)], o.accepted = true) ∧
    Int.tmod 15 4 ≠ 0 ∧
    main (fun _ => 0) ([cli_option.video, cli_option.bits (some 8)] ++
      cli_option.bits (some 15) :: [cli_option.quick]) ["a.png", "b.png"] = (2, []) :=
  ⟨by decide, by decide,
    main_rejects_bits_not_multiple_of_4 (fun _ => 0)
      [cli_option.video, cli_option.bits (some 8)] [cli_option.quick] ["a.png", "b.png"] 15
      (by decide) (by decide)⟩

/-! ## `kth_smallest` on every array -/

/-- C23: for every non-empty array of `n` values of a linear order (`n` a
`size_t`) and every `k < n`, `kth_smallest` returns 0 and stores the entry of
rank `k` (0-based) of the ascending sort.  All reads and swaps go to the copy
`arr` of the `n` values and are inside it (an access outside would give no
result); `data` itself is only read by the initial `memcpy`. -/
theorem kth_smallest_is_order_statistic {α : Type} [LinearOrder α] (data : List α) (k : Nat)
    (hk : k < data.length) (hlen : data.length < 2 ^ 64) :
    ∃ r, kth_smallest data data.length k = some r ∧
      (data.insertionSort (fun a b => a ≤ b))[k]? = some r := by
  have hs : k < (data.insertionSort (fun a b => a ≤ b)).length := by
    rw [List.length_insertionSort]
    exact hk
  refine ⟨(data.insertionSort (fun a b => a ≤ b)).getD k (data.get ⟨k, hk⟩), ?_, ?_⟩
  · exact kth_smallest_spec _ data k hk hlen
  · exact getElem?_eq_some_getD _ _ _ hs

theorem kth_smallest_is_order_statistic_witness :
    1 < ([30, 10, 40, 20] : List Nat).length ∧ ([30, 10, 40, 20] : List Nat).length < 2 ^ 64 ∧
    ∃ r, kth_smallest ([30, 10, 40, 20] : List Nat) ([30, 10, 40, 20] : List Nat).length 1 =
        some r ∧
      (([30, 10, 40, 20] : List Nat).insertionSort (fun a b => a ≤ b))[1]? = some r :=
  ⟨by decide, by decide,
    kth_smallest_is_order_statistic ([30, 10, 40, 20] : List Nat) 1 (by decide) (by decide)⟩

/-! ## The exit code of `main` and the `bits` value it hands over -/

theorem option_loop_prefix :
    ∀ (pre : List cli_option) (task : hash_computation_task) (custom_bits_defined : Int),
      (∀ o ∈ pre, o.accepted = true) →
      ∃ task' c', ∀ rest, option_loop (pre ++ rest) task custom_bits_defined =
        option_loop rest task' c' := by
  intro pre
  induction pre with
  | nil =>
    intro task c _
    exact ⟨task, c, fun rest => rfl⟩
  | cons o pre ih =>
    intro task c hacc
    have ho := hacc o (List.mem_cons_self _ _)
    have hrest : ∀ o' ∈ pre, o'.accepted = true :=
      fun o' h' => hacc o' (List.mem_cons_of_mem _ h')
    cases o with
    | help => cases ho
    | version => cases ho
    | quick =>
      obtain ⟨t', c', h'⟩ := ih { task with quick := 1 } c hrest
      refine ⟨t', c', fun rest => ?_⟩
      rw [List.cons_append]
      conv_lhs => unfold option_loop
      exact h' rest
    | video =>
      obtain ⟨t', c', h'⟩ := ih { task with video := 1 } c hrest
      refine ⟨t', c', fun rest => ?_⟩
      rw [List.cons_append]
      conv_lhs => unfold option_loop
      exact h' rest
    | bits parsed =>
      cases parsed with
      | none => cases ho
      | some w =>
        have hw : Int.tmod w 4 = 0 := by
          unfold cli_option.accepted at ho
          exact of_decide_eq_true ho
        obtain ⟨t', c', h'⟩ := ih { task with bits := w } 1 hrest
        refine ⟨t', c', fun rest => ?_⟩
        rw [List.cons_append]
        conv_lhs => unfold option_loop
        rw [if_neg (by rw [hw]; decide)]
        exact h' rest
    | debug =>
      obtain ⟨t', c', h'⟩ := ih { task with debug := 1 } c hrest
      refine ⟨t', c', fun rest => ?_⟩
      rw [List.cons_append]
      conv_lhs => unfold option_loop
      exact h' rest
    | unknown => cases ho

theorem file_loop_spec (process_task : hash_computation_task → Int) :
    ∀ (files : List String) (task : hash_computation_task) (n_failed : Int)
      (processed : List hash_computation_task), 0 ≤ n_failed →
      (file_loop process_task files task n_failed processed).2 =
        processed ++ files.map (fun f => { task with file_name := f }) ∧
      (0 < (file_loop process_task files task n_failed processed).1 ↔
        0 < n_failed ∨ ∃ f ∈ files, process_task { task with file_name := f } ≠ 0) := by
  intro files
  induction files with
  | nil =>
    intro task n processed _
    unfold file_loop
    simp
  | cons file rest ih =>
    intro task n processed hn
    unfold file_loop
    obtain ⟨h1, h2⟩ := ih { task with file_name := file }
      (if process_task { task with file_name := file } ≠ 0 then n + 1 else n)
      (processed ++ [{ task with file_name := file }]) (by split <;> omega)
    constructor
    · rw [h1, List.map_cons, List.append_assoc]
      rfl
    · rw [h2]
      by_cases c : process_task { task with file_name := file } ≠ 0
      · rw [if_pos c]
        constructor
        · intro _
          exact Or.inr ⟨file, List.mem_cons_self _ _, c⟩
        · intro _
          exact Or.inl (by omega)
      · rw [if_neg c]
        constructor
        · rintro (h | ⟨f, hf, hpf⟩)
          · exact Or.inl h
          · exact Or.inr ⟨f, List.mem_cons_of_mem _ hf, hpf⟩
        · rintro (h | ⟨f, hf, hpf⟩)
          · exact Or.inl h
          · rcases List.mem_cons.mp hf with e | e
            · rw [e] at hpf
              exact absurd hpf c
            · exact Or.inr ⟨f, e, hpf⟩

/-- What `main` does once the option loop has ended normally and there is a
file name: the tasks handed to `process_task` carry the file names in order,
and the exit code is 0 when each of them gave 0 and 1 otherwise. -/
theorem main_after_options (process_task : hash_computation_task → Int)
    (options : List cli_option) (files : List String) (task : hash_computation_task)
    (c : Int) (hok : option_loop options ⟨"", 0, 0, 0, 0⟩ 0 = Except.ok (task, c))
    (hfiles : files ≠ []) :
    ∃ task2 : hash_computation_task,
      task2.video = task.video ∧
      task2.bits = (if task.video ≠ 0
        then Int.tdiv (if c = 0 then 16 else task.bits) 2
        else (if c = 0 then 16 else task.bits)) ∧
      (main process_task options files).2 =
        files.map (fun f => { task2 with file_name := f }) ∧
      (main process_task options files).1 =
        if (main process_task options files).2.all (fun t => decide (process_task t = 0))
        then 0 else 1 := by
  have hne : files.isEmpty = false := by
    cases files with
    | nil => exact absurd rfl hfiles
    | cons _ _ => rfl
  have hmain : ∃ task2 : hash_computation_task,
      task2.video = task.video ∧
      task2.bits = (if task.video ≠ 0
        then Int.tdiv (if c = 0 then 16 else task.bits) 2
        else (if c = 0 then 16 else task.bits)) ∧
      main process_task options files =
        ((if (file_loop process_task files task2 0 []).1 > 0 then 1 else 0),
          (file_loop process_task files task2 0 []).2) := by
    refine ⟨(if (if c = 0 then { task with bits := 16 } else task).video ≠ 0
        then { (if c = 0 then { task with bits := 16 } else task) with
          bits := Int.tdiv (if c = 0 then { task with bits := 16 } else task).bits 2 }
        else (if c = 0 then { task with bits := 16 } else task)), ?_, ?_, ?_⟩
    · by_cases hc : c = 0 <;> by_cases hv : task.video ≠ 0 <;> simp [hc, hv]
    · by_cases hc : c = 0 <;> by_cases hv : task.video ≠ 0 <;> simp [hc, hv]
    · unfold main
      rw [hne, Bool.and_false, if_neg (by decide), hok]
      dsimp only
      rw [if_neg (by decide)]
  obtain ⟨task2, hv, hb, hmain⟩ := hmain
  obtain ⟨h1, h2⟩ := file_loop_spec process_task files task2 0 [] (le_refl _)
  rw [List.nil_append] at h1
  refine ⟨task2, hv, hb, ?_, ?_⟩
  · rw [hmain]
    exact h1
  · rw [hmain]
    dsimp only
    rw [h1]
    by_cases hall : ∃ f ∈ files, process_task { task2 with file_name := f } ≠ 0
    · rw [if_pos (h2.mpr (Or.inr hall))]
      rw [if_neg]
      rw [List.all_eq_true]
      intro hcon
      obtain ⟨f, hf, hpf⟩ := hall
      have := hcon _ (List.mem_map.mpr ⟨f, hf, rfl⟩)
      exact hpf (of_decide_eq_true this)
    · rw [if_neg (fun h => by
        rcases h2.mp h with h' | h'
        · exact absurd h' (by decide)
        · exact hall h')]
      rw [if_pos]
      rw [List.all_eq_true]
      intro t ht
      obtain ⟨f, hf, rfl⟩ := List.mem_map.mp ht
      apply decide_eq_true
      by_contra hc
      exact hall ⟨f, hf, hc⟩

theorem option_loop_ok_spec :
    ∀ (options : List cli_option) (task : hash_computation_task) (c : Int)
      (task' : hash_computation_task) (c' : Int),
      option_loop options task c = Except.ok (task', c') →
      task'.video = (if cli_option.video ∈ options then 1 else task.video) ∧
        (∀ v, last_bits options = some v →
          c' = 1 ∧ task'.bits = v ∧ Int.tmod v 4 = 0) ∧
        (last_bits options = none → c' = c ∧ task'.bits = task.bits) := by
  intro options
  induction options with
  | nil =>
    intro task c task' c' h
    unfold option_loop at h
    cases h
    refine ⟨by simp, ?_, fun _ => ⟨rfl, rfl⟩⟩
    intro v hv
    unfold last_bits at hv
    cases hv
  | cons o rest ih =>
    intro task c task' c' h
    cases o with
    | help => unfold option_loop at h; cases h
    | version => unfold option_loop at h; cases h
    | quick =>
      unfold option_loop at h
      obtain ⟨h1, h2, h3⟩ := ih _ _ _ _ h
      have e : last_bits (cli_option.quick :: rest) = last_bits rest := rfl
      rw [e]
      refine ⟨?_, h2, h3⟩
      rw [h1]
      simp
    | video =>
      unfold option_loop at h
      obtain ⟨h1, h2, h3⟩ := ih _ _ _ _ h
      have e : last_bits (cli_option.video :: rest) = last_bits rest := rfl
      rw [e]
      refine ⟨?_, h2, h3⟩
      rw [h1, if_pos (List.mem_cons_self _ _)]
      split <;> rfl
    | bits parsed =>
      cases parsed with
      | none => unfold option_loop at h; cases h
      | some w =>
        unfold option_loop at h
        by_cases hw : Int.tmod w 4 ≠ 0
        · rw [if_pos hw] at h
          cases h
        · rw [if_neg hw] at h
          obtain ⟨h1, h2, h3⟩ := ih _ _ _ _ h
          have e : last_bits (cli_option.bits (some w) :: rest) =
              (match last_bits rest with
                | some w' => some w'
                | none => some w) := rfl
          rw [e]
          refine ⟨?_, ?_, ?_⟩
          · rw [h1]
            simp
          · intro v hv
            cases hl : last_bits rest with
            | none =>
              rw [hl] at hv
              cases hv
              obtain ⟨a, b⟩ := h3 hl
              exact ⟨a, b, not_not.mp hw⟩
            | some w' =>
              rw [hl] at hv
              cases hv
              exact h2 _ hl
          · intro hn
            cases hl : last_bits rest with
            | none => rw [hl] at hn; cases hn
            | some w' => rw [hl] at hn; cases hn
    | debug =>
      unfold option_loop at h
      obtain ⟨h1, h2, h3⟩ := ih _ _ _ _ h
      have e : last_bits (cli_option.debug :: rest) = last_bits rest := rfl
      rw [e]
      refine ⟨?_, h2, h3⟩
      rw [h1]
      simp
    | unknown => unfold option_loop at h; cases h

/-- C21 (counterexample): an unknown option makes `main` return -1 (exit
status 255), not 2. -/
theorem main_unknown_option_exit_code :
    main (fun _ => 0) [cli_option.unknown] ["a.png"] = (-1, []) := by
  decide

/-- C21 (amended): after options among `-q`, `-V`, `--debug` and `--bits`
with a multiple of 4, `main` returns 2 for a `--bits` value that is not a
multiple of 4 or cannot be parsed, and -1 for an unknown option; when these
options are all there is and at least one file name follows, every file is
handed to `process_task` and the exit code is 0 when every file gave 0 and 1
when at least one gave a non-zero result. -/
theorem main_exit_codes (process_task : hash_computation_task → Int)
    (pre post : List cli_option) (files : List String)
    (hpre : ∀ o ∈ pre, o.accepted = true) :
    (∀ v, Int.tmod v 4 ≠ 0 →
      (main process_task (pre ++ cli_option.bits (some v) :: post) files).1 = 2) ∧
    (main process_task (pre ++ cli_option.bits none :: post) files).1 = 2 ∧
    (main process_task (pre ++ cli_option.unknown :: post) files).1 = -1 ∧
    (files ≠ [] →
      ((main process_task pre files).2.map (fun t => t.file_name) = files ∧
        (main process_task pre files).1 =
          if (main process_task pre files).2.all (fun t => decide (process_task t = 0))
          then 0 else 1)) := by
  obtain ⟨task', c', hloop⟩ := option_loop_prefix pre ⟨"", 0, 0, 0, 0⟩ 0 hpre
  have hne : ∀ (o : cli_option), (pre ++ o :: post).isEmpty = false := by
    intro o
    cases pre <;> rfl
  refine ⟨?_, ?_, ?_, ?_⟩
  · intro v hv
    unfold main
    rw [hne, Bool.false_and, if_neg (by decide), hloop]
    unfold option_loop
    rw [if_pos hv]
  · unfold main
    rw [hne, Bool.false_and, if_neg (by decide), hloop]
    unfold option_loop
    rfl
  · unfold main
    rw [hne, Bool.false_and, if_neg (by decide), hloop]
    unfold option_loop
    rfl
  · intro hfiles
    have hok : option_loop pre ⟨"", 0, 0, 0, 0⟩ 0 = Except.ok (task', c') := by
      have := hloop []
      rw [List.append_nil] at this
      rw [this]
      rfl
    obtain ⟨task2, _, _, h1, h2⟩ := main_after_options process_task pre files task' c' hok hfiles
    refine ⟨?_, h2⟩
    rw [h1, List.map_map]
    exact List.map_id _

theorem main_exit_codes_witness :
    (∀ o ∈ [cli_option.quick, cli_option.bits (some 8)], o.accepted = true) ∧
    (main (fun t => if t.file_name = "b.png" then -1 else 0)
      ([cli_option.quick, cli_option.bits (some 8)] ++ cli_option.unknown :: []) ["a.png"]).1 =
        -1 ∧
    ["a.png", "b.png"] ≠ [] ∧
    (main (fun t => if t.file_name = "b.png" then -1 else 0)
      [cli_option.quick, cli_option.bits (some 8)] ["a.png", "b.png"]).1 =
      if (main (fun t => if t.file_name = "b.png" then -1 else 0)
        [cli_option.quick, cli_option.bits (some 8)] ["a.png", "b.png"]).2.all
          (fun t => decide ((fun t => if t.file_name = "b.png" then -1 else 0) t = (0 : Int)))
      then 0 else 1 :=
  ⟨by decide,
    (main_exit_codes (fun t => if t.file_name = "b.png" then -1 else 0)
      [cli_option.quick, cli_option.bits (some 8)] [] ["a.png"] (by decide)).2.2.1,
    List.cons_ne_nil _ _,
    ((main_exit_codes (fun t => if t.file_name = "b.png" then -1 else 0)
      [cli_option.quick, cli_option.bits (some 8)] [] ["a.png", "b.png"] (by decide)).2.2.2
        (List.cons_ne_nil _ _)).2⟩

/-- C26 (counterexample): `--video --bits 12 a.avi` is accepted and the task
handed to `process_task` has `bits` = 6, which is not a multiple of 4. -/
theorem main_video_bits_12 :
    main (fun _ => 0) [cli_option.video, cli_option.bits (some 12)] ["a.avi"] =
      (0, [⟨"a.avi", 6, 0, 0, 1⟩]) := by
  decide

/-- C26 (amended): for every command line whose options `main` accepts, let
`b` be the value of the last `--bits` option, or 16 when there is none.  Then
`b` is a multiple of 4, and each task handed to `process_task` has `video` = 1
and `bits` = `b / 2` when `-V` is among the options, and `video` = 0 and
`bits` = `b` otherwise. -/
theorem main_hands_over_bits (process_task : hash_computation_task → Int)
    (options : List cli_option) (files : List String) (task : hash_computation_task)
    (c : Int) (hok : option_loop options ⟨"", 0, 0, 0, 0⟩ 0 = Except.ok (task, c)) :
    Int.tmod ((last_bits options).getD 16) 4 = 0 ∧
    ∀ t ∈ (main process_task options files).2,
      t.video = (if cli_option.video ∈ options then 1 else 0) ∧
      t.bits = (if cli_option.video ∈ options
        then Int.tdiv ((last_bits options).getD 16) 2
        else (last_bits options).getD 16) := by
  obtain ⟨hv, hsome, hnone⟩ := option_loop_ok_spec options _ 0 task c hok
  have hb : (if c = 0 then 16 else task.bits) = (last_bits options).getD 16 ∧
      Int.tmod ((last_bits options).getD 16) 4 = 0 := by
    cases hl : last_bits options with
    | none =>
      obtain ⟨a, _⟩ := hnone hl
      rw [a, if_pos rfl]
      exact ⟨rfl, by decide⟩
    | some v =>
      obtain ⟨a, b, d⟩ := hsome v hl
      rw [a, if_neg (by decide), b]
      exact ⟨rfl, d⟩
  refine ⟨hb.2, ?_⟩
  intro t ht
  by_cases hfiles : files = []
  · exfalso
    rw [hfiles] at ht
    unfold main at ht
    by_cases ho : options.isEmpty = true
    · rw [ho] at ht
      simp at ht
    · rw [Bool.not_eq_true] at ho
      rw [ho, Bool.false_and, if_neg (by decide), hok] at ht
      simp at ht
  · obtain ⟨task2, h1, h2, h3, _⟩ :=
      main_after_options process_task options files task c hok hfiles
    rw [h3] at ht
    obtain ⟨f, _, rfl⟩ := List.mem_map.mp ht
    show task2.video = _ ∧ task2.bits = _
    rw [h1, h2, hb.1, hv]
    by_cases hmem : cli_option.video ∈ options
    · rw [if_pos hmem, if_pos (by decide), if_pos hmem]
      exact ⟨rfl, rfl⟩
    · rw [if_neg hmem, if_neg (by decide), if_neg hmem]
      exact ⟨rfl, rfl⟩

theorem main_hands_over_bits_witness :
    option_loop [cli_option.bits (some 12), cli_option.video, cli_option.bits (some 8)]
      ⟨"", 0, 0, 0, 0⟩ 0 = Except.ok (⟨"", 8, 0, 0, 1⟩, 1) ∧
    ∀ t ∈ (main (fun _ => 0)
        [cli_option.bits (some 12), cli_option.video, cli_option.bits (some 8)] ["a.avi"]).2,
      t.video = 1 ∧ t.bits = 4 :=
  ⟨rfl, (main_hands_over_bits (fun _ => 0)
    [cli_option.bits (some 12), cli_option.video, cli_option.bits (some 8)] ["a.avi"]
    ⟨"", 8, 0, 0, 1⟩ 1 rfl).2⟩

/-! ## The cached matrices on a later call -/

theorem dct_statics_cached {α : Type} [Field α] (m : libm α) (st : dct_statics α)
    (hst : st.dct_matrix_prepared ≠ 0 → st.dct_matrix.length = 1024) :
    ∃ st' t, get_transposed_dct_matrix m (get_dct_matrix m st).1 = some (st', t) ∧
      get_dct_matrix m st' = (st', (get_dct_matrix m st).2) ∧
      get_transposed_dct_matrix m st' = some (st', t) := by
  have h1 : (get_dct_matrix m st).1.dct_matrix_prepared ≠ 0 ∧
      (get_dct_matrix m st).1.dct_matrix = (get_dct_matrix m st).2 := by
    unfold get_dct_matrix
    by_cases h : st.dct_matrix_prepared = 0
    · rw [if_pos h]
      exact ⟨one_ne_zero, rfl⟩
    · rw [if_neg h]
      exact ⟨h, rfl⟩
  have hlen : (get_dct_matrix m st).2.length = 1024 := by
    unfold get_dct_matrix
    by_cases h : st.dct_matrix_prepared = 0
    · rw [if_pos h]
      exact dct_matrix_values_length m
    · rw [if_neg h]
      exact hst h
  generalize get_dct_matrix m st = g at h1 hlen
  obtain ⟨st1, D⟩ := g
  obtain ⟨hp, hD⟩ := h1
  dsimp only at hp hD hlen ⊢
  have hg1 : get_dct_matrix m st1 = (st1, D) := by
    unfold get_dct_matrix
    rw [if_neg hp, hD]
  by_cases ht : st1.transposed_dct_matrix_prepared = 0
  · have hT := transpose_x_loop_identity D hlen
    refine ⟨⟨st1.dct_matrix_prepared, st1.dct_matrix, 1, D⟩, D, ?_, ?_, ?_⟩
    · unfold get_transposed_dct_matrix
      rw [if_pos ht, hg1]
      dsimp only
      rw [hT]
    · unfold get_dct_matrix
      dsimp only
      rw [if_neg hp, hD]
    · unfold get_transposed_dct_matrix
      dsimp only
      rw [if_neg one_ne_zero]
  · refine ⟨st1, st1.transposed_dct_matrix, ?_, hg1, ?_⟩
    · unfold get_transposed_dct_matrix
      rw [if_neg ht]
    · unfold get_transposed_dct_matrix
      rw [if_neg ht]

theorem mul_k_loop_none {α : Type} [Add α] [Mul α] (m1 m2 : List α) (w1 w2 : Nat)
    (fuel k p1 p2c : Nat) (v : α) (hk : k < w1) (hp : m1.length ≤ p1) :
    mul_k_loop m1 m2 w1 w2 fuel k p1 p2c v = none := by
  cases fuel with
  | zero => rfl
  | succ fuel =>
    unfold mul_k_loop
    rw [if_pos hk, List.getElem?_eq_none hp]

theorem mul_k_loop_p1 {α : Type} [Add α] [Mul α] (m1 m2 : List α) (w1 w2 : Nat) :
    ∀ (fuel k p1 p2c : Nat) (v : α) (r : α × Nat × Nat), k ≤ w1 →
      mul_k_loop m1 m2 w1 w2 fuel k p1 p2c v = some r → r.2.1 = p1 + (w1 - k) := by
  intro fuel
  induction fuel with
  | zero =>
    intro k p1 p2c v r _ h
    unfold mul_k_loop at h
    cases h
  | succ fuel ih =>
    intro k p1 p2c v r hk h
    unfold mul_k_loop at h
    by_cases c : k < w1
    · rw [if_pos c] at h
      cases ha : m1[p1]? with
      | none => rw [ha] at h; cases h
      | some a =>
        cases hb : m2[p2c]? with
        | none => rw [ha, hb] at h; cases h
        | some b =>
          rw [ha, hb] at h
          have := ih _ _ _ _ r (by omega) h
          omega
    · rw [if_neg c] at h
      cases h
      show p1 = p1 + (w1 - k)
      omega

theorem mul_j_loop_none {α : Type} [Zero α] [Add α] [Mul α] (m1 m2 : List α)
    (w1 h1 w2 : Nat) (fuel j p1 p2c : Nat) (r : List α) (hj : j < h1) (hw : 0 < w1)
    (hp : m1.length ≤ p1) :
    mul_j_loop m1 m2 w1 h1 w2 fuel j p1 p2c r = none := by
  cases fuel with
  | zero => rfl
  | succ fuel =>
    unfold mul_j_loop
    rw [if_pos hj, mul_k_loop_none m1 m2 w1 w2 _ 0 p1 p2c 0 hw hp]

theorem mul_j_loop_p1 {α : Type} [Zero α] [Add α] [Mul α] (m1 m2 : List α)
    (w1 h1 w2 : Nat) :
    ∀ (fuel j p1 p2c : Nat) (r : List α) (res : List α × Nat), j ≤ h1 →
      mul_j_loop m1 m2 w1 h1 w2 fuel j p1 p2c r = some res →
      res.2 = p1 + (h1 - j) * w1 := by
  intro fuel
  induction fuel with
  | zero =>
    intro j p1 p2c r res _ h
    unfold mul_j_loop at h
    cases h
  | succ fuel ih =>
    intro j p1 p2c r res hj h
    unfold mul_j_loop at h
    by_cases c : j < h1
    · rw [if_pos c] at h
      cases hk : mul_k_loop m1 m2 w1 w2 (w1 + 1) 0 p1 p2c 0 with
      | none => rw [hk] at h; cases h
      | some x =>
        rw [hk] at h
        obtain ⟨v, p1', p2c'⟩ := x
        dsimp only at h
        have e1 := mul_k_loop_p1 m1 m2 w1 w2 _ _ _ _ _ _ (Nat.zero_le _) hk
        dsimp only at e1
        have e2 := ih _ _ _ _ res (by omega) h
        rw [e2, e1]
        have e3 : h1 - j = (h1 - (j + 1)) + 1 := by omega
        rw [e3, Nat.add_mul]
        omega
    · rw [if_neg c] at h
      cases h
      have e : h1 - j = 0 := by omega
      rw [e, Nat.zero_mul]
      rfl

/-- With a first operand of 1024 entries, `mul_matrix(m1, 32, 32, m2, 32, 32)`
has no result whatever `m2` is: if the reads of `m2` stay inside it, `p1` has
reached `m1 + 1024` when the second column is started. -/
theorem mul_matrix_first_operand_none {α : Type} [Zero α] [Add α] [Mul α] (m1 m2 : List α)
    (h1 : m1.length = 1024) : mul_matrix m1 32 32 m2 32 32 = none := by
  unfold mul_matrix
  rw [if_pos rfl]
  unfold mul_i_loop
  rw [if_pos (by omega)]
  cases hj : mul_j_loop m1 m2 32 32 32 (32 + 1) 0 0 0 [] with
  | none => rfl
  | some res =>
    obtain ⟨r', p1'⟩ := res
    dsimp only
    have e := mul_j_loop_p1 m1 m2 32 32 32 _ _ _ _ _ _ (Nat.zero_le _) hj
    dsimp only at e
    unfold mul_i_loop
    rw [if_pos (by omega)]
    rw [mul_j_loop_none m1 m2 32 32 32 _ 0 p1' 1 r' (by omega) (by omega) (by omega)]

theorem get_dct_matrix_length {α : Type} [Field α] (m : libm α) (st : dct_statics α)
    (hst : st.dct_matrix_prepared ≠ 0 → st.dct_matrix.length = 1024) :
    (get_dct_matrix m st).2.length = 1024 := by
  unfold get_dct_matrix
  by_cases h : st.dct_matrix_prepared = 0
  · rw [if_pos h]
    exact dct_matrix_values_length m
  · rw [if_neg h]
    exact hst h

theorem dct_transform_and_threshold_none {α : Type} [Zero α] [Add α] [Mul α] [LT α]
    [DecidableRel (fun (a b : α) => a < b)]
    (K : dct_callees α) (hK : ∀ a b, K.mul_matrix a b = mul_matrix_callee a b)
    (big_endian alloc_result : Bool) (dct_matrix transposed_dct_matrix img1 : List α)
    (hash : Option (List Int)) (hd : dct_matrix.length = 1024) :
    dct_transform_and_threshold K big_endian alloc_result dct_matrix transposed_dct_matrix
      img1 hash = none := by
  unfold dct_transform_and_threshold
  rw [hK]
  unfold mul_matrix_callee
  rw [mul_matrix_first_operand_none dct_matrix img1 hd]

/-- C22 (failing input: every image for which `rgb_to_y`, `convolve` and
`nni_resize` succeed): the cached matrices are the same on the first and on
every later call, but with `mul_matrix` as in the source the call of
`phs_dct_image_hash` reads outside its buffers in the first product, so it
never returns 0 with a hash: every defined outcome is the failure return -1
with `*hash` unchanged, and once the first three stages have succeeded there
is no defined outcome. -/
theorem phs_dct_image_hash_has_no_result {α : Type} [Field α] [LT α]
    [DecidableRel (fun (a b : α) => a < b)]
    (K : dct_callees α) (hK : ∀ a b, K.mul_matrix a b = mul_matrix_callee a b)
    (big_endian alloc_y alloc_result : Bool) (m : libm α)
    (st : dct_statics α) (hst : st.dct_matrix_prepared ≠ 0 → st.dct_matrix.length = 1024)
    (data : List (Fin 256)) (width height : Int) (hash : Option (List Int)) :
    (∃ st' t, get_transposed_dct_matrix m (get_dct_matrix m st).1 = some (st', t) ∧
      get_dct_matrix m st' = (st', (get_dct_matrix m st).2) ∧
      get_transposed_dct_matrix m st' = some (st', t)) ∧
    (∀ r x,
      phs_dct_image_hash K big_endian alloc_y alloc_result m st data width height hash =
        some (r, x) → r = -1 ∧ x = hash) ∧
    (∀ plane img2,
      rgb_to_y alloc_y data width height = some (some plane) →
      K.convolve plane width height = some (some img2) →
      (K.nni_resize img2 width height = some resized.same ∨
        ∃ img1, K.nni_resize img2 width height = some (resized.fresh img1)) →
      phs_dct_image_hash K big_endian alloc_y alloc_result m st data width height hash =
        none) := by
  have hd := get_dct_matrix_length m st hst
  obtain ⟨st', t, h1, h2, h3⟩ := dct_statics_cached m st hst
  refine ⟨⟨st', t, h1, h2, h3⟩, ?_, ?_⟩
  · intro r x H
    unfold phs_dct_image_hash at H
    rw [h1] at H
    dsimp only at H
    split at H
    · cases H
    · cases H
      exact ⟨rfl, rfl⟩
    · split at H
      · cases H
      · cases H
        exact ⟨rfl, rfl⟩
      · split at H
        · cases H
        · cases H
          exact ⟨rfl, rfl⟩
        · rw [dct_transform_and_threshold_none K hK _ _ _ _ _ _ hd] at H
          cases H
        · rw [dct_transform_and_threshold_none K hK _ _ _ _ _ _ hd] at H
          cases H
  · intro plane img2 hy hc hn
    unfold phs_dct_image_hash
    rw [h1]
    dsimp only
    rw [hy]
    dsimp only
    rw [hc]
    dsimp only
    rcases hn with hn | ⟨img1, hn⟩
    · rw [hn]
      exact dct_transform_and_threshold_none K hK _ _ _ _ _ _ hd
    · rw [hn]
      exact dct_transform_and_threshold_none K hK _ _ _ _ _ _ hd

theorem phs_dct_image_hash_has_no_result_witness :
    (∀ a b, source_mul_callees.mul_matrix a b = mul_matrix_callee a b) ∧
    ((dct_statics_start (α := ℚ)).dct_matrix_prepared ≠ 0 →
      (dct_statics_start (α := ℚ)).dct_matrix.length = 1024) ∧
    rgb_to_y (α := ℚ) true [0, 0, 0] 1 1 = some (some [33 / 2]) ∧
    source_mul_callees.convolve [33 / 2] 1 1 = some (some [33 / 2]) ∧
    phs_dct_image_hash source_mul_callees false true true ⟨id, id, 3⟩ dct_statics_start
      [0, 0, 0] 1 1 none = none :=
  ⟨fun _ _ => rfl, fun h => absurd rfl h, rgb_to_y_black_pixel, rfl,
    (phs_dct_image_hash_has_no_result source_mul_callees (fun _ _ => rfl) false true true
      ⟨id, id, 3⟩ dct_statics_start (fun h => absurd rfl h) [0, 0, 0] 1 1 none).2.2
      [33 / 2] [33 / 2] rgb_to_y_black_pixel rfl (Or.inr ⟨_, rfl⟩)⟩

/-! ## `nni_resize`: the row offset table -/

theorem table_write_length (tbl : List (Option Nat)) (i v : Nat) (tbl' : List (Option Nat))
    (h : table_write tbl i v = some tbl') : tbl'.length = tbl.length := by
  unfold table_write at h
  split at h
  · cases h
    rw [List.length_set]
  · cases h

/-- The offset loop run `count` times on a table of `count` cells stores
into the cells `0 .. count - 1` and ends with `poff` one past the last cell. -/
theorem fill_step_loop_end (count dim s scale : Nat) :
    ∀ (fuel i curr : Nat) (tbl : List (Option Nat)), tbl.length = count → i ≤ count →
      count < fuel + i →
      ∃ tbl', fill_step_loop count dim s scale fuel i i curr tbl = some (tbl', count) ∧
        tbl'.length = count := by
  intro fuel
  induction fuel with
  | zero => intro i curr tbl _ h1 h2; omega
  | succ fuel ih =>
    intro i curr tbl hlen h1 h2
    unfold fill_step_loop
    by_cases c : i < count
    · rw [if_pos c]
      have hw : table_write tbl i ((scale * usub ((i + 1) * dim / s) curr) % 2 ^ 64) =
          some (tbl.set i (some ((scale * usub ((i + 1) * dim / s) curr) % 2 ^ 64))) := by
        unfold table_write
        rw [if_pos (by omega)]
      rw [hw]
      dsimp only
      exact ih (i + 1) _ _ (by rw [List.length_set]; exact hlen) (by omega) (by omega)
    · rw [if_neg c]
      have : i = count := by omega
      rw [this]
      exact ⟨tbl, rfl, hlen⟩

theorem to_unsigned_of_nonneg (x : Int) (h0 : 0 ≤ x) (h1 : x < 2 ^ 32) :
    to_unsigned x = x.toNat := by
  unfold to_unsigned
  rw [Int.emod_eq_of_lt h0 h1]

theorem row_offset_fill_overrun (width height : Nat) :
    ∃ off_y, fill_step_loop 32 height 32 width (32 + 1) 0 0 0 (List.replicate 32 none) =
        some (off_y, 32) ∧ off_y.length = 32 ∧ table_write off_y 32 0 = none := by
  obtain ⟨tbl, h1, h2⟩ := fill_step_loop_end 32 height 32 width 33 0 0
    (List.replicate 32 none) (List.length_replicate _ _) (by omega) (by omega)
  refine ⟨tbl, h1, h2, ?_⟩
  unfold table_write
  rw [if_neg (by omega)]

/-- C30 (failing input: any plane whose height is not 32): the loop that
fills the row offset table `off_y` (32 cells) runs its 32 rounds, leaving
`poff_y` at index 32, and the statement `*poff_y = 0` that follows stores
into that index, one past the last cell of the table. -/
theorem nni_resize_row_table_overrun (width height : Nat) :
    ∃ off_y, fill_step_loop 32 height 32 width (32 + 1) 0 0 0 (List.replicate 32 none) =
        some (off_y, 32) ∧ off_y.length = 32 ∧ table_write off_y 32 0 = none :=
  row_offset_fill_overrun width height

/-- C24 (failing inputs: every plane whose height is not 32): the call
`nni_resize(img, width, height, 32, 32)` stores outside the row offset table
before it copies any sample, so it has no defined result. -/
theorem nni_resize_other_height {α : Type} (img : List α) (width height : Int)
    (hh0 : 1 ≤ height) (hh1 : height < 2 ^ 31) (hne : height ≠ 32) :
    nni_resize true true true img width height 32 32 = none := by
  have hu : to_unsigned height ≠ 32 := by
    rw [to_unsigned_of_nonneg height (by omega) (by omega)]
    omega
  obtain ⟨tbl, h1, h2, h3⟩ := row_offset_fill_overrun width.toNat height.toNat
  unfold nni_resize
  lift_lets
  intro sx0 sy0 sx sy filled_x filled_y
  have hsx : sx = 32 := rfl
  have hsy : sy = 32 := rfl
  have hy : filled_y = none := by
    show (if sy = to_unsigned height then _ else _) = none
    rw [if_neg (by rw [hsy]; exact fun h => hu h.symm)]
    rw [hsx, hsy, h1]
    exact h3
  rw [if_neg (by rw [hsy]; exact fun h => hu h.2.symm)]
  rw [if_neg (by decide), if_neg (by decide), if_neg (by decide)]
  cases filled_x with
  | none => rfl
  | some off_x =>
    dsimp only
    rw [hy]

theorem nni_resize_other_height_witness :
    (1 : Int) ≤ 64 ∧ (64 : Int) < 2 ^ 31 ∧ (64 : Int) ≠ 32 ∧
    nni_resize true true true (List.replicate (64 * 64) (0 : Nat)) 64 64 32 32 = none :=
  ⟨by decide, by decide, by decide,
    nni_resize_other_height (List.replicate (64 * 64) (0 : Nat)) 64 64 (by decide) (by decide)
      (by decide)⟩

/-! ## `convolve`: the reads of the classical correlation -/

theorem read_at_none_of_le {α : Type} (buf : List α) (i : Int)
    (h : (buf.length : Int) ≤ i) : read_at buf i = none := by
  unfold read_at
  by_cases h0 : 0 ≤ i
  · rw [if_pos h0]
    exact List.getElem?_eq_none (by omega)
  · rw [if_neg h0]

/-- The `xm` loop has no result when its last read is past the plane. -/
theorem corr_xm_loop_none {α : Type} [Add α] [Mul α] (image mask : List α) (mx2 : Int) :
    ∀ (fuel : Nat) (xm pimgx pmaskx : Int) (val : α), xm ≤ mx2 →
      (image.length : Int) ≤ pimgx + (mx2 - xm) →
      corr_xm_loop image mask mx2 fuel xm pimgx pmaskx val = none := by
  intro fuel
  induction fuel with
  | zero =>
    intro xm pimgx pmaskx val _ _
    rfl
  | succ fuel ih =>
    intro xm pimgx pmaskx val h1 h2
    unfold corr_xm_loop
    rw [if_pos h1]
    cases ha : read_at image pimgx with
    | none => rfl
    | some a =>
      cases hb : read_at mask pmaskx with
      | none => rfl
      | some b =>
        dsimp only
        have hlt : xm < mx2 := by
          by_contra hc
          have : read_at image pimgx = none := read_at_none_of_le image pimgx (by omega)
          rw [this] at ha
          cases ha
        exact ih _ _ _ _ (by omega) (by omega)

/-- The `ym` loop has no result when the last read of its last row is past
the plane; `last` is the row pointer of that row. -/
theorem corr_ym_loop_none {α : Type} [Add α] [Mul α] (image mask : List α)
    (image_width mask_width mx1 mx2 my2 x : Int) (hm : -mx1 ≤ mx2) :
    ∀ (fuel : Nat) (ym pimgy pmasky last : Int) (val : α), ym ≤ my2 →
      last = pimgy + (my2 - ym) * image_width →
      (image.length : Int) ≤ last - mx1 + x + (mx2 + mx1) →
      corr_ym_loop image mask image_width mask_width mx1 mx2 my2 x fuel ym pimgy pmasky val =
        none := by
  intro fuel
  induction fuel with
  | zero =>
    intro ym pimgy pmasky last val _ _ _
    rfl
  | succ fuel ih =>
    intro ym pimgy pmasky last val h1 hlast h2
    unfold corr_ym_loop
    rw [if_pos h1]
    cases hrow : corr_xm_loop image mask mx2 ((mx1 + mx2 + 1).toNat + 1) (-mx1)
        (pimgy - mx1 + x) pmasky val with
    | none => rfl
    | some val' =>
      dsimp only
      have hlt : ym < my2 := by
        by_contra hc
        have hy : ym = my2 := by omega
        rw [hy, sub_self, zero_mul, add_zero] at hlast
        have := corr_xm_loop_none image mask mx2 ((mx1 + mx2 + 1).toNat + 1) (-mx1)
          (pimgy - mx1 + x) pmasky val hm (by rw [hlast] at h2; omega)
        rw [this] at hrow
        cases hrow
      exact ih _ _ _ last _ (by omega) (by rw [hlast]; ring) h2

/-- The cell of the classical correlation at column `x` has no result when
`pimg + (my1 + my2) * image_width + 2 * x - mx1 + mx2`, the flat index of its
last read, is past the plane. -/
theorem corr_cell_none {α : Type} [Zero α] [Add α] [Mul α] (image mask : List α)
    (image_width mask_width mx1 mx2 my1 my2 pimg x : Int) (hm : -mx1 ≤ mx2)
    (hmy : -my1 ≤ my2)
    (h : (image.length : Int) ≤ pimg + (my1 + my2) * image_width + 2 * x - mx1 + mx2) :
    corr_cell image mask image_width mask_width mx1 mx2 my1 my2 pimg x = none := by
  unfold corr_cell
  exact corr_ym_loop_none image mask image_width mask_width mx1 mx2 my2 x hm _ _ _ _
    (pimg - mx1 + x + (my2 - -my1) * image_width) _ hmy rfl (by
      have e : (my2 - -my1) * image_width = (my1 + my2) * image_width := by ring
      rw [e]
      omega)

/-- The `x` loop has no result when its last cell has none. -/
theorem corr_x_loop_none {α : Type} [Zero α] [Add α] [Mul α] (image mask : List α)
    (image_width mask_width mx1 mx2 my1 my2 mxe p pimg : Int)
    (hlast : corr_cell image mask image_width mask_width mx1 mx2 my1 my2 pimg (mxe - 1) =
      none) :
    ∀ (fuel : Nat) (x : Int) (result : List (Option α)), x < mxe →
      corr_x_loop image mask image_width mask_width mx1 mx2 my1 my2 mxe p pimg fuel x result =
        none := by
  intro fuel
  induction fuel with
  | zero =>
    intro x result _
    rfl
  | succ fuel ih =>
    intro x result h1
    unfold corr_x_loop
    rw [if_pos h1]
    cases hc : corr_cell image mask image_width mask_width mx1 mx2 my1 my2 pimg x with
    | none => rfl
    | some val =>
      dsimp only
      have hlt : x + 1 < mxe := by
        by_contra hcon
        have hx : x = mxe - 1 := by omega
        rw [hx, hlast] at hc
        cases hc
      cases hw : write_at result (p + x) val with
      | none => rfl
      | some result' =>
        dsimp only
        exact ih _ _ hlt

/-- The `y` loop has no result when the last cell of its last row has none;
`last` is the value of `pimg` in that row. -/
theorem corr_y_loop_none {α : Type} [Zero α] [Add α] [Mul α] (image mask : List α)
    (image_width mask_width mx1 mx2 my1 my2 mxe mye last : Int) (hx : mx1 < mxe)
    (hlast : corr_cell image mask image_width mask_width mx1 mx2 my1 my2 last (mxe - 1) =
      none) :
    ∀ (fuel : Nat) (y p pimg : Int) (result : List (Option α)), y < mye →
      last = pimg + (mye - 1 - y) * image_width →
      corr_y_loop image mask image_width mask_width mx1 mx2 my1 my2 mxe mye fuel y p pimg
        result = none := by
  intro fuel
  induction fuel with
  | zero =>
    intro y p pimg result _ _
    rfl
  | succ fuel ih =>
    intro y p pimg result h1 hl
    unfold corr_y_loop
    rw [if_pos h1]
    cases hrow : corr_x_loop image mask image_width mask_width mx1 mx2 my1 my2 mxe p pimg
        ((mxe - mx1).toNat + 1) mx1 result with
    | none => rfl
    | some result' =>
      dsimp only
      have hlt : y + 1 < mye := by
        by_contra hcon
        have hy : mye - 1 - y = 0 := by omega
        rw [hy, zero_mul, add_zero] at hl
        rw [hl] at hlast
        have := corr_x_loop_none image mask image_width mask_width mx1 mx2 my1 my2 mxe p pimg
          hlast ((mxe - mx1).toNat + 1) mx1 result hx
        rw [this] at hrow
        cases hrow
      exact ih _ _ _ _ hlt (by rw [hl]; ring)

/-- For a plane at least 8 wide and 7 high, the cell `(width - 4,
height - 4)` of the classical correlation with a 7x7 mask has no result. -/
theorem corr_cell_last_none {α : Type} [Zero α] [Add α] [Mul α] (image mask : List α)
    (w h : Int) (hw : 8 ≤ w) (hlen : (image.length : Int) ≤ w * h) :
    corr_cell image mask w 7 3 3 3 3 ((h - 7) * w) (w - 3 - 1) = none := by
  apply corr_cell_none image mask w 7 3 3 3 3 _ _ (by decide) (by decide)
  have e : (h - 7) * w + (3 + 3) * w + 2 * (w - 3 - 1) - 3 + 3 = w * h + (w - 8) := by ring
  rw [e]
  omega

theorem convolve_7x7_none {α : Type} [Zero α] [Add α] [Mul α] (image mask : List α)
    (w h : Int) (boundary_conditions : Int) (hw : 8 ≤ w) (hh : 7 ≤ h)
    (hlen : (image.length : Int) ≤ w * h) :
    convolve image w h mask 7 7 boundary_conditions = none := by
  have hy := corr_y_loop_none image mask w 7 3 3 3 3 (w - 3) (h - 3) ((h - 7) * w)
    (by omega) (corr_cell_last_none image mask w h hw hlen)
    ((h - 3 - 3).toNat + 1) 3 (3 * w) 0
    (List.replicate (w * h).toNat none) (by omega) (by ring)
  unfold convolve
  lift_lets
  intro result a b c d
  have e0 : result = List.replicate (w * h).toNat none := rfl
  have e1 : a = 3 := rfl
  have e2 : b = 3 := rfl
  have e3 : c = w - 3 := rfl
  have e4 : d = h - 3 := rfl
  rw [e0, e1, e2, e3, e4, hy]

/-- C25 (failing inputs: every plane at least 8 wide and 7 high): the output
cell `(width - 4, height - 4)`, which lies in the ranges `mx1 <= x < mxe`,
`my1 <= y < mye` of the classical correlation block, reads the input at flat
indices up to `(height + 1) * width - 8`, which is not below
`width * height`; the read there has no value and the cell has no result. -/
theorem convolve_reads_past_plane {α : Type} [Zero α] [One α] [Add α] [Mul α]
    (image : List α)
    (w h : Int) (hw : 8 ≤ w) (hh : 7 ≤ h) (hlen : (image.length : Int) = w * h) :
    (3 ≤ w - 4 ∧ w - 4 < w - 3 ∧ 3 ≤ h - 4 ∧ h - 4 < h - 3) ∧
      w * h ≤ (h + 1) * w - 8 ∧ read_at image ((h + 1) * w - 8) = none ∧
      corr_cell image mean_filter w 7 3 3 3 3 ((h - 7) * w) (w - 4) = none := by
  refine ⟨⟨by omega, by omega, by omega, by omega⟩, ?_⟩
  have hidx : w * h ≤ (h + 1) * w - 8 := by
    have e : (h + 1) * w - 8 = w * h + (w - 8) := by ring
    rw [e]
    omega
  refine ⟨hidx, read_at_none_of_le image _ (by rw [hlen]; exact hidx), ?_⟩
  have := corr_cell_last_none image mean_filter w h hw (le_of_eq hlen)
  have e : w - 3 - 1 = w - 4 := by ring
  rw [e] at this
  exact this

theorem convolve_reads_past_plane_witness :
    (8 : Int) ≤ 8 ∧ (7 : Int) ≤ 7 ∧
    ((List.replicate 56 (1 : Int)).length : Int) = 8 * 7 ∧
    read_at (List.replicate 56 (1 : Int)) ((7 + 1) * 8 - 8) = none ∧
    corr_cell (List.replicate 56 (1 : Int)) mean_filter 8 7 3 3 3 3 ((7 - 7) * 8) (8 - 4) =
      none :=
  ⟨by decide, by decide, by decide,
    (convolve_reads_past_plane (List.replicate 56 (1 : Int)) 8 7 (by decide) (by decide)
      (by decide)).2.2⟩

/-- C28 (failing inputs: every plane at least 8 wide and 7 high): `convolve`
with the 7x7 mask of ones and `boundary_conditions = 1` has no result: the
classical correlation block, which runs before the border block, reads
outside the plane. -/
theorem convolve_mean_filter_no_result {α : Type} [Zero α] [One α] [Add α] [Mul α]
    (image : List α) (w h : Int) (hw : 8 ≤ w) (hh : 7 ≤ h)
    (hlen : (image.length : Int) = w * h) :
    convolve image w h mean_filter 7 7 1 = none :=
  convolve_7x7_none image mean_filter w h 1 hw hh (le_of_eq hlen)

theorem convolve_mean_filter_no_result_witness :
    (8 : Int) ≤ 8 ∧ (7 : Int) ≤ 7 ∧
    ((List.replicate 56 (1 : Int)).length : Int) = 8 * 7 ∧
    convolve (List.replicate 56 (1 : Int)) 8 7 mean_filter 7 7 1 = none :=
  ⟨by decide, by decide, by decide,
    convolve_mean_filter_no_result (List.replicate 56 (1 : Int)) 8 7 (by decide) (by decide)
      (by decide)⟩

/-! ## The slot indices for frame counts of at least 34 -/

theorem bit_length_lower : ∀ (fuel p : Nat), 1 ≤ bit_length fuel p →
    2 ^ (bit_length fuel p - 1) ≤ p := by
  intro fuel
  induction fuel with
  | zero =>
    intro p h
    unfold bit_length at h
    omega
  | succ fuel ih =>
    intro p h
    unfold bit_length at h ⊢
    by_cases hp : p = 0
    · rw [if_pos hp] at h
      omega
    · rw [if_neg hp]
      rw [Nat.add_sub_cancel]
      by_cases hc : bit_length fuel (p / 2) = 0
      · rw [hc, pow_zero]
        omega
      · have := ih (p / 2) (by omega)
        have e : 2 ^ bit_length fuel (p / 2) = 2 * 2 ^ (bit_length fuel (p / 2) - 1) := by
          rw [← pow_succ']
          congr 1
          omega
        rw [e]
        omega

/-- Rounding to 53 significant bits changes a value by at most one part in
`2 ^ 53`. -/
theorem round_double_bounds (p : Nat) :
    p * (2 ^ 53 - 1) ≤ round_double p * 2 ^ 53 ∧ round_double p * 2 ^ 53 ≤ p * (2 ^ 53 + 1) := by
  unfold round_double
  lift_lets
  intro s q r q'
  have hqr : 2 ^ s * q + r = p := Nat.div_add_mod p (2 ^ s)
  have hr : r < 2 ^ s := Nat.mod_lt p (Nat.two_pow_pos s)
  have hT : s = 0 ∨ 2 ^ s * 2 ^ 52 ≤ p := by
    by_cases hs : s = 0
    · exact Or.inl hs
    · right
      have hb : 1 ≤ bit_length 192 p := by
        have : s = bit_length 192 p - 53 := rfl
        omega
      have := bit_length_lower 192 p hb
      have e : bit_length 192 p - 1 = s + 52 := by
        have : s = bit_length 192 p - 53 := rfl
        omega
      rw [e, pow_add] at this
      exact this
  have hq' : q' * 2 ^ s = (if 2 ^ s < 2 * r ∨ (2 * r = 2 ^ s ∧ q % 2 = 1)
      then 2 ^ s * q + 2 ^ s else 2 ^ s * q) := by
    show (if 2 ^ s < 2 * r ∨ (2 * r = 2 ^ s ∧ q % 2 = 1) then q + 1 else q) * 2 ^ s = _
    split <;> ring
  rw [hq']
  generalize 2 ^ s * q = M at hqr ⊢
  rcases hT with h0 | hbig
  · have hT1 : 2 ^ s = 1 := by rw [h0, pow_zero]
    rw [hT1] at hr ⊢
    split <;> omega
  · generalize 2 ^ s = T at hr hbig ⊢
    split <;> omega

/-- For a frame count of at least 34 the two middle slot indices lie between
the first (10) and the last (`N - 11`). -/
theorem floor_mul_double_middle (N : Nat) (h34 : 34 ≤ N) (hu : N < 2 ^ 64) :
    10 ≤ floor_mul_double N double_035_num 53 ∧
      floor_mul_double N double_035_num 53 ≤ floor_mul_double N double_035_num 52 ∧
      floor_mul_double N double_035_num 52 ≤ N - 11 := by
  unfold floor_mul_double double_035_num
  obtain ⟨a1, a2⟩ := round_double_bounds N
  obtain ⟨b1, b2⟩ := round_double_bounds (round_double N * 3152519739159347)
  generalize round_double (round_double N * 3152519739159347) = P at b1 b2 ⊢
  generalize round_double N = N' at a1 a2 b1 b2
  omega

/-! ## The forward pass over non-decreasing slot indices -/

/-- The slot loop for the decoded frame `cf`, started in slot `i` with
`next_hash_frame = k`: the slots left of `k` are filled and not later than
`cf`, those from `k` to `i` are later than `cf`, the rest not earlier. -/
theorem slot_loop_fills (g : Nat → List Int × Nat) (fs : List Nat)
    (hsorted : ∀ i j, i ≤ j → j < 4 → fs.getD i 0 ≤ fs.getD j 0) (cf : Nat) :
    ∀ (fuel i k : Nat) (hf : List video_frame_info), i ≤ 4 → 4 < fuel + i → k ≤ i →
      slots_filled g fs hf k →
      (∀ j, j < k → fs.getD j 0 ≤ cf) →
      (∀ j, k ≤ j → j < i → cf < fs.getD j 0) →
      (∀ j, i ≤ j → j < 4 → cf ≤ fs.getD j 0) →
      ∃ hf' k', slot_loop (fun f => some (g f)) cf fuel i hf k = some (hf', k') ∧
        k' ≤ 4 ∧ slots_filled g fs hf' k' ∧
        (∀ j, j < k' → fs.getD j 0 < cf + 1) ∧
        (∀ j, k' ≤ j → j < 4 → cf + 1 ≤ fs.getD j 0) := by
  intro fuel
  induction fuel with
  | zero => intro i k hf h1 h2; omega
  | succ fuel ih =>
    intro i k hf hi4 hfuel hki hst hlow hmid hhigh
    unfold slot_loop
    by_cases c : i < 4
    · rw [if_pos c]
      obtain ⟨slot, hslot, hnum, hfill⟩ := hst.2 i c
      rw [hslot]
      dsimp only
      by_cases hm : slot.frame_number = cf
      · rw [if_pos hm]
        have hki' : k = i := by
          by_contra hne
          have h1 := hmid k (le_refl _) (by omega)
          have h2 := hsorted k i (by omega) c
          rw [hnum] at hm
          omega
        subst hki'
        apply ih (k + 1) (k + 1) _ (by omega) (by omega) (le_refl _)
        · refine ⟨by rw [List.length_set]; exact hst.1, ?_⟩
          intro j hj
          by_cases hjk : j = k
          · subst hjk
            refine ⟨⟨slot.frame_number, some (g cf).1, (g cf).2⟩,
              by rw [List.getElem?_set_self (by rw [hst.1]; exact c)], hnum, ?_⟩
            intro _
            rw [← hnum, hm]
            exact ⟨rfl, rfl⟩
          · obtain ⟨s', hs', hn', hf'⟩ := hst.2 j hj
            refine ⟨s', by rw [List.getElem?_set_ne (fun h => hjk h.symm)]; exact hs', hn', ?_⟩
            intro hlt
            exact hf' (by omega)
        · intro j hj
          by_cases hjk : j = k
          · subst hjk
            rw [← hnum, hm]
          · exact hlow j (by omega)
        · intro j h1 h2
          omega
        · intro j h1 h2
          exact hhigh j (by omega) h2
      · rw [if_neg hm]
        apply ih (i + 1) k hf (by omega) (by omega) (by omega) hst hlow
        · intro j h1 h2
          by_cases hji : j = i
          · subst hji
            have := hhigh j (le_refl _) c
            rw [hnum] at hm
            omega
          · exact hmid j h1 (by omega)
        · intro j h1 h2
          exact hhigh j (by omega) h2
    · rw [if_neg c]
      have hi : i = 4 := by omega
      subst hi
      refine ⟨hf, k, rfl, hki, hst, ?_, ?_⟩
      · intro j hj
        have := hlow j hj
        omega
      · intro j h1 h2
        have := hmid j h1 h2
        omega

/-- The frame loop over `frames` decoded frames, each of which hashes. -/
theorem frame_loop_fills (g : Nat → List Int × Nat) (fs : List Nat)
    (hsorted : ∀ i j, i ≤ j → j < 4 → fs.getD i 0 ≤ fs.getD j 0) :
    ∀ (frames cf n : Nat) (hf : List video_frame_info), n ≤ 4 →
      slots_filled g fs hf n →
      (∀ j, j < n → fs.getD j 0 < cf) →
      (∀ j, n ≤ j → j < 4 → cf ≤ fs.getD j 0) →
      ∃ hf' n', frame_loop (fun f => some (g f)) frames cf hf n = some hf' ∧
        n' ≤ 4 ∧ slots_filled g fs hf' n' ∧
        (∀ j, j < n' → fs.getD j 0 < cf + frames) ∧
        (∀ j, n' ≤ j → j < 4 → cf + frames ≤ fs.getD j 0) := by
  intro frames
  induction frames with
  | zero =>
    intro cf n hf hn hst hlow hhigh
    exact ⟨hf, n, rfl, hn, hst, hlow, hhigh⟩
  | succ frames ih =>
    intro cf n hf hn hst hlow hhigh
    unfold frame_loop
    obtain ⟨hf1, n1, h1, hn1, hst1, hlow1, hhigh1⟩ :=
      slot_loop_fills g fs hsorted cf 5 n n hf hn (by omega) (le_refl _) hst
        (fun j hj => le_of_lt (hlow j hj)) (fun j h1 h2 => by omega) hhigh
    rw [h1]
    dsimp only
    obtain ⟨hf2, n2, h2, hn2, hst2, hlow2, hhigh2⟩ :=
      ih (cf + 1) n1 hf1 hn1 hst1 hlow1 hhigh1
    refine ⟨hf2, n2, h2, hn2, hst2, ?_, ?_⟩
    · intro j hj
      have := hlow2 j hj
      omega
    · intro j h1 h2
      have := hhigh2 j h1 h2
      omega

/-- When the four slot indices are non-decreasing and below the number of
decoded frames, and every frame hashes, the forward pass fills all four
slots. -/
theorem frame_loop_fills_all (g : Nat → List Int × Nat) (f0 f1 f2 f3 decoded : Nat)
    (h01 : f0 ≤ f1) (h12 : f1 ≤ f2) (h23 : f2 ≤ f3) (h3 : f3 < decoded) :
    frame_loop (fun f => some (g f)) decoded 0
      [⟨f0, none, 0⟩, ⟨f1, none, 0⟩, ⟨f2, none, 0⟩, ⟨f3, none, 0⟩] 0 =
      some [⟨f0, some (g f0).1, (g f0).2⟩, ⟨f1, some (g f1).1, (g f1).2⟩,
        ⟨f2, some (g f2).1, (g f2).2⟩, ⟨f3, some (g f3).1, (g f3).2⟩] := by
  have g0 : [f0, f1, f2, f3].getD 0 0 = f0 := rfl
  have g1 : [f0, f1, f2, f3].getD 1 0 = f1 := rfl
  have g2 : [f0, f1, f2, f3].getD 2 0 = f2 := rfl
  have g3 : [f0, f1, f2, f3].getD 3 0 = f3 := rfl
  have hsorted : ∀ i j, i ≤ j → j < 4 →
      [f0, f1, f2, f3].getD i 0 ≤ [f0, f1, f2, f3].getD j 0 := by
    intro i j hij hj
    have hi : i = 0 ∨ i = 1 ∨ i = 2 ∨ i = 3 := by omega
    have hj' : j = 0 ∨ j = 1 ∨ j = 2 ∨ j = 3 := by omega
    rcases hi with h | h | h | h <;> rcases hj' with h' | h' | h' | h' <;> subst h <;>
      subst h' <;> simp only [g0, g1, g2, g3] <;> omega
  have hinit : slots_filled g [f0, f1, f2, f3]
      [⟨f0, none, 0⟩, ⟨f1, none, 0⟩, ⟨f2, none, 0⟩, ⟨f3, none, 0⟩] 0 := by
    refine ⟨rfl, ?_⟩
    intro i hi
    have : i = 0 ∨ i = 1 ∨ i = 2 ∨ i = 3 := by omega
    rcases this with h | h | h | h <;> subst h <;>
      exact ⟨_, rfl, rfl, fun h => absurd h (by omega)⟩
  obtain ⟨hf', n', hrun, hn', hst, hlow, hhigh⟩ :=
    frame_loop_fills g [f0, f1, f2, f3] hsorted decoded 0 0 _ (by omega) hinit
      (fun j hj => absurd hj (by omega)) (fun j _ _ => Nat.zero_le _)
  have hn4 : n' = 4 := by
    by_contra hne
    have h1 := hhigh 3 (by omega) (by omega)
    rw [g3] at h1
    omega
  subst hn4
  rw [hrun]
  congr 1
  obtain ⟨hlen, hslots⟩ := hst
  apply List.ext_getElem?
  intro i
  by_cases hi : i < 4
  · obtain ⟨slot, e, a, b⟩ := hslots i hi
    obtain ⟨b1, b2⟩ := b hi
    rw [e]
    obtain ⟨n, x, y⟩ := slot
    dsimp only at a b1 b2
    subst a b1 b2
    have : i = 0 ∨ i = 1 ∨ i = 2 ∨ i = 3 := by omega
    rcases this with h | h | h | h <;> subst h <;> rfl
  · rw [List.getElem?_eq_none (by omega), List.getElem?_eq_none (by
      simp only [List.length_cons, List.length_nil]
      omega)]

theorem hash_frame_numbers_eq (N : Nat) (hpos : 0 < N) (hu64 : N < 2 ^ 64) :
    hash_frame_numbers N =
      some [⟨if N < 11 then 0 else 10, none, 0⟩,
        ⟨floor_mul_double N double_035_num 53, none, 0⟩,
        ⟨floor_mul_double N double_035_num 52, none, 0⟩,
        ⟨if N < 11 then N - 1 else N - 11, none, 0⟩] := by
  have h1 : usub N 1 = N - 1 := by unfold usub; omega
  have h11 : 11 ≤ N → usub N 11 = N - 11 := by intro h; unfold usub; omega
  unfold hash_frame_numbers
  by_cases h : N < 11
  · simp [h, hpos, h1]
  · simp [h, h11 (by omega)]

/-- C27: for every frame count `N` (a `uint64_t`) with `1 <= N <= 10` or
`N >= 34`, the four slot indices set up by `process_video_file` are
non-decreasing in slot order and below `N`, and when all `N` frames decode
and hash (frame `f` giving the hash and size `g f`), the forward pass leaves
every slot with the hash of its frame. -/
theorem forward_pass_fills_all_slots (N : Nat) (hN : (1 ≤ N ∧ N ≤ 10) ∨ 34 ≤ N)
    (hu : N < 2 ^ 64) (g : Nat → List Int × Nat) :
    ∃ f0 f1 f2 f3, f0 ≤ f1 ∧ f1 ≤ f2 ∧ f2 ≤ f3 ∧ f3 < N ∧
      hash_frame_numbers N =
        some [⟨f0, none, 0⟩, ⟨f1, none, 0⟩, ⟨f2, none, 0⟩, ⟨f3, none, 0⟩] ∧
      sample_frames (fun f => some (g f)) N N =
        some [⟨f0, some (g f0).1, (g f0).2⟩, ⟨f1, some (g f1).1, (g f1).2⟩,
          ⟨f2, some (g f2).1, (g f2).2⟩, ⟨f3, some (g f3).1, (g f3).2⟩] := by
  have hnum := hash_frame_numbers_eq N (by omega) hu
  have hord : (if N < 11 then 0 else 10) ≤ floor_mul_double N double_035_num 53 ∧
      floor_mul_double N double_035_num 53 ≤ floor_mul_double N double_035_num 52 ∧
      floor_mul_double N double_035_num 52 ≤ (if N < 11 then N - 1 else N - 11) ∧
      (if N < 11 then N - 1 else N - 11) < N := by
    rcases hN with ⟨h1, h10⟩ | h34
    · obtain ⟨e1, e2⟩ := floor_mul_double_small N (by omega)
      rw [e1, e2, if_pos (by omega), if_pos (by omega)]
      omega
    · obtain ⟨a, b, c⟩ := floor_mul_double_middle N h34 hu
      rw [if_neg (by omega), if_neg (by omega)]
      omega
  obtain ⟨o1, o2, o3, o4⟩ := hord
  refine ⟨_, _, _, _, o1, o2, o3, o4, hnum, ?_⟩
  unfold sample_frames
  rw [hnum]
  exact frame_loop_fills_all g _ _ _ _ N o1 o2 o3 o4

theorem forward_pass_fills_all_slots_witness :
    ((1 ≤ 34 ∧ 34 ≤ 10) ∨ 34 ≤ 34) ∧ 34 < 2 ^ 64 ∧
    ∃ f0 f1 f2 f3, f0 ≤ f1 ∧ f1 ≤ f2 ∧ f2 ≤ f3 ∧ f3 < 34 ∧
      hash_frame_numbers 34 =
        some [⟨f0, none, 0⟩, ⟨f1, none, 0⟩, ⟨f2, none, 0⟩, ⟨f3, none, 0⟩] ∧
      sample_frames (fun f => some ([Int.ofNat f], 1)) 34 34 =
        some [⟨f0, some [Int.ofNat f0], 1⟩, ⟨f1, some [Int.ofNat f1], 1⟩,
          ⟨f2, some [Int.ofNat f2], 1⟩, ⟨f3, some [Int.ofNat f3], 1⟩] :=
  ⟨Or.inr (le_refl _), by decide,
    forward_pass_fills_all_slots 34 (Or.inr (le_refl _)) (by decide)
      (fun f => ([Int.ofNat f], 1))⟩

/-! ## Rounding to `float` -/

theorem bit_length_upper : ∀ (fuel p : Nat), p < 2 ^ fuel → p < 2 ^ bit_length fuel p := by
  intro fuel
  induction fuel with
  | zero =>
    intro p h
    unfold bit_length
    exact h
  | succ fuel ih =>
    intro p h
    unfold bit_length
    by_cases hp : p = 0
    · rw [if_pos hp, hp]
      exact Nat.one_pos
    · rw [if_neg hp]
      have h2 : p / 2 < 2 ^ fuel := by
        rw [pow_succ] at h
        omega
      have := ih (p / 2) h2
      rw [pow_succ]
      omega

theorem bit_length_unique (fuel p k : Nat) (hp : p < 2 ^ fuel) (hk : 1 ≤ k)
    (h1 : 2 ^ (k - 1) ≤ p) (h2 : p < 2 ^ k) : bit_length fuel p = k := by
  have hu := bit_length_upper fuel p hp
  have hp0 : p ≠ 0 := by
    have := Nat.two_pow_pos (k - 1)
    omega
  have hb1 : 1 ≤ bit_length fuel p := by
    by_contra hc
    have e : bit_length fuel p = 0 := by omega
    rw [e] at hu
    omega
  have hl := bit_length_lower fuel p hb1
  by_contra hne
  rcases Nat.lt_or_gt_of_ne hne with c | c
  · have : 2 ^ bit_length fuel p ≤ 2 ^ (k - 1) := Nat.pow_le_pow_right (by decide) (by omega)
    omega
  · have : 2 ^ k ≤ 2 ^ (bit_length fuel p - 1) := Nat.pow_le_pow_right (by decide) (by omega)
    omega

theorem bit_length_pos (fuel p : Nat) (hp : p < 2 ^ fuel) (hp0 : p ≠ 0) :
    1 ≤ bit_length fuel p := by
  have hu := bit_length_upper fuel p hp
  by_contra hc
  have e : bit_length fuel p = 0 := by omega
  rw [e] at hu
  omega

theorem bit_length_mono (fuel z x : Nat) (hx : x < 2 ^ fuel) (h : z ≤ x) :
    bit_length fuel z ≤ bit_length fuel x := by
  by_contra hc
  have hz : z < 2 ^ fuel := by omega
  have hb1 : 1 ≤ bit_length fuel z := by omega
  have hl := bit_length_lower fuel z hb1
  have hu := bit_length_upper fuel x hx
  have : 2 ^ bit_length fuel x ≤ 2 ^ (bit_length fuel z - 1) :=
    Nat.pow_le_pow_right (by decide) (by omega)
  omega

theorem bit_length_double (z : Nat) (hz : 2 * z < 2 ^ 320) (hz0 : z ≠ 0) :
    bit_length 320 (2 * z) = bit_length 320 z + 1 := by
  have hzl : z < 2 ^ 320 := by omega
  have hu := bit_length_upper 320 z hzl
  have hl := bit_length_lower 320 z (bit_length_pos 320 z hzl hz0)
  have hb := bit_length_pos 320 z hzl hz0
  apply bit_length_unique 320 (2 * z) _ hz (by omega)
  · rw [Nat.add_sub_cancel]
    have e : 2 ^ bit_length 320 z = 2 * 2 ^ (bit_length 320 z - 1) := by
      rw [← pow_succ']
      congr 1
      omega
    omega
  · rw [pow_succ]
    omega

/-- The truncation to 24 significant bits is not below a value with 24
significant bits that the argument is not below. -/
theorem truncation_ge (z x : Nat) (hx : x < 2 ^ 320)
    (hz : z % 2 ^ (bit_length 320 z - 24) = 0) (h : z ≤ x) :
    z ≤ x / 2 ^ (bit_length 320 x - 24) * 2 ^ (bit_length 320 x - 24) := by
  have hzl : z < 2 ^ 320 := by omega
  have hm := bit_length_mono 320 z x hx h
  rcases Nat.eq_or_lt_of_le hm with c | c
  · rw [← c]
    have e := Nat.div_mul_cancel (Nat.dvd_of_mod_eq_zero hz)
    have d : z / 2 ^ (bit_length 320 z - 24) ≤ x / 2 ^ (bit_length 320 z - 24) :=
      Nat.div_le_div_right h
    calc z = z / 2 ^ (bit_length 320 z - 24) * 2 ^ (bit_length 320 z - 24) := e.symm
      _ ≤ _ := Nat.mul_le_mul_right _ d
  · by_cases hs : bit_length 320 x ≤ 24
    · have e : bit_length 320 x - 24 = 0 := by omega
      rw [e, pow_zero, Nat.div_one, Nat.mul_one]
      exact h
    · have hu := bit_length_upper 320 z hzl
      have hl := bit_length_lower 320 x (by omega)
      have e : bit_length 320 x - 1 = (bit_length 320 x - 24) + 23 := by omega
      rw [e, pow_add] at hl
      have h1 : 2 ^ bit_length 320 z ≤ 2 ^ ((bit_length 320 x - 24) + 23) :=
        Nat.pow_le_pow_right (by decide) (by omega)
      rw [pow_add] at h1
      have hpos := Nat.two_pow_pos (bit_length 320 x - 24)
      have hq : 2 ^ 23 ≤ x / 2 ^ (bit_length 320 x - 24) := by
        rw [Nat.le_div_iff_mul_le hpos]
        rw [Nat.mul_comm]
        exact hl
      have := Nat.mul_le_mul_right (2 ^ (bit_length 320 x - 24)) hq
      rw [Nat.mul_comm (2 ^ 23)] at this
      omega

theorem round_magnitude_ge (z x : Nat) (hx : x < 2 ^ 320) (hzi : z ≤ binary32_inf)
    (hz : z % 2 ^ (bit_length 320 z - 24) = 0) (h : z ≤ x) : z ≤ round_magnitude x := by
  have ht := truncation_ge z x hx hz h
  unfold round_magnitude
  lift_lets
  intro s q r q'
  have hq : q ≤ q' := by
    show q ≤ if 2 ^ s < 2 * r ∨ (2 * r = 2 ^ s ∧ q % 2 = 1) then q + 1 else q
    split
    · omega
    · exact Nat.le_refl _
  have := Nat.mul_le_mul_right (2 ^ s) hq
  exact le_min (le_trans ht this) hzi

theorem round_magnitude_le (z x : Nat) (hzl : z < 2 ^ 320)
    (hz : z % 2 ^ (bit_length 320 z - 24) = 0) (h : x ≤ z) : round_magnitude x ≤ z := by
  have hx : x < 2 ^ 320 := by omega
  have hm := bit_length_mono 320 x z hzl h
  unfold round_magnitude
  lift_lets
  intro s q r q'
  apply le_trans (min_le_left _ _)
  have hpos : 0 < 2 ^ s := Nat.two_pow_pos s
  have hdm : q * 2 ^ s + r = x := by
    show x / 2 ^ s * 2 ^ s + x % 2 ^ s = x
    rw [Nat.mul_comm]
    exact Nat.div_add_mod x (2 ^ s)
  by_cases hr : r = 0
  · have e : q' = q := by
      show (if 2 ^ s < 2 * r ∨ (2 * r = 2 ^ s ∧ q % 2 = 1) then q + 1 else q) = q
      rw [if_neg (by rw [hr]; omega)]
    rw [e]
    omega
  · have hq : q' ≤ q + 1 := by
      show (if 2 ^ s < 2 * r ∨ (2 * r = 2 ^ s ∧ q % 2 = 1) then q + 1 else q) ≤ q + 1
      split
      · exact Nat.le_refl _
      · omega
    have hs : s ≠ 0 := by
      intro hs0
      apply hr
      show x % 2 ^ s = 0
      rw [hs0, pow_zero, Nat.mod_one]
    have hbx : bit_length 320 x = s + 24 := by
      show bit_length 320 x = (bit_length 320 x - 24) + 24
      have : bit_length 320 x - 24 ≠ 0 := hs
      omega
    apply le_trans (Nat.mul_le_mul_right (2 ^ s) hq)
    rcases Nat.eq_or_lt_of_le hm with c | c
    · have hz2 : z % 2 ^ s = 0 := by
        have : bit_length 320 z - 24 = s := by omega
        rw [this] at hz
        exact hz
      have e := Nat.div_mul_cancel (Nat.dvd_of_mod_eq_zero hz2)
      have hxz : x < z := by
        rcases Nat.eq_or_lt_of_le h with c2 | c2
        · exfalso
          apply hr
          show x % 2 ^ s = 0
          rw [c2]
          exact hz2
        · exact c2
      have : q < z / 2 ^ s := by
        show x / 2 ^ s < z / 2 ^ s
        rw [Nat.div_lt_iff_lt_mul hpos, e]
        exact hxz
      calc (q + 1) * 2 ^ s ≤ z / 2 ^ s * 2 ^ s := Nat.mul_le_mul_right _ this
        _ = z := e
    · have hl := bit_length_lower 320 z (by omega)
      have hu := bit_length_upper 320 x hx
      rw [hbx, Nat.add_comm, pow_add] at hu
      have h1 : 2 ^ (s + 24) ≤ 2 ^ (bit_length 320 z - 1) :=
        Nat.pow_le_pow_right (by decide) (by omega)
      rw [Nat.add_comm, pow_add] at h1
      have hq24 : q < 2 ^ 24 := by
        show x / 2 ^ s < 2 ^ 24
        rw [Nat.div_lt_iff_lt_mul hpos]
        exact hu
      have := Nat.mul_le_mul_right (2 ^ s) (Nat.succ_le_of_lt hq24)
      exact le_trans this (le_trans h1 hl)

theorem binary32_inf_bound : 4 * binary32_inf < 2 ^ 320 := by
  have e : 2 ^ 320 = 4 * binary32_inf * 2 ^ 41 := by
    unfold binary32_inf
    rw [show (4 : Nat) = 2 ^ 2 from rfl, ← pow_add, ← pow_add, ← pow_add]
  have h1 : 0 < 4 * binary32_inf := by
    unfold binary32_inf
    exact Nat.mul_pos (by decide) (Nat.mul_pos (Nat.two_pow_pos _) (Nat.two_pow_pos _))
  rw [e]
  have h2 : (2 : Nat) ≤ 2 ^ 41 := by norm_num
  calc 4 * binary32_inf < 4 * binary32_inf * 2 := by omega
    _ ≤ 4 * binary32_inf * 2 ^ 41 := Nat.mul_le_mul_left _ h2

theorem is_binary32_iff (c : Int) :
    is_binary32 c = true ↔
      c.natAbs ≤ binary32_inf ∧ c.natAbs % 2 ^ (bit_length 320 c.natAbs - 24) = 0 := by
  unfold is_binary32
  rw [Bool.and_eq_true, decide_eq_true_eq, decide_eq_true_eq]

theorem is_binary32_neg (c : Int) : is_binary32 (-c) = is_binary32 c := by
  unfold is_binary32
  rw [Int.natAbs_neg]

set_option maxRecDepth 100000 in
theorem is_binary32_inf : is_binary32 (binary32_inf : Int) = true := by
  decide

theorem round_magnitude_zero : round_magnitude 0 = 0 := by
  decide

theorem round_magnitude_le_inf (p : Nat) : round_magnitude p ≤ binary32_inf := by
  unfold round_magnitude
  lift_lets
  intro s q r q'
  exact min_le_right _ _

theorem round_magnitude_eq (p : Nat) (hp : p ≤ binary32_inf)
    (hr : p % 2 ^ (bit_length 320 p - 24) = 0) : round_magnitude p = p := by
  unfold round_magnitude
  lift_lets
  intro s q r q'
  have hr0 : r = 0 := hr
  have hpos : 0 < 2 ^ s := Nat.two_pow_pos s
  have e : q' = q := by
    show (if 2 ^ s < 2 * r ∨ (2 * r = 2 ^ s ∧ q % 2 = 1) then q + 1 else q) = q
    rw [if_neg (by rw [hr0]; omega)]
  rw [e]
  have e2 : q * 2 ^ s = p := Nat.div_mul_cancel (Nat.dvd_of_mod_eq_zero hr)
  rw [e2]
  exact min_eq_left hp

theorem round_binary32_neg (x : Int) : round_binary32 (-x) = -round_binary32 x := by
  unfold round_binary32
  rcases lt_trichotomy x 0 with h | h | h
  · rw [if_pos (by omega), if_neg (by omega), neg_neg]
  · subst h
    rw [neg_zero, if_pos (le_refl _)]
    have : (0 : Int).toNat = 0 := rfl
    rw [this, round_magnitude_zero]
    rfl
  · rw [if_neg (by omega), if_pos (by omega), neg_neg]

theorem round_binary32_range (x : Int) :
    -(binary32_inf : Int) ≤ round_binary32 x ∧ round_binary32 x ≤ binary32_inf := by
  unfold round_binary32
  by_cases c : 0 ≤ x
  · rw [if_pos c]
    have := round_magnitude_le_inf x.toNat
    omega
  · rw [if_neg c]
    have := round_magnitude_le_inf (-x).toNat
    omega

theorem round_binary32_eq (x : Int) (h : is_binary32 x = true) : round_binary32 x = x := by
  obtain ⟨h1, h2⟩ := (is_binary32_iff x).mp h
  unfold round_binary32
  by_cases c : 0 ≤ x
  · rw [if_pos c]
    have e : x.toNat = x.natAbs := by omega
    rw [e, round_magnitude_eq _ h1 h2]
    omega
  · rw [if_neg c]
    have e : (-x).toNat = x.natAbs := by omega
    rw [e, round_magnitude_eq _ h1 h2]
    omega

/-- Rounding does not cross a `float`: a `float` that is not above `x` is
not above the rounded `x`. -/
theorem round_binary32_ge (z x : Int) (hz : is_binary32 z = true) (hx : x.natAbs < 2 ^ 320)
    (h : z ≤ x) : z ≤ round_binary32 x := by
  obtain ⟨hz1, hz2⟩ := (is_binary32_iff z).mp hz
  have hb := binary32_inf_bound
  unfold round_binary32
  by_cases c : 0 ≤ x
  · rw [if_pos c]
    by_cases cz : 0 ≤ z
    · have := round_magnitude_ge z.natAbs x.toNat (by omega) hz1 hz2 (by omega)
      omega
    · have : (0 : Int) ≤ (round_magnitude x.toNat : Int) := Int.ofNat_nonneg _
      omega
  · rw [if_neg c]
    have := round_magnitude_le z.natAbs (-x).toNat (by omega) hz2 (by omega)
    omega

theorem round_binary32_le (z x : Int) (hz : is_binary32 z = true) (hx : x.natAbs < 2 ^ 320)
    (h : x ≤ z) : round_binary32 x ≤ z := by
  have := round_binary32_ge (-z) (-x) (by rw [is_binary32_neg]; exact hz)
    (by rw [Int.natAbs_neg]; exact hx) (by omega)
  rw [round_binary32_neg] at this
  omega

theorem fits_24_bits_double (n : Nat) (hn : n % 2 ^ (bit_length 320 n - 24) = 0)
    (h : 2 * n < 2 ^ 320) : (2 * n) % 2 ^ (bit_length 320 (2 * n) - 24) = 0 := by
  by_cases h0 : n = 0
  · rw [h0]
    rfl
  · rw [bit_length_double n h h0]
    by_cases c : bit_length 320 n < 24
    · have e : bit_length 320 n + 1 - 24 = 0 := by omega
      rw [e, pow_zero, Nat.mod_one]
    · have e : bit_length 320 n + 1 - 24 = (bit_length 320 n - 24) + 1 := by omega
      rw [e, pow_succ', Nat.mul_mod_mul_left, hn]

theorem is_binary32_double (z : Int) (hz : is_binary32 z = true)
    (h : (2 * z).natAbs ≤ binary32_inf) : is_binary32 (2 * z) = true := by
  obtain ⟨hz1, hz2⟩ := (is_binary32_iff z).mp hz
  have hb := binary32_inf_bound
  rw [is_binary32_iff]
  refine ⟨h, ?_⟩
  have e : (2 * z).natAbs = 2 * z.natAbs := by omega
  rw [e]
  exact fits_24_bits_double _ hz2 (by omega)

theorem half_code_bounds (x : Int) : x - 1 ≤ 2 * half_code x ∧ 2 * half_code x ≤ x + 1 := by
  unfold half_code half_magnitude
  split_ifs <;> omega

theorem half_code_even (x : Int) (h : x % 2 = 0) : half_code x = x / 2 := by
  unfold half_code half_magnitude
  split_ifs <;> omega

/-- The halved rounded sum of two `float`s lies between them, unless the sum
overflows. -/
theorem half_rounded_sum_between (a b : Int) (ha : is_binary32 a = true)
    (hb : is_binary32 b = true) (hab : a ≤ b)
    (hlo : -(binary32_inf : Int) < round_binary32 (b + a))
    (hhi : round_binary32 (b + a) < binary32_inf) :
    a ≤ half_code (round_binary32 (b + a)) ∧ half_code (round_binary32 (b + a)) ≤ b := by
  obtain ⟨ha1, _⟩ := (is_binary32_iff a).mp ha
  obtain ⟨hb1, _⟩ := (is_binary32_iff b).mp hb
  have hbd := binary32_inf_bound
  have hx : (b + a).natAbs < 2 ^ 320 := by omega
  obtain ⟨hh1, hh2⟩ := half_code_bounds (round_binary32 (b + a))
  constructor
  · by_cases c1 : (2 * a).natAbs ≤ binary32_inf
    · have := round_binary32_ge (2 * a) (b + a) (is_binary32_double a ha c1) hx (by omega)
      omega
    · by_cases c2 : 0 ≤ a
      · have := round_binary32_ge (binary32_inf : Int) (b + a) is_binary32_inf hx (by omega)
        omega
      · omega
  · by_cases c1 : (2 * b).natAbs ≤ binary32_inf
    · have := round_binary32_le (2 * b) (b + a) (is_binary32_double b hb c1) hx (by omega)
      omega
    · by_cases c2 : 0 ≤ b
      · omega
      · have := round_binary32_le (-(binary32_inf : Int)) (b + a)
          (by rw [is_binary32_neg]; exact is_binary32_inf) hx (by omega)
        omega

/-! ## `kth_smallest` under an order embedding -/

theorem phs_swap_floats_map {α β : Type} (f : α → β) (arr : List α) (a b : Nat) :
    phs_swap_floats (arr.map f) a b = (phs_swap_floats arr a b).map (List.map f) := by
  unfold phs_swap_floats
  rw [List.getElem?_map, List.getElem?_map]
  cases arr[a]? <;> cases arr[b]? <;> simp [List.map_set]

theorem swap_if_greater_map {α β : Type} [LT α] [DecidableRel (fun (a b : α) => a < b)]
    [LT β] [DecidableRel (fun (a b : β) => a < b)] (f : α → β)
    (hf : ∀ a b, f a < f b ↔ a < b) (arr : List α) (a b : Nat) :
    swap_if_greater (arr.map f) a b = (swap_if_greater arr a b).map (List.map f) := by
  unfold swap_if_greater
  rw [List.getElem?_map, List.getElem?_map]
  cases arr[a]? with
  | none => rfl
  | some x =>
    cases arr[b]? with
    | none => rfl
    | some y =>
      simp only [Option.map_some']
      by_cases c : y < x
      · rw [if_pos c, if_pos ((hf y x).mpr c)]
        exact phs_swap_floats_map f arr a b
      · rw [if_neg c, if_neg (fun h => c ((hf y x).mp h))]
        rfl

theorem scan_up_map {α β : Type} [LT α] [DecidableRel (fun (a b : α) => a < b)]
    [LT β] [DecidableRel (fun (a b : β) => a < b)] (f : α → β)
    (hf : ∀ a b, f a < f b ↔ a < b) (arr : List α) (pivot : α) :
    ∀ fuel i, scan_up (arr.map f) (f pivot) fuel i = scan_up arr pivot fuel i := by
  intro fuel
  induction fuel with
  | zero => intro i; rfl
  | succ fuel ih =>
    intro i
    unfold scan_up
    rw [List.getElem?_map]
    cases arr[i + 1]? with
    | none => rfl
    | some v =>
      simp only [Option.map_some']
      by_cases c : v < pivot
      · rw [if_pos c, if_pos ((hf v pivot).mpr c)]
        exact ih (i + 1)
      · rw [if_neg c, if_neg (fun h => c ((hf v pivot).mp h))]

theorem scan_down_map {α β : Type} [LT α] [DecidableRel (fun (a b : α) => a < b)]
    [LT β] [DecidableRel (fun (a b : β) => a < b)] (f : α → β)
    (hf : ∀ a b, f a < f b ↔ a < b) (arr : List α) (pivot : α) :
    ∀ fuel j, scan_down (arr.map f) (f pivot) fuel j = scan_down arr pivot fuel j := by
  intro fuel
  induction fuel with
  | zero => intro j; rfl
  | succ fuel ih =>
    intro j
    unfold scan_down
    rw [List.getElem?_map]
    cases arr[usub j 1]? with
    | none => rfl
    | some v =>
      simp only [Option.map_some']
      by_cases c : pivot < v
      · rw [if_pos c, if_pos ((hf pivot v).mpr c)]
        exact ih (usub j 1)
      · rw [if_neg c, if_neg (fun h => c ((hf pivot v).mp h))]

theorem partition_loop_map {α β : Type} [LT α] [DecidableRel (fun (a b : α) => a < b)]
    [LT β] [DecidableRel (fun (a b : β) => a < b)] (f : α → β)
    (hf : ∀ a b, f a < f b ↔ a < b) (pivot : α) :
    ∀ fuel (arr : List α) i j, partition_loop (f pivot) fuel (arr.map f) i j =
      (partition_loop pivot fuel arr i j).map (fun r => (r.1.map f, r.2)) := by
  intro fuel
  induction fuel with
  | zero => intro arr i j; rfl
  | succ fuel ih =>
    intro arr i j
    unfold partition_loop
    rw [List.length_map, scan_up_map f hf, scan_down_map f hf]
    cases scan_up arr pivot (arr.length + 1) i with
    | none => rfl
    | some i' =>
      cases scan_down arr pivot (arr.length + 1) j with
      | none => rfl
      | some j' =>
        simp only []
        by_cases c : j' < i'
        · rw [if_pos c, if_pos c]
          rfl
        · rw [if_neg c, if_neg c, phs_swap_floats_map]
          cases phs_swap_floats arr i' j' with
          | none => rfl
          | some arr' =>
            simp only [Option.map_some']
            exact ih arr' i' j'

theorem place_pivot_map {α β : Type} (f : α → β) (arr : List α) (l j : Nat) (pivot : α) :
    place_pivot (arr.map f) l j (f pivot) = (place_pivot arr l j pivot).map (List.map f) := by
  unfold place_pivot
  rw [List.getElem?_map, List.length_map]
  cases arr[j]? with
  | none => rfl
  | some aj =>
    simp only [Option.map_some']
    by_cases c : l + 1 < arr.length
    · rw [if_pos c, if_pos c]
      simp [List.map_set]
    · rw [if_neg c, if_neg c]
      rfl

theorem select_step_map {α β : Type} [LT α] [DecidableRel (fun (a b : α) => a < b)]
    [LT β] [DecidableRel (fun (a b : β) => a < b)] (f : α → β)
    (hf : ∀ a b, f a < f b ↔ a < b) (k : Nat) (arr : List α) (l ir : Nat) :
    select_step k (arr.map f) l ir =
      (select_step k arr l ir).map (fun r => (r.1.map f, r.2)) := by
  unfold select_step
  rw [phs_swap_floats_map]
  cases phs_swap_floats arr ((l + ir) / 2) (l + 1) with
  | none => rfl
  | some arr1 =>
    simp only [Option.map_some']
    rw [swap_if_greater_map f hf]
    cases swap_if_greater arr1 l ir with
    | none => rfl
    | some arr2 =>
      simp only [Option.map_some']
      rw [swap_if_greater_map f hf]
      cases swap_if_greater arr2 (l + 1) ir with
      | none => rfl
      | some arr3 =>
        simp only [Option.map_some']
        rw [swap_if_greater_map f hf]
        cases swap_if_greater arr3 l (l + 1) with
        | none => rfl
        | some arr4 =>
          simp only [Option.map_some']
          rw [List.getElem?_map]
          cases arr4[l + 1]? with
          | none => rfl
          | some pivot =>
            simp only [Option.map_some']
            rw [List.length_map, partition_loop_map f hf]
            cases partition_loop pivot arr4.length arr4 (l + 1) ir with
            | none => rfl
            | some res =>
              obtain ⟨arr5, i, j⟩ := res
              simp only [Option.map_some']
              rw [place_pivot_map]
              cases place_pivot arr5 l j pivot with
              | none => rfl
              | some arr6 => rfl

theorem select_loop_map {α β : Type} [LT α] [DecidableRel (fun (a b : α) => a < b)]
    [LT β] [DecidableRel (fun (a b : β) => a < b)] (f : α → β)
    (hf : ∀ a b, f a < f b ↔ a < b) (k : Nat) :
    ∀ fuel (arr : List α) l ir, select_loop k fuel (arr.map f) l ir =
      (select_loop k fuel arr l ir).map f := by
  intro fuel
  induction fuel with
  | zero => intro arr l ir; rfl
  | succ fuel ih =>
    intro arr l ir
    unfold select_loop
    by_cases c : ir ≤ l + 1
    · rw [if_pos c, if_pos c]
      by_cases c2 : ir = l + 1
      · rw [if_pos c2, if_pos c2, swap_if_greater_map f hf]
        cases swap_if_greater arr l ir with
        | none => rfl
        | some arr' =>
          simp only [Option.map_some']
          exact List.getElem?_map f arr' k
      · rw [if_neg c2, if_neg c2]
        exact List.getElem?_map f arr k
    · rw [if_neg c, if_neg c, select_step_map f hf]
      cases select_step k arr l ir with
      | none => rfl
      | some res =>
        obtain ⟨arr', l', ir'⟩ := res
        simp only [Option.map_some']
        exact ih arr' l' ir'

theorem kth_smallest_map {α β : Type} [LT α] [DecidableRel (fun (a b : α) => a < b)]
    [LT β] [DecidableRel (fun (a b : β) => a < b)] (f : α → β)
    (hf : ∀ a b, f a < f b ↔ a < b) (data : List α) (size k : Nat) :
    kth_smallest (data.map f) size k = (kth_smallest data size k).map f := by
  unfold kth_smallest
  rw [List.length_map]
  by_cases c : size ≤ data.length
  · rw [if_pos c, if_pos c, ← List.map_take]
    exact select_loop_map f hf k _ _ _ _
  · rw [if_neg c, if_neg c]
    rfl

theorem binary32_val_lt (a b : Int) : binary32.val a < binary32.val b ↔ a < b :=
  Iff.rfl

/-! ## The median in `float` -/

theorem median_codes_spec (data : List Int) (hn : 1 ≤ data.length)
    (hlen : data.length < 2 ^ 64) :
    median (data.map binary32.val) data.length =
      some (if data.length % 2 ≠ 0
        then binary32.val ((data.insertionSort (fun a b => a ≤ b)).getD (data.length / 2) 0)
        else binary32.half (binary32.add
          (binary32.val ((data.insertionSort (fun a b => a ≤ b)).getD (data.length / 2) 0))
          (binary32.val
            ((data.insertionSort (fun a b => a ≤ b)).getD (data.length / 2 - 1) 0)))) := by
  unfold median
  rw [kth_smallest_map binary32.val binary32_val_lt,
    kth_smallest_spec 0 data (data.length / 2) (by omega) hlen]
  simp only [Option.map_some']
  by_cases c : data.length % 2 ≠ 0
  · rw [if_pos c, if_pos c]
  · rw [if_neg c, if_neg c]
    rw [usub_one (data.length / 2) (by omega) (by omega)]
    rw [kth_smallest_map binary32.val binary32_val_lt,
      kth_smallest_spec 0 data (data.length / 2 - 1) (by omega) hlen]
    rfl

/-- The value `(r1 + r2) / 2` computed from two `float`s `r2 <= r1` is not
below a value that `r2` is not below, unless the sum is `-inf` with a finite
`r2`. -/
theorem median_value_not_below (r1 r2 x : Int) (h1 : is_binary32 r1 = true)
    (h2 : is_binary32 r2 = true) (h21 : r2 ≤ r1) (hx : x ≤ r2)
    (hsum : binary32.add (binary32.val r1) (binary32.val r2) =
      binary32.val (-(binary32_inf : Int)) → r2 = -(binary32_inf : Int)) :
    ¬ (binary32.half (binary32.add (binary32.val r1) (binary32.val r2)) < binary32.val x) := by
  obtain ⟨hb1, _⟩ := (is_binary32_iff r1).mp h1
  obtain ⟨hb2, _⟩ := (is_binary32_iff r2).mp h2
  simp only [binary32.add] at hsum ⊢
  by_cases c1 : r1.natAbs = binary32_inf ∧ r2 = -r1
  · rw [if_pos c1]
    intro h
    exact h
  · rw [if_neg c1] at hsum ⊢
    by_cases c2 : r1.natAbs = binary32_inf
    · rw [if_pos c2]
      simp only [binary32.half]
      rw [if_pos c2, binary32_val_lt]
      omega
    · rw [if_neg c2] at hsum ⊢
      by_cases c3 : r2.natAbs = binary32_inf
      · rw [if_pos c3]
        simp only [binary32.half]
        rw [if_pos c3, binary32_val_lt]
        omega
      · rw [if_neg c3] at hsum ⊢
        have hr := round_binary32_range (r1 + r2)
        have hne : round_binary32 (r1 + r2) ≠ -(binary32_inf : Int) := by
          intro e
          have := hsum (by rw [e])
          omega
        simp only [binary32.half]
        by_cases c4 : (round_binary32 (r1 + r2)).natAbs = binary32_inf
        · rw [if_pos c4, binary32_val_lt]
          omega
        · rw [if_neg c4, binary32_val_lt]
          have := half_rounded_sum_between r2 r1 h2 h1 h21 (by omega) (by omega)
          omega

/-- The value `(r1 + r2) / 2` computed from two finite `float`s `r2 <= r1`
whose sum does not overflow lies between them. -/
theorem median_value_between (r1 r2 : Int) (h1 : is_binary32 r1 = true)
    (h2 : is_binary32 r2 = true) (h21 : r2 ≤ r1) (hf1 : r1.natAbs ≠ binary32_inf)
    (hf2 : r2.natAbs ≠ binary32_inf)
    (hfin : (round_binary32 (r1 + r2)).natAbs ≠ binary32_inf) :
    binary32.half (binary32.add (binary32.val r1) (binary32.val r2)) =
      binary32.val (half_code (round_binary32 (r1 + r2))) ∧
    r2 ≤ half_code (round_binary32 (r1 + r2)) ∧ half_code (round_binary32 (r1 + r2)) ≤ r1 := by
  have hr := round_binary32_range (r1 + r2)
  refine ⟨?_, half_rounded_sum_between r2 r1 h2 h1 h21 (by omega) (by omega)⟩
  simp only [binary32.add]
  rw [if_neg (fun h => hf1 h.1), if_neg hf1, if_neg hf2]
  simp only [binary32.half]
  rw [if_neg hfin]

/-- The value `(r1 + r2) / 2` is the exact average when the sum of the two
finite `float`s is a finite `float` with an even code. -/
theorem median_value_exact (r1 r2 : Int) (hf1 : r1.natAbs ≠ binary32_inf)
    (hf2 : r2.natAbs ≠ binary32_inf) (hs : is_binary32 (r1 + r2) = true)
    (hfin : (r1 + r2).natAbs ≠ binary32_inf) (heven : (r1 + r2) % 2 = 0) :
    binary32.half (binary32.add (binary32.val r1) (binary32.val r2)) =
      binary32.val ((r1 + r2) / 2) := by
  simp only [binary32.add]
  rw [if_neg (fun h => hf1 h.1), if_neg hf1, if_neg hf2, round_binary32_eq _ hs]
  simp only [binary32.half]
  rw [if_neg hfin, half_code_even _ heven]

theorem threshold_bits_of_codes (value : List Int) (m : binary32) (hlen : value.length = 64) :
    ∃ hash_value, threshold_hash (value.map binary32.val) m = some hash_value ∧
      hash_value < 2 ^ 64 ∧
      ∀ i, i < 64 → hash_value.testBit i = decide (m < binary32.val (value.getD i 0)) := by
  obtain ⟨h, hh, hlt, hbits⟩ := threshold_hash_spec (value.map binary32.val) m
    (by rw [List.length_map]; omega)
  refine ⟨h, hh, hlt, ?_⟩
  intro i hi
  have := hbits i hi
  have e : (value.map binary32.val).get ⟨i, by rw [List.length_map]; omega⟩ =
      binary32.val (value.getD i 0) := by
    rw [List.getD_eq_getElem value 0 (by omega)]
    simp
  rw [e] at this
  by_cases c : m < binary32.val (value.getD i 0)
  · rw [this.mpr c]
    exact (decide_eq_true c).symm
  · rw [decide_eq_false c]
    exact Bool.eq_false_iff.mpr (fun hb => c (this.mp hb))

theorem countP_bits_of_codes (value : List Int) (m : binary32) (hlen : value.length = 64)
    (h : Nat) (hbits : ∀ i, i < 64 → h.testBit i = decide (m < binary32.val (value.getD i 0))) :
    (List.range 64).countP (fun i => h.testBit i) =
      (value.insertionSort (fun a b => a ≤ b)).countP (fun x => decide (m < binary32.val x)) := by
  have hperm := List.perm_insertionSort (fun (a b : Int) => a ≤ b) value
  have e1 : (List.range 64).countP (fun i => h.testBit i) =
      (List.range 64).countP
        ((fun x => decide (m < binary32.val x)) ∘ (fun i => value.getD i 0)) := by
    apply List.countP_congr
    intro i hi
    rw [List.mem_range] at hi
    simp only [Function.comp]
    rw [hbits i hi]
  rw [e1, ← List.countP_map]
  have e2 := map_getD_range (0 : Int) value
  rw [hlen] at e2
  rw [e2, ← hperm.countP_eq]

set_option maxRecDepth 1000000 in
theorem median_range_64 :
    median ((List.range 64).map (fun (i : Nat) => binary32.val ((i : Int) * 2 ^ 149))) 64 =
      some (binary32.val (63 * 2 ^ 148)) := by
  decide

set_option maxRecDepth 1000000 in
/-- C4 (counterexample): for 32 values 1.0 (code `2^149`) and 32 values
`1 + 2^-23` (code `2^149 + 2^126`, the next `float`) the two central order
statistics are `1 + 2^-23` and 1.0; their sum `2 + 2^-23` is not a `float`
and rounds to 2.0 (tie, to even), so `median` stores 1.0, which is not the
average `1 + 2^-24` (code `2^149 + 2^125`). -/
theorem median_of_adjacent_floats :
    median (List.replicate 32 (binary32.val (2 ^ 149)) ++
      List.replicate 32 (binary32.val (2 ^ 149 + 2 ^ 126))) 64 = some (binary32.val (2 ^ 149)) ∧
    ((2 : Int) ^ 149 + (2 ^ 149 + 2 ^ 126)) / 2 = 2 ^ 149 + 2 ^ 125 ∧
    (2 : Int) ^ 149 ≠ 2 ^ 149 + 2 ^ 125 := by
  decide

/-- C4 (amended): for every array of `n >= 1` `float`s that are not NaN (`n`
a `size_t`), `median` returns the middle order statistic `s[n/2]` of the
ascending sort `s` when `n` is odd, and when `n` is even the `float` value
of `(s[n/2] + s[n/2 - 1]) / 2`: the sum rounded to `float`, halved.  This is
the average of the two when their sum is a finite `float` with an even code;
for the values 0..63 it is 31.5 (code `63 * 2^148`). -/
theorem median_is_middle_order_statistic (data : List Int)
    (hn : 1 ≤ data.length) (hlen : data.length < 2 ^ 64) :
    (data.length % 2 = 1 →
      ∃ r1, (data.insertionSort (fun a b => a ≤ b))[data.length / 2]? = some r1 ∧
        median (data.map binary32.val) data.length = some (binary32.val r1)) ∧
    (data.length % 2 = 0 →
      ∃ r1 r2, (data.insertionSort (fun a b => a ≤ b))[data.length / 2]? = some r1 ∧
        (data.insertionSort (fun a b => a ≤ b))[data.length / 2 - 1]? = some r2 ∧
        median (data.map binary32.val) data.length =
          some (binary32.half (binary32.add (binary32.val r1) (binary32.val r2))) ∧
        (r1.natAbs ≠ binary32_inf → r2.natAbs ≠ binary32_inf →
          is_binary32 (r1 + r2) = true → (r1 + r2).natAbs ≠ binary32_inf →
          (r1 + r2) % 2 = 0 →
          median (data.map binary32.val) data.length =
            some (binary32.val ((r1 + r2) / 2)))) ∧
    median ((List.range 64).map (fun (i : Nat) => binary32.val ((i : Int) * 2 ^ 149))) 64 =
      some (binary32.val (63 * 2 ^ 148)) := by
  have hslen : (data.insertionSort (fun a b => a ≤ b)).length = data.length :=
    (List.perm_insertionSort (fun (a b : Int) => a ≤ b) data).length_eq
  have hm := median_codes_spec data hn hlen
  refine ⟨?_, ?_, median_range_64⟩
  · intro hodd
    refine ⟨_, getElem?_eq_some_getD _ 0 _ (by omega), ?_⟩
    rw [hm, if_pos (by omega)]
  · intro heven
    refine ⟨_, _, getElem?_eq_some_getD _ 0 _ (by omega),
      getElem?_eq_some_getD _ 0 _ (by omega), ?_, ?_⟩
    · rw [hm, if_neg (by omega)]
    · intro hf1 hf2 hs hfin he
      rw [hm, if_neg (by omega), median_value_exact _ _ hf1 hf2 hs hfin he]

set_option maxRecDepth 100000 in
theorem median_is_middle_order_statistic_witness :
    (1 ≤ ([3 * 2 ^ 149, 2 ^ 149, 2 * 2 ^ 149] : List Int).length ∧
      ([3 * 2 ^ 149, 2 ^ 149, 2 * 2 ^ 149] : List Int).length < 2 ^ 64) ∧
      (([3 * 2 ^ 149, 2 ^ 149, 2 * 2 ^ 149] : List Int).length % 2 = 1 →
        ∃ r1, (([3 * 2 ^ 149, 2 ^ 149, 2 * 2 ^ 149] : List Int).insertionSort
            (fun a b => a ≤ b))[
            ([3 * 2 ^ 149, 2 ^ 149, 2 * 2 ^ 149] : List Int).length / 2]? = some r1 ∧
          median (([3 * 2 ^ 149, 2 ^ 149, 2 * 2 ^ 149] : List Int).map binary32.val)
            ([3 * 2 ^ 149, 2 ^ 149, 2 * 2 ^ 149] : List Int).length =
            some (binary32.val r1)) :=
  ⟨⟨by decide, by decide⟩,
    (median_is_middle_order_statistic ([3 * 2 ^ 149, 2 ^ 149, 2 * 2 ^ 149] : List Int)
      (by decide) (by decide)).1⟩

/-! ## The median threshold on distinct values -/

set_option maxRecDepth 1000000 in
/-- C5 (counterexample): the 64 consecutive `float`s from 1.0 on (codes
`2^149 + i * 2^126`) are pairwise distinct; the sum of the two central ones
rounds up, so the median stored is the upper one, `s[32]`, and the threshold
sets the 31 bits 33..63 only. -/
theorem median_threshold_consecutive_floats :
    ((List.range 64).map (fun (i : Nat) => (2 : Int) ^ 149 + (i : Int) * 2 ^ 126)).Nodup ∧
    median ((List.range 64).map
      (fun (i : Nat) => binary32.val (2 ^ 149 + (i : Int) * 2 ^ 126))) 64 =
      some (binary32.val (2 ^ 149 + 32 * 2 ^ 126)) ∧
    median_threshold ((List.range 64).map
      (fun (i : Nat) => binary32.val (2 ^ 149 + (i : Int) * 2 ^ 126))) =
      some (2 ^ 64 - 2 ^ 33) ∧
    (List.range 64).countP (fun i => (2 ^ 64 - 2 ^ 33).testBit i) = 31 := by
  decide

/-- C5 (amended): for every cropped block of 64 pairwise distinct `float`s
that are not NaN, for which the sum of the two central order statistics
`s[31]`, `s[32]` does not overflow, the median `m` stored lies in
`[s[31], s[32]]` and the threshold sets the bit of every value above `s[32]`
(the 31 largest), no bit of a value below `s[32]` (the 32 smallest), and the
bit of `s[32]` exactly when `m < s[32]`: 32 bits are set in that case, 31
otherwise. -/
theorem median_threshold_sets_upper_half (value : List Int)
    (hlen : value.length = 64) (hnd : value.Nodup)
    (hrep : ∀ c ∈ value, is_binary32 c = true)
    (hfin : (round_binary32 ((value.insertionSort (fun a b => a ≤ b)).getD 32 0 +
      (value.insertionSort (fun a b => a ≤ b)).getD 31 0)).natAbs ≠ binary32_inf) :
    ∃ hash_value m, median (value.map binary32.val) 64 = some (binary32.val m) ∧
      (value.insertionSort (fun a b => a ≤ b)).getD 31 0 ≤ m ∧
      m ≤ (value.insertionSort (fun a b => a ≤ b)).getD 32 0 ∧
      median_threshold (value.map binary32.val) = some hash_value ∧ hash_value < 2 ^ 64 ∧
      (List.range 64).countP (fun i => hash_value.testBit i) =
        (if m < (value.insertionSort (fun a b => a ≤ b)).getD 32 0 then 32 else 31) ∧
      ∀ i (hi : i < 64),
        ((value.insertionSort (fun a b => a ≤ b)).getD 32 0 < value.get ⟨i, by omega⟩ →
          hash_value.testBit i = true) ∧
        (value.get ⟨i, by omega⟩ < (value.insertionSort (fun a b => a ≤ b)).getD 32 0 →
          hash_value.testBit i = false) ∧
        (value.get ⟨i, by omega⟩ = (value.insertionSort (fun a b => a ≤ b)).getD 32 0 →
          (hash_value.testBit i = true ↔
            m < (value.insertionSort (fun a b => a ≤ b)).getD 32 0)) := by
  have hsorted := List.sorted_insertionSort (fun (a b : Int) => a ≤ b) value
  have hperm := List.perm_insertionSort (fun (a b : Int) => a ≤ b) value
  have hslen : (value.insertionSort (fun a b => a ≤ b)).length = 64 :=
    hperm.length_eq.trans hlen
  have hsnd : (value.insertionSort (fun a b => a ≤ b)).Nodup := hperm.nodup_iff.mpr hnd
  have hm := median_codes_spec value (by omega) (by omega)
  rw [hlen, if_neg (by decide)] at hm
  have e32 : 64 / 2 = 32 := rfl
  have e31 : 64 / 2 - 1 = 31 := rfl
  rw [e32, e31] at hm
  set s := value.insertionSort (fun a b => a ≤ b) with hs
  have hsrep : ∀ j, j < 64 → is_binary32 (s.getD j 0) = true := by
    intro j hj
    apply hrep
    rw [List.getD_eq_getElem s 0 (by omega)]
    exact hperm.mem_iff.mp (List.getElem_mem _)
  have hstrict : ∀ i j, i < j → j < 64 → s.getD i 0 < s.getD j 0 := by
    intro i j hij hj
    apply lt_of_le_of_ne (sorted_getD_le 0 s hsorted _ _ (by omega) (by omega))
    rw [List.getD_eq_getElem s 0 (by omega), List.getD_eq_getElem s 0 (by omega)]
    intro h
    have := (List.Nodup.getElem_inj_iff hsnd).mp h
    omega
  have hbound : ∀ j, j < 64 → (s.getD j 0).natAbs ≤ binary32_inf := fun j hj =>
    ((is_binary32_iff _).mp (hsrep j hj)).1
  have h0 := hbound 0 (by omega)
  have h63 := hbound 63 (by omega)
  have h0_31 := hstrict 0 31 (by omega) (by omega)
  have h31_32 := hstrict 31 32 (by omega) (by omega)
  have h32_63 := hstrict 32 63 (by omega) (by omega)
  obtain ⟨hmv, hm1, hm2⟩ := median_value_between (s.getD 32 0) (s.getD 31 0)
    (hsrep 32 (by omega)) (hsrep 31 (by omega)) (le_of_lt h31_32) (by omega) (by omega) hfin
  rw [hmv] at hm
  set m := half_code (round_binary32 (s.getD 32 0 + s.getD 31 0)) with hmdef
  obtain ⟨h, hh, hlt, hbits⟩ := threshold_bits_of_codes value (binary32.val m) hlen
  have hget : ∀ i (hi : i < 64), value.get ⟨i, by omega⟩ = value.getD i 0 := by
    intro i hi
    rw [List.getD_eq_getElem value 0 (by omega)]
    rfl
  refine ⟨h, m, hm, hm1, hm2, ?_, hlt, ?_, ?_⟩
  · unfold median_threshold
    rw [hm]
    exact hh
  · rw [countP_bits_of_codes value (binary32.val m) hlen h hbits]
    by_cases c : m < s.getD 32 0
    · rw [if_pos c]
      rw [countP_eq_of_split 0 s (fun x => decide (binary32.val m < binary32.val x)) 32
        (by omega)
        (fun i hi => decide_eq_false (by
          rw [binary32_val_lt]
          have := sorted_getD_le 0 s hsorted i 31 (by omega) (by omega)
          omega))
        (fun i hi1 hi2 => decide_eq_true (by
          rw [binary32_val_lt]
          have := sorted_getD_le 0 s hsorted 32 i (by omega) (by omega)
          omega))]
      omega
    · rw [if_neg c]
      rw [countP_eq_of_split 0 s (fun x => decide (binary32.val m < binary32.val x)) 33
        (by omega)
        (fun i hi => decide_eq_false (by
          rw [binary32_val_lt]
          have := sorted_getD_le 0 s hsorted i 32 (by omega) (by omega)
          omega))
        (fun i hi1 hi2 => decide_eq_true (by
          rw [binary32_val_lt]
          have := hstrict 32 i (by omega) (by omega)
          omega))]
      omega
  · intro i hi
    rw [hget i hi, hbits i hi]
    refine ⟨?_, ?_, ?_⟩
    · intro hv
      exact decide_eq_true (by rw [binary32_val_lt]; omega)
    · intro hv
      apply decide_eq_false
      rw [binary32_val_lt]
      have hmem : value.getD i 0 ∈ s := by
        rw [List.getD_eq_getElem value 0 (by omega)]
        exact hperm.mem_iff.mpr (List.getElem_mem _)
      obtain ⟨j, hj, hj2⟩ := List.getElem_of_mem hmem
      have ej : s.getD j 0 = value.getD i 0 := by
        rw [List.getD_eq_getElem s 0 hj]
        exact hj2
      have hj31 : j ≤ 31 := by
        by_contra hc
        have := sorted_getD_le 0 s hsorted 32 j (by omega) (by omega)
        omega
      have := sorted_getD_le 0 s hsorted j 31 (by omega) (by omega)
      omega
    · intro hv
      rw [hv, decide_eq_true_eq, binary32_val_lt]

set_option maxRecDepth 1000000 in
theorem median_threshold_sets_upper_half_witness :
    ((List.range 64).map (fun (i : Nat) => (i : Int) * 2 ^ 149)).length = 64 ∧
    ((List.range 64).map (fun (i : Nat) => (i : Int) * 2 ^ 149)).Nodup ∧
    (∀ c ∈ (List.range 64).map (fun (i : Nat) => (i : Int) * 2 ^ 149), is_binary32 c = true) ∧
    (round_binary32
      ((((List.range 64).map (fun (i : Nat) => (i : Int) * 2 ^ 149)).insertionSort
          (fun a b => a ≤ b)).getD 32 0 +
        (((List.range 64).map (fun (i : Nat) => (i : Int) * 2 ^ 149)).insertionSort
          (fun a b => a ≤ b)).getD 31 0)).natAbs ≠ binary32_inf ∧
    ∃ hash_value,
      median_threshold ((List.range 64).map
        (fun (i : Nat) => binary32.val ((i : Int) * 2 ^ 149))) = some hash_value ∧
      hash_value < 2 ^ 64 ∧
      (List.range 64).countP (fun i => hash_value.testBit i) = 32 := by
  have hv : ((List.range 64).map (fun (i : Nat) => (i : Int) * 2 ^ 149)).map binary32.val =
      (List.range 64).map (fun (i : Nat) => binary32.val ((i : Int) * 2 ^ 149)) := by
    rw [List.map_map]
    rfl
  obtain ⟨h, m, h1, _, _, h4, h5, h6, _⟩ := median_threshold_sets_upper_half
    ((List.range 64).map (fun (i : Nat) => (i : Int) * 2 ^ 149))
    (by decide) (by decide) (by decide) (by decide)
  rw [hv] at h1 h4
  rw [median_range_64] at h1
  have hmv : m = 63 * 2 ^ 148 := by
    injection h1 with h1
    injection h1 with h1
    exact h1.symm
  rw [hmv, if_pos (by decide)] at h6
  exact ⟨by decide, by decide, by decide, by decide, h, h4, h5, h6⟩

/-! ## The number of bits set by the median threshold -/

set_option maxRecDepth 1000000 in
/-- C29 (counterexample): for 64 values `-2^127` (code `-(2^127 * 2^149)`)
the sum `r1 + r2` overflows to `-inf`, which is the median stored; every
value is above it, so all 64 bits are set although the values are equal. -/
theorem median_threshold_of_equal_large_values :
    median (List.replicate 64 (binary32.val (-(2 ^ 127 * 2 ^ 149)))) 64 =
      some (binary32.val (-(binary32_inf : Int))) ∧
    median_threshold (List.replicate 64 (binary32.val (-(2 ^ 127 * 2 ^ 149)))) =
      some (2 ^ 64 - 1) ∧
    (List.range 64).countP (fun i => (2 ^ 64 - 1).testBit i) = 64 := by
  decide

/-- C29 (amended): for every cropped block of 64 `float`s that are not NaN,
for which the sum of the two central order statistics is `-inf` only if the
lower of them is, the median and threshold step of `phs_dct_image_hash`
yields a word with at most 32 of its 64 bits set, and the word 0 when the 64
values are equal. -/
theorem median_threshold_at_most_half (value : List Int) (hlen : value.length = 64)
    (hrep : ∀ c ∈ value, is_binary32 c = true)
    (hsum : binary32.add
        (binary32.val ((value.insertionSort (fun a b => a ≤ b)).getD 32 0))
        (binary32.val ((value.insertionSort (fun a b => a ≤ b)).getD 31 0)) =
        binary32.val (-(binary32_inf : Int)) →
      (value.insertionSort (fun a b => a ≤ b)).getD 31 0 = -(binary32_inf : Int)) :
    ∃ hash_value, median_threshold (value.map binary32.val) = some hash_value ∧
      (List.range 64).countP (fun i => hash_value.testBit i) ≤ 32 ∧
      ((∀ a ∈ value, ∀ b ∈ value, a = b) → hash_value = 0) := by
  have hsorted := List.sorted_insertionSort (fun (a b : Int) => a ≤ b) value
  have hperm := List.perm_insertionSort (fun (a b : Int) => a ≤ b) value
  have hslen : (value.insertionSort (fun a b => a ≤ b)).length = 64 :=
    hperm.length_eq.trans hlen
  have hm := median_codes_spec value (by omega) (by omega)
  rw [hlen, if_neg (by decide)] at hm
  have e32 : 64 / 2 = 32 := rfl
  have e31 : 64 / 2 - 1 = 31 := rfl
  rw [e32, e31] at hm
  set s := value.insertionSort (fun a b => a ≤ b) with hs
  have hsrep : ∀ j, j < 64 → is_binary32 (s.getD j 0) = true := by
    intro j hj
    apply hrep
    rw [List.getD_eq_getElem s 0 (by omega)]
    exact hperm.mem_iff.mp (List.getElem_mem _)
  have h3231 : s.getD 31 0 ≤ s.getD 32 0 :=
    sorted_getD_le 0 s hsorted _ _ (by omega) (by omega)
  set m := binary32.half (binary32.add (binary32.val (s.getD 32 0))
    (binary32.val (s.getD 31 0))) with hmdef
  have hlow : ∀ x, x ≤ s.getD 31 0 → ¬ m < binary32.val x := fun x hx =>
    median_value_not_below (s.getD 32 0) (s.getD 31 0) x (hsrep 32 (by omega))
      (hsrep 31 (by omega)) h3231 hx hsum
  obtain ⟨h, hh, hlt, hbits⟩ := threshold_bits_of_codes value m hlen
  refine ⟨h, ?_, ?_, ?_⟩
  · unfold median_threshold
    rw [hm]
    exact hh
  · rw [countP_bits_of_codes value m hlen h hbits, ← hs]
    have hnot := le_countP_of_head_true 0 s (fun x => !decide (m < binary32.val x)) 31
      (by omega)
      (fun i hi => by
        show (!decide (m < binary32.val (s.getD i 0))) = true
        rw [decide_eq_false (hlow _ (sorted_getD_le 0 s hsorted i 31 hi (by omega)))]
        rfl)
    have hsumc : s.length = List.countP (fun x => decide (m < binary32.val x)) s +
        List.countP (fun x => !decide (m < binary32.val x)) s := by
      have h0 := List.length_eq_countP_add_countP (fun x => decide (m < binary32.val x)) s
      rw [h0]
      congr 1
      apply List.countP_congr
      intro x _
      simp
    omega
  · intro heq
    have hall : ∀ i, i < 64 → value.getD i 0 = s.getD 31 0 := by
      intro i hi
      have hmem : s.getD 31 0 ∈ value := by
        rw [List.getD_eq_getElem s 0 (by omega)]
        exact hperm.mem_iff.mp (List.getElem_mem _)
      have hv : value.getD i 0 ∈ value := by
        rw [List.getD_eq_getElem value 0 (by omega)]
        exact List.getElem_mem _
      exact heq _ hv _ hmem
    apply Nat.eq_of_testBit_eq
    intro i
    rw [Nat.zero_testBit]
    by_cases hi : i < 64
    · rw [hbits i hi, hall i hi]
      exact decide_eq_false (hlow _ (le_refl _))
    · exact Nat.testBit_eq_false_of_lt
        (lt_of_lt_of_le hlt (Nat.pow_le_pow_right (by omega) (by omega)))

set_option maxRecDepth 1000000 in
theorem median_threshold_at_most_half_witness :
    (List.replicate 64 ((5 : Int) * 2 ^ 149)).length = 64 ∧
    (∀ c ∈ List.replicate 64 ((5 : Int) * 2 ^ 149), is_binary32 c = true) ∧
    ∃ hash_value,
      median_threshold ((List.replicate 64 ((5 : Int) * 2 ^ 149)).map binary32.val) =
        some hash_value ∧
      (List.range 64).countP (fun i => hash_value.testBit i) ≤ 32 ∧ hash_value = 0 :=
  ⟨List.length_replicate _ _, by decide,
    let ⟨v, h1, h2, h3⟩ := median_threshold_at_most_half
      (List.replicate 64 ((5 : Int) * 2 ^ 149)) (List.length_replicate _ _) (by decide)
      (by decide)
    ⟨v, h1, h2, h3 (fun _ ha _ hb =>
      (List.eq_of_mem_replicate ha).trans (List.eq_of_mem_replicate hb).symm)⟩⟩

end Blockhash
